import Mathlib

/-!
PandOS phase 1: process queues (pcb.c) and the Active Semaphore List (asl.c).

A shallow embedding of `src/phase1/pcb.c` and `src/phase1/asl.c`.

The C code keeps every queue as an intrusive, circular, doubly linked list of
`struct list_head` objects.  The embedding keeps that level of detail: the
memory of all `list_head` objects is a pair of maps `next`, `prev` from
addresses to addresses, and every function of the source is translated
statement by statement into writes on those maps.

Addresses are symbolic.  A `list_head` is identified by the object it is a
member of (`&pcb[i].p_list`, `&semd_table[j].s_procq`, `&semd_h`, ...), so
`container_of` is a pattern match.  The objects linked through `p_list` and
the ones linked through `s_link` are two separate families: no statement of
the source stores the address of a member of one family in a link of the
other.

Loops that walk a list carry a fuel argument: on a ring that never comes back
to its head the C loop does not terminate, and the model returns `none`.
`none` is also the result when `container_of` is applied to a list head that
is not embedded in the expected structure (undefined behaviour in C).
-/

namespace Pandos

/-! ## listx.h -/

/-- Modelled from the spec: `struct list_head` of `listx.h` (the header is not
under `src/`).  `Links α` is the memory of every `list_head` whose address is
in `α`: `L.next a` is `a->next` and `L.prev a` is `a->prev`. -/
structure Links (α : Type) where
  next : α → α
  prev : α → α

section listx
variable {α : Type} [DecidableEq α]

/-- The assignment `a->next = v`. -/
def setNext (L : Links α) (a v : α) : Links α :=
  { L with next := fun x => if x = a then v else L.next x }

/-- The assignment `a->prev = v`. -/
def setPrev (L : Links α) (a v : α) : Links α :=
  { L with prev := fun x => if x = a then v else L.prev x }

/-- Modelled from the spec: `INIT_LIST_HEAD` of `listx.h` (not under `src/`):
`l->next = l; l->prev = l`. -/
def INIT_LIST_HEAD (L : Links α) (l : α) : Links α :=
  setPrev (setNext L l l) l l

/-- Modelled from the spec: `__list_add(new, prev, next)` of `listx.h` (not
under `src/`), the list primitive the intrusive queues of the spec rest on:
`next->prev = new; new->next = next; new->prev = prev; prev->next = new`. -/
def __list_add (L : Links α) (new prev next : α) : Links α :=
  setNext (setPrev (setNext (setPrev L next new) new next) new prev) prev new

/-- Modelled from the spec: `list_add(new, head)` of `listx.h` (not under
`src/`): `__list_add(new, head, head->next)`, insertion right after the head. -/
def list_add (L : Links α) (new head : α) : Links α :=
  __list_add L new head (L.next head)

/-- Modelled from the spec: `list_add_tail(new, head)` of `listx.h` (not under
`src/`): `__list_add(new, head->prev, head)`, insertion right before the head. -/
def list_add_tail (L : Links α) (new head : α) : Links α :=
  __list_add L new (L.prev head) head

/-- Modelled from the spec: `__list_del(prev, next)` of `listx.h` (not under
`src/`): `next->prev = prev; prev->next = next`. -/
def __list_del (L : Links α) (prev next : α) : Links α :=
  setNext (setPrev L next prev) prev next

/-- Modelled from the spec: `list_del(entry)` of `listx.h` (not under `src/`):
`__list_del(entry->prev, entry->next)`.  The links of `entry` itself are left
as they were. -/
def list_del (L : Links α) (entry : α) : Links α :=
  __list_del L (L.prev entry) (L.next entry)

/-- Modelled from the spec: `list_empty(head)` of `listx.h` (not under `src/`):
`head->next == head`. -/
def list_empty (L : Links α) (head : α) : Bool :=
  decide (L.next head = head)

end listx

/-! ## Addresses and the state -/

/-- The `list_head` objects that are linked through `p_list`: the `p_list`
member of a PCB, the `s_procq` member of a semaphore descriptor, the static
`pcbFree_h` of pcb.c, and queue heads owned by a caller (`anchor`). -/
inductive QNode where
  | p_list (i : Nat)
  | s_procq (j : Nat)
  | pcbFree_h
  | anchor (a : Nat)
  deriving DecidableEq, Repr

/-- The `list_head` objects linked through `s_link`: the `s_link` member of
`semd_table[j]` and the two static heads of asl.c. -/
inductive SNode where
  | s_link (j : Nat)
  | semd_h
  | semdFree_h
  deriving DecidableEq, Repr

/-- The `list_head` objects of the process tree: the `p_child` and `p_sib`
members of a PCB. -/
inductive TNode where
  | p_child (i : Nat)
  | p_sib (i : Nat)
  deriving DecidableEq, Repr

/-- The null pointer, for the fields that hold an address as a number
(`p_semAdd`, `s_key`, `p_supportStruct`). -/
def NULL : Nat := 0

/-- The memory the two source files work on.  PCBs and descriptors are named
by a number (`pcb i`, `semd_table[j]`); a `pcb_t *` is an `Option Nat` with
`none` for `NULL`.  A semaphore key (`int *`) is its address as a number. -/
structure State where
  /-- links of the `p_list` family -/
  q : Links QNode
  /-- links of the `s_link` family -/
  s : Links SNode
  /-- links of the `p_child` / `p_sib` family -/
  t : Links TNode
  s_key : Nat → Nat
  p_semAdd : Nat → Nat
  p_prio : Nat → Int
  p_parent : Nat → Option Nat
  p_time : Nat → Nat
  p_supportStruct : Nat → Nat
  p_pid : Nat → Int
  next_pid : Int

/-- Update of one entry of a field table: `tbl[i] = v`. -/
def upd {β : Type} (tbl : Nat → β) (i : Nat) (v : β) : Nat → β :=
  fun x => if x = i then v else tbl x

/-- The `container_of(pos, pcb_t, p_list)` of the source: defined on the
`p_list` member of a PCB only. -/
def container_of_p_list : QNode → Option Nat
  | QNode.p_list i => some i
  | _ => none

/-- The `container_of(pos, semd_t, s_link)` of the source. -/
def container_of_s_link : SNode → Option Nat
  | SNode.s_link j => some j
  | _ => none

/-! ## pcb.c, part 1: the PCB pool -/

/-- The value an `int` holds after an arithmetic result `x`: two's complement
on 32 bits.  (Signed overflow is undefined in ISO C; this is what the
addition of the target machine leaves in the register.) -/
def wrap32 (x : Int) : Int :=
  (x + 2147483648) % 4294967296 - 2147483648

/-- `initPcbs()`.  `MAXPROC` is a constant of a header that is not under
`src/`; it is a parameter here.  `next_pid` is not written: its value 1 comes
from the static initialiser. -/
def initPcbs (MAXPROC : Nat) (st : State) : State :=
  { st with
    q := (List.range MAXPROC).foldl
      (fun q i => list_add_tail q (QNode.p_list i) QNode.pcbFree_h)
      (INIT_LIST_HEAD st.q QNode.pcbFree_h) }

/-- `freePcb(p)` -/
def freePcb (p : Nat) (st : State) : State :=
  { st with q := list_add_tail st.q (QNode.p_list p) QNode.pcbFree_h }

/-- `allocPcb()`: the new state and the returned `pcb_t *`. -/
def allocPcb (st : State) : Option (State × Option Nat) :=
  if list_empty st.q QNode.pcbFree_h then some (st, none)
  else
    let headNext := st.q.next QNode.pcbFree_h
    let q1 := list_del st.q headNext
    match container_of_p_list headNext with
    | none => none
    | some p =>
      some ({ st with
                p_parent := upd st.p_parent p none
                t := INIT_LIST_HEAD (INIT_LIST_HEAD st.t (TNode.p_child p)) (TNode.p_sib p)
                p_time := upd st.p_time p 0
                p_semAdd := upd st.p_semAdd p NULL
                p_supportStruct := upd st.p_supportStruct p NULL
                p_prio := upd st.p_prio p 0
                p_pid := upd st.p_pid p st.next_pid
                next_pid := wrap32 (st.next_pid + 1)
                q := INIT_LIST_HEAD q1 (QNode.p_list p) }, some p)

/-! ## pcb.c, part 2: process queues -/

/-- `mkEmptyProcQ(head)` -/
def mkEmptyProcQ (head : QNode) (st : State) : State :=
  { st with q := INIT_LIST_HEAD st.q head }

/-- `emptyProcQ(head)` -/
def emptyProcQ (head : QNode) (st : State) : Bool :=
  list_empty st.q head

/-- The `while (pos != head)` loop of `insertProcQ`, with the statement after
it: `pos` is the loop variable. -/
def insertProcQ_loop (st : State) (head : QNode) (p : Nat) : Nat → QNode → Option State
  | 0, _ => none
  | fuel + 1, pos =>
    if pos = head then
      some { st with q := list_add_tail st.q (QNode.p_list p) head }
    else
      match container_of_p_list pos with
      | none => none
      | some curr =>
        if st.p_prio p > st.p_prio curr then
          some { st with q := __list_add st.q (QNode.p_list p) (st.q.prev pos) pos }
        else
          insertProcQ_loop st head p fuel (st.q.next pos)

/-- `insertProcQ(head, p)` -/
def insertProcQ (fuel : Nat) (head : QNode) (p : Nat) (st : State) : Option State :=
  insertProcQ_loop st head p fuel (st.q.next head)

/-- `headProcQ(head)`: the outer `Option` is `none` when `container_of` is
applied to something that is not a PCB. -/
def headProcQ (head : QNode) (st : State) : Option (Option Nat) :=
  if emptyProcQ head st then some none
  else (container_of_p_list (st.q.next head)).map some

/-- `removeProcQ(head)` -/
def removeProcQ (head : QNode) (st : State) : Option (State × Option Nat) :=
  match headProcQ head st with
  | none => none
  | some none => some (st, none)
  | some (some element) =>
    some ({ st with q := list_del st.q (st.q.next head) }, some element)

/-- The `while (pos != head)` loop of `outProcQ`, with the `return NULL`
after it. -/
def outProcQ_loop (st : State) (head : QNode) (p : Nat) :
    Nat → QNode → Option (State × Option Nat)
  | 0, _ => none
  | fuel + 1, pos =>
    if pos = head then some (st, none)
    else
      match container_of_p_list pos with
      | none => none
      | some curr =>
        if curr = p then some ({ st with q := list_del st.q pos }, some p)
        else outProcQ_loop st head p fuel (st.q.next pos)

/-- `outProcQ(head, p)` -/
def outProcQ (fuel : Nat) (head : QNode) (p : Nat) (st : State) : Option (State × Option Nat) :=
  outProcQ_loop st head p fuel (st.q.next head)

/-! ## pcb.c, part 3: the process tree -/

/-- The `container_of(pos, pcb_t, p_sib)` of the source. -/
def container_of_p_sib : TNode → Option Nat
  | TNode.p_sib i => some i
  | _ => none

/-- The expression `&l.next` passed where a `struct list_head *` is expected:
`next` is the first member of `struct list_head`, so this is the address of
the `list_head` `l` itself. -/
def addr_of_next (l : TNode) : TNode := l

/-- `emptyChild(p)` -/
def emptyChild (p : Nat) (st : State) : Bool :=
  list_empty st.t (TNode.p_child p)

/-- `insertChild(prnt, p)`; either pointer may be `NULL` (`none`). -/
def insertChild (prnt p : Option Nat) (st : State) : State :=
  match prnt, p with
  | some prnt, some p =>
    { st with
      p_parent := upd st.p_parent p (some prnt)
      t := list_add st.t (TNode.p_sib p) (TNode.p_child prnt) }
  | _, _ => st

/-- `removeChild(p)`: the new state and the returned `pcb_t *`.  The source
calls `list_del(&p->p_child.next)`, not `list_del(p->p_child.next)`. -/
def removeChild (p : Nat) (st : State) : Option (State × Option Nat) :=
  if list_empty st.t (TNode.p_child p) then some (st, none)
  else
    match container_of_p_sib (st.t.next (TNode.p_child p)) with
    | none => none
    | some tmp =>
      some ({ st with
                t := list_del st.t (addr_of_next (TNode.p_child p))
                p_parent := upd st.p_parent tmp none }, some tmp)

/-- `outChild(p)`: the new state and the returned `pcb_t *`. -/
def outChild (p : Nat) (st : State) : State × Option Nat :=
  if st.p_parent p = none then (st, none)
  else
    ({ st with
        t := list_del st.t (TNode.p_sib p)
        p_parent := upd st.p_parent p none }, some p)

/-! ## asl.c -/

/-- The constants `TRUE` and `FALSE` of the missing header, as `Bool`. -/
def TRUE : Bool := true

/-- See `TRUE`. -/
def FALSE : Bool := false

/-- `initASL()`.  `MAXPROC` is a constant of a header that is not under
`src/`; it is a parameter here. -/
def initASL (MAXPROC : Nat) (st : State) : State :=
  let s0 := INIT_LIST_HEAD (INIT_LIST_HEAD st.s SNode.semdFree_h) SNode.semd_h
  { st with
    s := (List.range MAXPROC).foldl
      (fun s i => list_add s (SNode.s_link i) SNode.semdFree_h) s0 }

/-- The `list_for_each(pos, &semd_h)` loop of `getSemd` with the `return NULL`
after it: `some (some j)` is a pointer to `semd_table[j]`, `some none` is
`NULL`. -/
def getSemd_loop (st : State) (key : Nat) : Nat → SNode → Option (Option Nat)
  | 0, _ => none
  | fuel + 1, pos =>
    if pos = SNode.semd_h then some none
    else
      match container_of_s_link pos with
      | none => none
      | some entry =>
        if st.s_key entry = key then some (some entry)
        else if st.s_key entry > key then some none
        else getSemd_loop st key fuel (st.s.next pos)

/-- `getSemd(key)` -/
def getSemd (fuel : Nat) (key : Nat) (st : State) : Option (Option Nat) :=
  getSemd_loop st key fuel (st.s.next SNode.semd_h)

/-- The `list_for_each(pos, &semd_h)` loop of `insertBlocked` that links the
new descriptor `sem` into the ASL, with the `if (!inserted)` after it.  `s` is
the `s_link` memory and `s_key` the key table at that point of the function. -/
def insertBlocked_loop (s : Links SNode) (s_key : Nat → Nat) (semAdd : Nat) (sem : Nat) :
    Nat → SNode → Option (Links SNode)
  | 0, _ => none
  | fuel + 1, pos =>
    if pos = SNode.semd_h then
      some (list_add_tail s (SNode.s_link sem) SNode.semd_h)
    else
      match container_of_s_link pos with
      | none => none
      | some entry =>
        if s_key entry > semAdd then
          some (__list_add s (SNode.s_link sem) (s.prev pos) pos)
        else
          insertBlocked_loop s s_key semAdd sem fuel (s.next pos)

/-- The last three statements of `insertBlocked`, once `sem` is known:
`list_add_tail(&p->p_list, &sem->s_procq); p->p_semAdd = semAdd; return FALSE`. -/
def insertBlocked_enqueue (semAdd : Nat) (p : Nat) (sem : Nat) (st : State) : State × Bool :=
  ({ st with
      q := list_add_tail st.q (QNode.p_list p) (QNode.s_procq sem)
      p_semAdd := upd st.p_semAdd p semAdd }, FALSE)

/-- `insertBlocked(semAdd, p)`: the new state and the returned flag. -/
def insertBlocked (fuel : Nat) (semAdd : Nat) (p : Nat) (st : State) : Option (State × Bool) :=
  match getSemd fuel semAdd st with
  | none => none
  | some (some sem) => some (insertBlocked_enqueue semAdd p sem st)
  | some none =>
    if list_empty st.s SNode.semdFree_h then some (st, TRUE)
    else
      let new_node := st.s.next SNode.semdFree_h
      let s1 := list_del st.s new_node
      match container_of_s_link new_node with
      | none => none
      | some sem =>
        let s_key1 := upd st.s_key sem semAdd
        let q1 := INIT_LIST_HEAD st.q (QNode.s_procq sem)
        match insertBlocked_loop s1 s_key1 semAdd sem fuel (s1.next SNode.semd_h) with
        | none => none
        | some s2 =>
          some (insertBlocked_enqueue semAdd p sem { st with s := s2, s_key := s_key1, q := q1 })

/-- The `if (list_empty(&sem->s_procq))` block that ends `removeBlocked` and
`outBlocked`: the descriptor leaves the ASL and goes to the head of the free
list. -/
def reclaim (sem : Nat) (st : State) : State :=
  if list_empty st.q (QNode.s_procq sem) then
    { st with s := list_add (list_del st.s (SNode.s_link sem)) (SNode.s_link sem) SNode.semdFree_h }
  else st

/-- `removeBlocked(semAdd)`: the new state and the returned `pcb_t *`. -/
def removeBlocked (fuel : Nat) (semAdd : Nat) (st : State) : Option (State × Option Nat) :=
  match getSemd fuel semAdd st with
  | none => none
  | some none => some (st, none)
  | some (some sem) =>
    if list_empty st.q (QNode.s_procq sem) then some (st, none)
    else
      let first := st.q.next (QNode.s_procq sem)
      match container_of_p_list first with
      | none => none
      | some p =>
        some (reclaim sem { st with q := list_del st.q first, p_semAdd := upd st.p_semAdd p NULL },
              some p)

/-- `outBlocked(p)`: the new state and the returned `pcb_t *`. -/
def outBlocked (fuel : Nat) (p : Nat) (st : State) : Option (State × Option Nat) :=
  if st.p_semAdd p = NULL then some (st, none)
  else
    match getSemd fuel (st.p_semAdd p) st with
    | none => none
    | some none => some (st, none)
    | some (some sem) =>
      some (reclaim sem { st with q := list_del st.q (QNode.p_list p), p_semAdd := upd st.p_semAdd p NULL },
            some p)

/-- `headBlocked(semAdd)`: the state is not written. -/
def headBlocked (fuel : Nat) (semAdd : Nat) (st : State) : Option (Option Nat) :=
  match getSemd fuel semAdd st with
  | none => none
  | some none => some none
  | some (some sem) =>
    if list_empty st.q (QNode.s_procq sem) then some none
    else (container_of_p_list (st.q.next (QNode.s_procq sem))).map some

/-! ## Well-formed rings -/

section ring
variable {α : Type} [DecidableEq α]

/-- Two neighbours of a doubly linked list: `a->next == b` and `b->prev == a`. -/
def Linked (L : Links α) (a b : α) : Prop :=
  L.next a = b ∧ L.prev b = a

instance decLinked (L : Links α) (a b : α) : Decidable (Linked L a b) :=
  inferInstanceAs (Decidable (L.next a = b ∧ L.prev b = a))

/-- Deciding a chain of neighbours by walking it. -/
def decChain (L : Links α) : (l : List α) → Decidable (List.Chain' (Linked L) l)
  | [] => isTrue List.chain'_nil
  | [a] => isTrue (List.chain'_singleton a)
  | a :: b :: t =>
    match decLinked L a b, decChain L (b :: t) with
    | isTrue h1, isTrue h2 => isTrue (List.chain'_cons.2 ⟨h1, h2⟩)
    | isFalse h1, _ => isFalse (fun h => h1 (List.chain'_cons.1 h).1)
    | isTrue _, isFalse h2 => isFalse (fun h => h2 (List.chain'_cons.1 h).2)

/-- The circular list with head `h` holds exactly the entries `xs`, in this
order: following `next` from `h` visits `xs` and comes back to `h`, `prev`
goes the other way round, and no object occurs twice. -/
def Ring (L : Links α) (h : α) (xs : List α) : Prop :=
  List.Chain' (Linked L) (h :: xs ++ [h]) ∧ (h :: xs).Nodup

instance decRing (L : Links α) (h : α) (xs : List α) : Decidable (Ring L h xs) :=
  match decChain L (h :: xs ++ [h]), (inferInstance : Decidable ((h :: xs).Nodup)) with
  | isTrue h1, isTrue h2 => isTrue ⟨h1, h2⟩
  | isFalse h1, _ => isFalse (fun r => h1 r.1)
  | isTrue _, isFalse h2 => isFalse (fun r => h2 r.2)

end ring

/-! ## Specification-side definitions -/

/-- The queue the spec describes for `insert(anchor, pcb)` (section 4.2):
`p` sits right before the first entry whose priority is strictly lower than
its own, that is, after the longest leading run of entries whose priority is
at least its own; at the tail when there is no such entry. -/
def specInsert (prio : Nat → Int) (p : Nat) (q : List Nat) : List Nat :=
  q.takeWhile (fun c => decide (prio p ≤ prio c)) ++
    p :: q.dropWhile (fun c => decide (prio p ≤ prio c))

/-- A caller that calls `insertProcQ(head, p)` for each `p` of a list, first
to last. -/
def insertAll (fuel : Nat) (head : QNode) : List Nat → State → Option State
  | [], st => some st
  | p :: ps, st =>
    match insertProcQ fuel head p st with
    | none => none
    | some st1 => insertAll fuel head ps st1

/-- A caller that calls `removeProcQ(head)` until it returns `NULL`, at most
`n` times, and collects the PCBs it got, first to last. -/
def drain (head : QNode) : Nat → State → Option (List Nat × State)
  | 0, _ => none
  | n + 1, st =>
    match removeProcQ head st with
    | none => none
    | some (st1, none) => some ([], st1)
    | some (st1, some e) =>
      match drain head n st1 with
      | none => none
      | some (out, st2) => some (e :: out, st2)

/-- What the scan of `getSemd` returns on a list of descriptors, entry by
entry: the first entry with the key, unless an entry with a greater key comes
first. -/
def scanKeys (s_key : Nat → Nat) (key : Nat) : List Nat → Option Nat
  | [] => none
  | j :: js =>
    if s_key j = key then some j
    else if s_key j > key then none
    else scanKeys s_key key js

/-- An exhaustive linear scan of the ASL for `key`, as the spec words the
reference that `getSemd` must agree with: the loop of `getSemd` without the
early `return NULL` at an entry with a greater key. -/
def exhaustiveScan_loop (st : State) (key : Nat) : Nat → SNode → Option (Option Nat)
  | 0, _ => none
  | fuel + 1, pos =>
    if pos = SNode.semd_h then some none
    else
      match container_of_s_link pos with
      | none => none
      | some entry =>
        if st.s_key entry = key then some (some entry)
        else exhaustiveScan_loop st key fuel (st.s.next pos)

/-- See `exhaustiveScan_loop`. -/
def exhaustiveScan (fuel : Nat) (key : Nat) (st : State) : Option (Option Nat) :=
  exhaustiveScan_loop st key fuel (st.s.next SNode.semd_h)

/-- The ASL with a new descriptor `sem` for `semAdd` linked in where
`insertBlocked` puts it: before the first descriptor with a greater key. -/
def specInsertKey (s_key : Nat → Nat) (semAdd sem : Nat) (asl : List Nat) : List Nat :=
  asl.takeWhile (fun j => decide (s_key j ≤ semAdd)) ++
    sem :: asl.dropWhile (fun j => decide (s_key j ≤ semAdd))

/-- The `s_link` memory `s` and the key table hold the ASL `asl` and the free
list `free` (descriptors by number, in list order): both rings are well
formed, no descriptor is on both, and the keys along the ASL are strictly
ascending. -/
def AslInv (s : Links SNode) (s_key : Nat → Nat) (asl free : List Nat) : Prop :=
  Ring s SNode.semd_h (asl.map SNode.s_link) ∧
  Ring s SNode.semdFree_h (free.map SNode.s_link) ∧
  (asl ++ free).Nodup ∧
  (asl.map s_key).Pairwise (fun a b => a < b)

instance decAslInv (s : Links SNode) (s_key : Nat → Nat) (asl free : List Nat) :
    Decidable (AslInv s s_key asl free) :=
  inferInstanceAs (Decidable (_ ∧ _ ∧ _ ∧ _))

/-- The `p_list` memory `q` holds, for every descriptor `j` of `asl`, the
waiter queue `wq j` (PCBs by number, head first): each `s_procq` ring is well
formed and not empty, and no PCB is in two of them. -/
def QInv (q : Links QNode) (asl : List Nat) (wq : Nat → List Nat) : Prop :=
  (∀ j ∈ asl, Ring q (QNode.s_procq j) ((wq j).map QNode.p_list) ∧ wq j ≠ []) ∧
  (∀ j ∈ asl, ∀ j' ∈ asl, j ≠ j' → ∀ p ∈ wq j, p ∉ wq j')

instance decQInv (q : Links QNode) (asl : List Nat) (wq : Nat → List Nat) :
    Decidable (QInv q asl wq) :=
  inferInstanceAs (Decidable (_ ∧ _))

/-- A well-formed ASL state: `asl` is the ASL, `free` the descriptor free
list and `wq j` the waiter queue of descriptor `j`. -/
def WF (st : State) (asl free : List Nat) (wq : Nat → List Nat) : Prop :=
  AslInv st.s st.s_key asl free ∧ QInv st.q asl wq

instance decWF (st : State) (asl free : List Nat) (wq : Nat → List Nat) :
    Decidable (WF st asl free wq) :=
  inferInstanceAs (Decidable (_ ∧ _))

/-- The states the ASL can be in: `initASL()` on any memory, followed by any
calls of `insertBlocked`, `removeBlocked`, `outBlocked` and `headBlocked` that
return, with any arguments. -/
inductive Reachable (MAXPROC : Nat) : State → Prop
  | init (st : State) : Reachable MAXPROC (initASL MAXPROC st)
  | insertBlocked {st st1 : State} (fuel semAdd p : Nat) (r : Bool) :
      Reachable MAXPROC st → insertBlocked fuel semAdd p st = some (st1, r) →
      Reachable MAXPROC st1
  | removeBlocked {st st1 : State} (fuel semAdd : Nat) (r : Option Nat) :
      Reachable MAXPROC st → removeBlocked fuel semAdd st = some (st1, r) →
      Reachable MAXPROC st1
  | outBlocked {st st1 : State} (fuel p : Nat) (r : Option Nat) :
      Reachable MAXPROC st → outBlocked fuel p st = some (st1, r) →
      Reachable MAXPROC st1
  | headBlocked {st : State} (fuel semAdd : Nat) (r : Option Nat) :
      Reachable MAXPROC st → headBlocked fuel semAdd st = some r →
      Reachable MAXPROC st

/-- A caller that calls `allocPcb()` `n` times and collects the returned
pointers, first to last. -/
def allocMany : Nat → State → Option (List (Option Nat) × State)
  | 0, st => some ([], st)
  | n + 1, st =>
    match allocPcb st with
    | none => none
    | some (st1, r) =>
      match allocMany n st1 with
      | none => none
      | some (rs, st2) => some (r :: rs, st2)

/-- The runs of the PCB pool: `initPcbs()` on any memory, then any calls of
`allocPcb()` and of `freePcb(p)` for a `p` that is currently allocated.
`out` lists the PCBs that are outstanding: handed out by `allocPcb` and not
given back since. -/
inductive PoolRun (MAXPROC : Nat) : State → List Nat → Prop
  | init (st : State) : PoolRun MAXPROC (initPcbs MAXPROC st) []
  | alloc {st st1 : State} {out : List Nat} (p : Nat) :
      PoolRun MAXPROC st out → allocPcb st = some (st1, some p) →
      PoolRun MAXPROC st1 (p :: out)
  | allocFail {st st1 : State} {out : List Nat} :
      PoolRun MAXPROC st out → allocPcb st = some (st1, none) → PoolRun MAXPROC st1 out
  | free {st : State} {out : List Nat} (p : Nat) :
      PoolRun MAXPROC st out → p ∈ out → PoolRun MAXPROC (freePcb p st) (out.erase p)

/-- The runs of pcb.c as far as identifiers go: a memory in which `next_pid`
has its initial value 1, then any calls of `initPcbs()`, `allocPcb()` and
`freePcb(p)` with any argument.  `log` lists the `p_pid` that each successful
`allocPcb()` of the run gave to the PCB it returned, latest first. -/
inductive PidRun : State → List Int → Prop
  | start (st : State) : st.next_pid = 1 → PidRun st []
  | initPcbs {st : State} {log : List Int} (MAXPROC : Nat) :
      PidRun st log → PidRun (initPcbs MAXPROC st) log
  | alloc {st st1 : State} {log : List Int} (p : Nat) :
      PidRun st log → allocPcb st = some (st1, some p) → PidRun st1 (st1.p_pid p :: log)
  | allocFail {st st1 : State} {log : List Int} :
      PidRun st log → allocPcb st = some (st1, none) → PidRun st1 log
  | freePcb {st : State} {log : List Int} (p : Nat) :
      PidRun st log → PidRun (freePcb p st) log

/-! ## Concrete memories, for the examples -/

/-- A memory in which every `list_head` points to itself (what
`INIT_LIST_HEAD` leaves), no PCB has a blocking key, and PCB `i` has priority
`prio i`. -/
def freshState (prio : Nat → Int) : State :=
  { q := { next := id, prev := id }
    s := { next := id, prev := id }
    t := { next := id, prev := id }
    s_key := fun _ => 0
    p_semAdd := fun _ => NULL
    p_prio := prio
    p_parent := fun _ => none
    p_time := fun _ => 0
    p_supportStruct := fun _ => 0
    p_pid := fun _ => 0
    next_pid := 1 }

/-- The priorities of the example of the spec: PCBs 0, 1, 2, 3 have
priorities 5, 3, 5, 1. -/
def prio5351 (i : Nat) : Int :=
  [5, 3, 5, 1].getD i 0

/-- A queue at `anchor 0` that holds PCB 0 (priority 5) and PCB 1 (priority
3), built with the list primitives. -/
def queue01 : State :=
  { freshState prio5351 with
    q := list_add_tail (list_add_tail (INIT_LIST_HEAD (freshState prio5351).q (QNode.anchor 0))
          (QNode.p_list 0) (QNode.anchor 0)) (QNode.p_list 1) (QNode.anchor 0) }

/-- The state after `initASL()` with `MAXPROC = 3` and
`insertBlocked(30, pcb 0)`. -/
def blocked30 : State :=
  ((insertBlocked 4 30 0 (initASL 3 (freshState prio5351))).getD (freshState prio5351, TRUE)).1

/-- Then `insertBlocked(10, pcb 1)`. -/
def blocked30_10 : State :=
  ((insertBlocked 4 10 1 blocked30).getD (freshState prio5351, TRUE)).1

/-- Then `insertBlocked(20, pcb 2)`. -/
def blocked30_10_20 : State :=
  ((insertBlocked 4 20 2 blocked30_10).getD (freshState prio5351, TRUE)).1

/-- Then `insertBlocked(10, pcb 3)`: key 10 has the two waiters PCB 1 and
PCB 3. -/
def blocked4 : State :=
  ((insertBlocked 4 10 3 blocked30_10_20).getD (freshState prio5351, TRUE)).1

/-- The waiter queues of `blocked4`. -/
def wq4 (j : Nat) : List Nat :=
  if j = 2 then [0] else if j = 1 then [1, 3] else [2]

/-- The state after `initASL()` with `MAXPROC = 3` and
`insertBlocked(10, pcb 3)`; PCB 3 has priority 1. -/
def waiting3 : State :=
  ((insertBlocked 4 10 3 (initASL 3 (freshState prio5351))).getD (freshState prio5351, TRUE)).1

/-- Then `insertBlocked(10, pcb 0)`; PCB 0 has priority 5. -/
def waiting3_0 : State :=
  ((insertBlocked 4 10 0 waiting3).getD (freshState prio5351, TRUE)).1

/-- PCB `p` is in the waiter queue of a descriptor that is on the ASL. -/
def Blocked (st : State) (p : Nat) : Prop :=
  ∃ asl j w, Ring st.s SNode.semd_h (List.map SNode.s_link asl) ∧ j ∈ asl ∧
    Ring st.q (QNode.s_procq j) (List.map QNode.p_list w) ∧ p ∈ w

/-- The states the ASL can be in when `insertBlocked` is only ever called on
a PCB that is not in a waiter queue: `initASL()` on a memory in which no PCB
records a blocking key, followed by any calls of `insertBlocked` (on such a
PCB), `removeBlocked` and `outBlocked` that return. -/
inductive ReachableProper (MAXPROC : Nat) : State → Prop
  | init (st : State) : (∀ p, st.p_semAdd p = NULL) →
      ReachableProper MAXPROC (initASL MAXPROC st)
  | insertBlocked {st st1 : State} (fuel semAdd p : Nat) (r : Bool) :
      ReachableProper MAXPROC st → ¬ Blocked st p →
      insertBlocked fuel semAdd p st = some (st1, r) → ReachableProper MAXPROC st1
  | removeBlocked {st st1 : State} (fuel semAdd : Nat) (r : Option Nat) :
      ReachableProper MAXPROC st → removeBlocked fuel semAdd st = some (st1, r) →
      ReachableProper MAXPROC st1
  | outBlocked {st st1 : State} (fuel p : Nat) (r : Option Nat) :
      ReachableProper MAXPROC st → outBlocked fuel p st = some (st1, r) →
      ReachableProper MAXPROC st1

/-- The invariant of the ASL: the state is well formed, the ASL and the free
list together hold each of the `MAXPROC` descriptors once, every waiter
records the key of the descriptor it waits on, and every PCB that records a
blocking key is a waiter of a descriptor on the ASL. -/
def AslFull (MAXPROC : Nat) (st : State) (asl free : List Nat) (wq : Nat → List Nat) : Prop :=
  WF st asl free wq ∧ (asl ++ free).Perm (List.range MAXPROC) ∧
  (∀ j ∈ asl, ∀ p ∈ wq j, st.p_semAdd p = st.s_key j) ∧
  (∀ p, st.p_semAdd p ≠ NULL → ∃ j ∈ asl, p ∈ wq j)

/-- The state after `initASL()` with `MAXPROC = 2` and
`insertBlocked(10, pcb 0)`. -/
def twice1 : State :=
  ((insertBlocked 4 10 0 (initASL 2 (freshState prio5351))).getD (freshState prio5351, TRUE)).1

/-- Then `insertBlocked(20, pcb 0)`, for the PCB that is still in the waiter
queue of key 10. -/
def twice2 : State :=
  ((insertBlocked 4 20 0 twice1).getD (freshState prio5351, TRUE)).1

/-- Then `removeBlocked(10)`. -/
def twice3 : State :=
  ((removeBlocked 4 10 twice2).getD (freshState prio5351, none)).1

/-- From `twice2`, `insertBlocked(10, pcb 1)`, for PCB 1, which is in no
queue. -/
def twice2_k10 : State :=
  ((insertBlocked 4 10 1 twice2).getD (freshState prio5351, TRUE)).1

/-- Then `outBlocked(pcb 1)`. -/
def twice2_back : State :=
  ((outBlocked 4 1 twice2_k10).getD (freshState prio5351, none)).1

/-- The state after `initASL()` with `MAXPROC = 2` and
`insertBlocked(NULL, pcb 1)`. -/
def blockedNull : State :=
  ((insertBlocked 4 NULL 1 (initASL 2 (freshState prio5351))).getD
    (freshState prio5351, TRUE)).1

/-- The state `blocked30` in which a caller has stored the key 30 in the
`p_semAdd` field of PCB 1, a PCB that is in no queue (its `p_list` points to
itself, as `allocPcb` leaves it). -/
def strayState : State :=
  { blocked30 with p_semAdd := upd blocked30.p_semAdd 1 30 }

/-- The state `blocked4` in which PCB 7, a PCB that is in no queue, records
the blocking key 99, a key that has no descriptor on the ASL. -/
def lostKeyState : State :=
  { blocked4 with p_semAdd := upd blocked4.p_semAdd 7 99 }

/-- A process tree built with `insertChild`: PCB 0 is the parent of PCBs 1, 2
and 3, inserted in this order, so its child list is 3, 2, 1. -/
def family : State :=
  insertChild (some 0) (some 3) (insertChild (some 0) (some 2) (insertChild (some 0) (some 1)
    { freshState prio5351 with
      t := INIT_LIST_HEAD (freshState prio5351).t (TNode.p_child 0) }))

/-- PCB 0 with no children, then `insertChild(pcb 0, pcb 1)` and
`removeChild(pcb 0)`. -/
def onlyChildRemoved : State :=
  ((removeChild 0 (insertChild (some 0) (some 1) (freshState prio5351))).getD
    (freshState prio5351, none)).1

/-- The tree `family`, then `insertChild(pcb 0, pcb 4)` and
`removeChild(pcb 0)`. -/
def fourthChildRemoved : State :=
  ((removeChild 0 (insertChild (some 0) (some 4) family)).getD (freshState prio5351, none)).1

/-- A pool of two PCBs right after `initPcbs()` whose slots hold values that
are not neutral: priorities 5 and 3, blocking key 77, CPU time 9, support
pointer 3, PCB 0 with three children and PCB 1 with parent PCB 0. -/
def dirtyPool : State :=
  initPcbs 2 { family with
    p_semAdd := fun _ => 77
    p_time := fun _ => 9
    p_supportStruct := fun _ => 3
    next_pid := 41 }

/-- The state after `allocPcb()` on `dirtyPool`. -/
def dirtyAlloc : State :=
  ((allocPcb dirtyPool).getD (dirtyPool, none)).1

/-- A pool of two PCBs after `initPcbs()` and one `allocPcb()`, which returns
PCB 0 with identifier 1. -/
def pool2a : State :=
  ((allocPcb (initPcbs 2 (freshState prio5351))).getD (freshState prio5351, none)).1

/-- Then `freePcb(pcb 0)` and `allocPcb()`, which returns PCB 1 with
identifier 2. -/
def pool2b : State :=
  ((allocPcb (freePcb 0 pool2a)).getD (freshState prio5351, none)).1

/-- Then `allocPcb()`, which returns PCB 0 again, with identifier 3. -/
def pool2c : State :=
  ((allocPcb pool2b).getD (freshState prio5351, none)).1

/-- The state `waiting3` (key 10 active, PCB 3 waiting), then
`insertBlocked(20, pcb 0)`: a new descriptor enters the ASL. -/
def waiting3_k20 : State :=
  ((insertBlocked 4 20 0 waiting3).getD (freshState prio5351, TRUE)).1

/-! ## The queues of the whole layer -/

/-- A family of queues in the `p_list` memory: every head of `heads` is not a
PCB and carries a well-formed ring that holds the PCBs `content h` (head
first), and no PCB is in the rings of two heads. -/
def Fam (q : Links QNode) (heads : List QNode) (content : QNode → List Nat) : Prop :=
  (∀ h ∈ heads, (∀ i, h ≠ QNode.p_list i) ∧ Ring q h ((content h).map QNode.p_list)) ∧
  (∀ h ∈ heads, ∀ h1 ∈ heads, h ≠ h1 → ∀ p ∈ content h, p ∉ content h1)

/-- The queue heads of the layer: the free list of PCBs, the process queues
`anchor a` that the caller has made (`a ∈ A`), and the waiter queues of the
descriptors on the ASL. -/
def layerHeads (A asl : List Nat) : List QNode :=
  QNode.pcbFree_h :: (A.map QNode.anchor ++ asl.map QNode.s_procq)

/-- PCB `p` is in a queue of the layer: in the free list of PCBs, in one of
the process queues `anchor a`, `a ∈ A`, or in the waiter queue of a descriptor
on the ASL. -/
def Queued (st : State) (A : List Nat) (p : Nat) : Prop :=
  (∃ w, Ring st.q QNode.pcbFree_h (List.map QNode.p_list w) ∧ p ∈ w) ∨
  (∃ a ∈ A, ∃ w, Ring st.q (QNode.anchor a) (List.map QNode.p_list w) ∧ p ∈ w) ∨
  Blocked st p

/-- The runs of the whole layer in which a PCB is only linked into a queue
when it is in no queue.  The run starts with `initPcbs()` and `initASL()` on
a memory in which no PCB records a blocking key; `A` lists the process queues
the caller has made with `mkEmptyProcQ`.  `freePcb`, `insertProcQ` and
`insertBlocked` are called on PCBs that are in no queue of the layer; the
process-queue calls are made on queues of `A`; everything else is free.  The
calls that do not write the state (`emptyProcQ`, `headProcQ`, `emptyChild`,
`headBlocked`) are left out. -/
inductive LayerRun (MAXPROC : Nat) : State → List Nat → Prop
  | init (st : State) : (∀ p, st.p_semAdd p = NULL) →
      LayerRun MAXPROC (initASL MAXPROC (initPcbs MAXPROC st)) []
  | allocPcb {st st1 : State} {A : List Nat} (r : Option Nat) :
      LayerRun MAXPROC st A → allocPcb st = some (st1, r) → LayerRun MAXPROC st1 A
  | freePcb {st : State} {A : List Nat} (p : Nat) :
      LayerRun MAXPROC st A → ¬ Queued st A p → LayerRun MAXPROC (freePcb p st) A
  | mkEmptyProcQ {st : State} {A : List Nat} (a : Nat) :
      LayerRun MAXPROC st A → LayerRun MAXPROC (mkEmptyProcQ (QNode.anchor a) st) (a :: A)
  | insertProcQ {st st1 : State} {A : List Nat} (fuel a p : Nat) :
      LayerRun MAXPROC st A → a ∈ A → ¬ Queued st A p →
      insertProcQ fuel (QNode.anchor a) p st = some st1 → LayerRun MAXPROC st1 A
  | removeProcQ {st st1 : State} {A : List Nat} (a : Nat) (r : Option Nat) :
      LayerRun MAXPROC st A → a ∈ A →
      removeProcQ (QNode.anchor a) st = some (st1, r) → LayerRun MAXPROC st1 A
  | outProcQ {st st1 : State} {A : List Nat} (fuel a p : Nat) (r : Option Nat) :
      LayerRun MAXPROC st A → a ∈ A →
      outProcQ fuel (QNode.anchor a) p st = some (st1, r) → LayerRun MAXPROC st1 A
  | insertChild {st : State} {A : List Nat} (prnt p : Option Nat) :
      LayerRun MAXPROC st A → LayerRun MAXPROC (insertChild prnt p st) A
  | removeChild {st st1 : State} {A : List Nat} (p : Nat) (r : Option Nat) :
      LayerRun MAXPROC st A → removeChild p st = some (st1, r) → LayerRun MAXPROC st1 A
  | outChild {st : State} {A : List Nat} (p : Nat) :
      LayerRun MAXPROC st A → LayerRun MAXPROC (outChild p st).1 A
  | insertBlocked {st st1 : State} {A : List Nat} (fuel semAdd p : Nat) (r : Bool) :
      LayerRun MAXPROC st A → ¬ Queued st A p →
      insertBlocked fuel semAdd p st = some (st1, r) → LayerRun MAXPROC st1 A
  | removeBlocked {st st1 : State} {A : List Nat} (fuel semAdd : Nat) (r : Option Nat) :
      LayerRun MAXPROC st A → removeBlocked fuel semAdd st = some (st1, r) →
      LayerRun MAXPROC st1 A
  | outBlocked {st st1 : State} {A : List Nat} (fuel p : Nat) (r : Option Nat) :
      LayerRun MAXPROC st A → outBlocked fuel p st = some (st1, r) →
      LayerRun MAXPROC st1 A

/-- The invariant of the whole layer: the ASL is well formed, every queue of
the layer is a well-formed ring, no PCB is in two of them, every waiter
records the key of its descriptor, and every PCB that records a blocking key
is a waiter of a descriptor on the ASL. -/
def LayerInv (st : State) (A asl free : List Nat) (content : QNode → List Nat) : Prop :=
  AslInv st.s st.s_key asl free ∧
  Fam st.q (layerHeads A asl) content ∧
  (∀ j ∈ asl, ∀ p ∈ content (QNode.s_procq j), st.p_semAdd p = st.s_key j) ∧
  (∀ p, st.p_semAdd p ≠ NULL → ∃ j ∈ asl, p ∈ content (QNode.s_procq j))


/-- The layer after `initPcbs()`, `initASL()` (two PCBs, two descriptors) and
one `allocPcb()`, which returns PCB 0. -/
def run_alloc : State :=
  ((allocPcb (initASL 2 (initPcbs 2 (freshState prio5351)))).getD
    (freshState prio5351, none)).1

/-- Then `mkEmptyProcQ(anchor 0)` and `insertProcQ(anchor 0, pcb 0)`: PCB 0 is
in a process queue. -/
def run_ready : State :=
  (insertProcQ 3 (QNode.anchor 0) 0 (mkEmptyProcQ (QNode.anchor 0) run_alloc)).getD
    (freshState prio5351)

/-- Then `insertBlocked(10, pcb 0)`, for the PCB that is still in the process
queue. -/
def run_both : State :=
  ((insertBlocked 4 10 0 run_ready).getD (freshState prio5351, TRUE)).1

/-- From `run_ready`, `removeProcQ(anchor 0)` instead: PCB 0 leaves the
process queue. -/
def run_taken : State :=
  ((removeProcQ (QNode.anchor 0) run_ready).getD (freshState prio5351, none)).1

/-- Then `insertBlocked(10, pcb 0)`, for the PCB that is in no queue now. -/
def run_moved : State :=
  ((insertBlocked 4 10 0 run_taken).getD (freshState prio5351, TRUE)).1
/-! # Theorems -/

set_option linter.unusedSectionVars false
set_option linter.unusedVariables false

/-! ## Writes on the link memory -/

section listx_lemmas
variable {α : Type} [DecidableEq α]

@[simp] theorem setNext_next (L : Links α) (a v x : α) :
    (setNext L a v).next x = if x = a then v else L.next x := rfl

@[simp] theorem setNext_prev (L : Links α) (a v : α) : (setNext L a v).prev = L.prev := rfl

@[simp] theorem setPrev_prev (L : Links α) (a v x : α) :
    (setPrev L a v).prev x = if x = a then v else L.prev x := rfl

@[simp] theorem setPrev_next (L : Links α) (a v : α) : (setPrev L a v).next = L.next := rfl

theorem list_add_next (L : Links α) (new a b x : α) :
    (__list_add L new a b).next x = if x = a then new else if x = new then b else L.next x := by
  simp [__list_add]

theorem list_add_prev (L : Links α) (new a b x : α) :
    (__list_add L new a b).prev x = if x = new then a else if x = b then new else L.prev x := by
  simp [__list_add]

theorem list_del_next (L : Links α) (a b x : α) :
    (__list_del L a b).next x = if x = a then b else L.next x := by
  simp [__list_del]

theorem list_del_prev (L : Links α) (a b x : α) :
    (__list_del L a b).prev x = if x = b then a else L.prev x := by
  simp [__list_del]

/-- A chain survives every write that leaves `next` alone on all but its last
element and `prev` alone on all but its first one. -/
theorem chain_frame {L L' : Links α} : ∀ (l : List α), List.Chain' (Linked L) l →
    (∀ c ∈ l.dropLast, L'.next c = L.next c) → (∀ d ∈ l.tail, L'.prev d = L.prev d) →
    List.Chain' (Linked L') l
  | [], _, _, _ => List.chain'_nil
  | [a], _, _, _ => List.chain'_singleton a
  | a :: b :: t, h, hn, hp => by
    rw [List.chain'_cons] at h ⊢
    refine ⟨⟨?_, ?_⟩, chain_frame (b :: t) h.2 ?_ ?_⟩
    · rw [hn a (by simp)]; exact h.1.1
    · rw [hp b (by simp)]; exact h.1.2
    · intro c hc; exact hn c (by simp [List.dropLast] at hc ⊢; right; exact hc)
    · intro d hd; exact hp d (by simp at hd ⊢; right; exact hd)

/-- Linking `new` between the neighbours `a` and `b`. -/
theorem chain_insert {L : Links α} {A B : List α} {a b new : α}
    (h : List.Chain' (Linked L) (A ++ B))
    (ha : A.getLast? = some a) (hb : B.head? = some b)
    (hnA : new ∉ A) (hnB : new ∉ B)
    (haA : a ∉ A.dropLast) (haB : a ∉ B.dropLast)
    (hbA : b ∉ A.tail) (hbB : b ∉ B.tail) :
    List.Chain' (Linked (__list_add L new a b)) (A ++ new :: B) := by
  rw [List.chain'_append] at h
  obtain ⟨hA, hB, -⟩ := h
  have hA' : List.Chain' (Linked (__list_add L new a b)) A := by
    refine chain_frame A hA ?_ ?_
    · intro c hc
      have h1 : c ≠ a := fun e => haA (e ▸ hc)
      have h2 : c ≠ new := fun e => hnA (e ▸ List.dropLast_subset A hc)
      simp [list_add_next, h1, h2]
    · intro d hd
      have h1 : d ≠ b := fun e => hbA (e ▸ hd)
      have h2 : d ≠ new := fun e => hnA (e ▸ List.tail_subset A hd)
      simp [list_add_prev, h1, h2]
  have hB' : List.Chain' (Linked (__list_add L new a b)) B := by
    refine chain_frame B hB ?_ ?_
    · intro c hc
      have h1 : c ≠ a := fun e => haB (e ▸ hc)
      have h2 : c ≠ new := fun e => hnB (e ▸ List.dropLast_subset B hc)
      simp [list_add_next, h1, h2]
    · intro d hd
      have h1 : d ≠ b := fun e => hbB (e ▸ hd)
      have h2 : d ≠ new := fun e => hnB (e ▸ List.tail_subset B hd)
      simp [list_add_prev, h1, h2]
  have hna : new ≠ a := fun e => hnA (e ▸ List.mem_of_mem_getLast? ha)
  have hnb : b ≠ new := fun e => hnB (e ▸ List.mem_of_mem_head? hb)
  rw [List.chain'_append]
  refine ⟨hA', ?_, ?_⟩
  · rw [List.chain'_cons']
    refine ⟨?_, hB'⟩
    intro y hy
    rw [hb] at hy
    cases hy
    constructor
    · simp [list_add_next, hna]
    · simp [list_add_prev, hnb]
  · intro x hx y hy
    rw [ha] at hx
    cases hx
    simp only [List.head?_cons, Option.mem_def, Option.some.injEq] at hy
    subst hy
    constructor
    · simp [list_add_next]
    · simp [list_add_prev]

/-- Unlinking `x` from between its neighbours `a` and `b`. -/
theorem chain_delete {L : Links α} {A B : List α} {a b x : α}
    (h : List.Chain' (Linked L) (A ++ x :: B))
    (ha : A.getLast? = some a) (hb : B.head? = some b)
    (haA : a ∉ A.dropLast) (haB : a ∉ B.dropLast)
    (hbA : b ∉ A.tail) (hbB : b ∉ B.tail) :
    list_del L x = __list_del L a b ∧
      List.Chain' (Linked (__list_del L a b)) (A ++ B) := by
  rw [List.chain'_append] at h
  obtain ⟨hA, hxB, hax⟩ := h
  have hax' : Linked L a x := hax a ha x (by simp)
  rw [List.chain'_cons'] at hxB
  have hxb : Linked L x b := hxB.1 b hb
  have hB := hxB.2
  refine ⟨by simp [list_del, hax'.2, hxb.1], ?_⟩
  rw [List.chain'_append]
  refine ⟨chain_frame A hA ?_ ?_, chain_frame B hB ?_ ?_, ?_⟩
  · intro c hc
    have h1 : c ≠ a := fun e => haA (e ▸ hc)
    simp [list_del_next, h1]
  · intro d hd
    have h1 : d ≠ b := fun e => hbA (e ▸ hd)
    simp [list_del_prev, h1]
  · intro c hc
    have h1 : c ≠ a := fun e => haB (e ▸ hc)
    simp [list_del_next, h1]
  · intro d hd
    have h1 : d ≠ b := fun e => hbB (e ▸ hd)
    simp [list_del_prev, h1]
  · intro x' hx' y hy
    rw [ha] at hx'; rw [hb] at hy
    cases hx'; cases hy
    constructor
    · simp [list_del_next]
    · simp [list_del_prev]

end listx_lemmas

/-! ## Rings -/

section ring_lemmas
variable {α : Type} [DecidableEq α]

theorem getLast_not_mem_dropLast {l : List α} {a : α} (hnd : l.Nodup)
    (ha : l.getLast? = some a) : a ∉ l.dropLast := by
  have hl : l = l.dropLast ++ [a] := by
    have := List.dropLast_append_getLast? a ha
    exact this.symm
  rw [hl] at hnd
  have := List.nodup_append.1 hnd
  intro hmem
  exact this.2.2 hmem (by simp) 

theorem head_not_mem_tail {l : List α} {b : α} (hnd : l.Nodup)
    (hb : l.head? = some b) : b ∉ l.tail := by
  cases l with
  | nil => simp at hb
  | cons x t =>
    simp at hb; subst hb
    simpa using (List.nodup_cons.1 hnd).1

/-- The side conditions of `chain_insert` and `chain_delete` at a gap of a ring. -/
theorem ring_sides {h : α} {pre post : List α} (hnd : (h :: (pre ++ post)).Nodup) {a b : α}
    (ha : (h :: pre).getLast? = some a) (hb : (post ++ [h]).head? = some b) :
    a ∉ (h :: pre).dropLast ∧ a ∉ (post ++ [h]).dropLast ∧
      b ∉ (h :: pre).tail ∧ b ∉ (post ++ [h]).tail := by
  have hnd1 : (h :: pre).Nodup := by
    have : List.Sublist (h :: pre) (h :: (pre ++ post)) := by simp
    exact hnd.sublist this
  have hnd2 : (post ++ [h]).Nodup := by
    rw [List.nodup_cons, List.nodup_append] at hnd
    rw [List.nodup_append]
    refine ⟨hnd.2.2.1, by simp, ?_⟩
    intro x hx hx'
    simp at hx'; subst hx'
    exact hnd.1 (by simp [hx])
  have ham : a ∈ h :: pre := List.mem_of_mem_getLast? ha
  have hbm : b ∈ post ++ [h] := List.mem_of_mem_head? hb
  refine ⟨getLast_not_mem_dropLast hnd1 ha, ?_, ?_, head_not_mem_tail hnd2 hb⟩
  · simp only [List.dropLast_concat]
    intro hmem
    rw [List.nodup_cons, List.nodup_append] at hnd
    rcases List.mem_cons.1 ham with e | e
    · subst e; exact hnd.1 (by simp [hmem])
    · exact hnd.2.2.2 e hmem
  · simp only [List.tail_cons]
    intro hmem
    rw [List.nodup_cons, List.nodup_append] at hnd
    rcases List.mem_append.1 hbm with e | e
    · exact hnd.2.2.2 hmem e
    · simp at e; subst e; exact hnd.1 (by simp [hmem])

theorem ring_prev_mem {L : Links α} {h y : α} {pre post : List α}
    (r : Ring L h (pre ++ y :: post)) : (h :: pre).getLast? = some (L.prev y) := by
  have hc : List.Chain' (Linked L) ((h :: pre) ++ y :: (post ++ [h])) := by simpa using r.1
  rw [List.chain'_append] at hc
  obtain ⟨a, ha⟩ : ∃ a, (h :: pre).getLast? = some a := by
    cases hl : (h :: pre).getLast? with
    | none => simp at hl
    | some a => exact ⟨a, rfl⟩
  have := hc.2.2 a ha y (by simp)
  rw [ha, this.2]

theorem ring_next_mem {L : Links α} {h y : α} {pre post : List α}
    (r : Ring L h (pre ++ y :: post)) : (post ++ [h]).head? = some (L.next y) := by
  have hc : List.Chain' (Linked L) ((h :: pre) ++ y :: (post ++ [h])) := by simpa using r.1
  rw [List.chain'_append] at hc
  have hc2 := hc.2.1
  rw [List.chain'_cons'] at hc2
  obtain ⟨b, hb⟩ : ∃ b, (post ++ [h]).head? = some b := by
    cases hl : (post ++ [h]).head? with
    | none => simp at hl
    | some b => exact ⟨b, rfl⟩
  have := hc2.1 b hb
  rw [hb, this.1]

theorem ring_prev_head {L : Links α} {h : α} {xs : List α}
    (r : Ring L h xs) : (h :: xs).getLast? = some (L.prev h) := by
  have hc : List.Chain' (Linked L) ((h :: xs) ++ [h]) := by simpa using r.1
  rw [List.chain'_append] at hc
  obtain ⟨a, ha⟩ : ∃ a, (h :: xs).getLast? = some a := by
    cases hl : (h :: xs).getLast? with
    | none => simp at hl
    | some a => exact ⟨a, rfl⟩
  have := hc.2.2 a ha h (by simp)
  rw [ha, this.2]

theorem ring_next_head {L : Links α} {h : α} {xs : List α}
    (r : Ring L h xs) : (xs ++ [h]).head? = some (L.next h) := by
  have hc : List.Chain' (Linked L) (h :: (xs ++ [h])) := by simpa using r.1
  rw [List.chain'_cons'] at hc
  obtain ⟨b, hb⟩ : ∃ b, (xs ++ [h]).head? = some b := by
    cases hl : (xs ++ [h]).head? with
    | none => simp at hl
    | some b => exact ⟨b, rfl⟩
  have := hc.1 b hb
  rw [hb, this.1]

/-- Linking `new` into a gap of a ring. -/
theorem ring_insert {L : Links α} {h new a b : α} {pre post : List α}
    (r : Ring L h (pre ++ post)) (hn : new ∉ h :: (pre ++ post))
    (ha : (h :: pre).getLast? = some a) (hb : (post ++ [h]).head? = some b) :
    Ring (__list_add L new a b) h (pre ++ new :: post) := by
  obtain ⟨hc, hnd⟩ := r
  obtain ⟨s1, s2, s3, s4⟩ := ring_sides hnd ha hb
  have hc' : List.Chain' (Linked L) ((h :: pre) ++ (post ++ [h])) := by simpa using hc
  have hn1 : new ∉ h :: pre := fun hm => hn (by
    rcases List.mem_cons.1 hm with e | e
    · simp [e]
    · simp [e])
  have hn2 : new ∉ post ++ [h] := fun hm => hn (by
    rcases List.mem_append.1 hm with e | e
    · simp [e]
    · simp at e; simp [e])
  have := chain_insert hc' ha hb hn1 hn2 s1 s2 s3 s4
  refine ⟨by simpa using this, ?_⟩
  have hperm : (h :: (pre ++ new :: post)).Perm (new :: h :: (pre ++ post)) := by
    refine (List.Perm.cons h List.perm_middle).trans (List.Perm.swap _ _ _)
  rw [hperm.nodup_iff]
  exact List.nodup_cons.2 ⟨hn, hnd⟩

/-- Unlinking an entry of a ring. -/
theorem ring_delete {L : Links α} {h x : α} {pre post : List α}
    (r : Ring L h (pre ++ x :: post)) :
    Ring (list_del L x) h (pre ++ post) := by
  have ha := ring_prev_mem r
  have hb := ring_next_mem r
  obtain ⟨hc, hnd⟩ := r
  have hnd' : (h :: (pre ++ post)).Nodup := by
    have : List.Sublist (h :: (pre ++ post)) (h :: (pre ++ x :: post)) := by
      refine List.Sublist.cons₂ _ ?_
      exact List.Sublist.append (List.Sublist.refl _) (List.sublist_cons_self _ _)
    exact hnd.sublist this
  obtain ⟨s1, s2, s3, s4⟩ := ring_sides hnd' ha hb
  have hc' : List.Chain' (Linked L) ((h :: pre) ++ x :: (post ++ [h])) := by simpa using hc
  have := chain_delete hc' ha hb s1 s2 s3 s4
  rw [this.1]
  exact ⟨by simpa using this.2, hnd'⟩

theorem ring_add_tail {L : Links α} {h new : α} {xs : List α}
    (r : Ring L h xs) (hn : new ∉ h :: xs) :
    Ring (list_add_tail L new h) h (xs ++ [new]) := by
  have r' : Ring L h (xs ++ []) := by simpa using r
  have hb : (([] : List α) ++ [h]).head? = some h := rfl
  have := ring_insert r' (by simpa using hn) (ring_prev_head r) hb
  exact this

theorem ring_add_head {L : Links α} {h new : α} {xs : List α}
    (r : Ring L h xs) (hn : new ∉ h :: xs) :
    Ring (list_add L new h) h (new :: xs) := by
  have r' : Ring L h ([] ++ xs) := by simpa using r
  have ha : (h :: ([] : List α)).getLast? = some h := rfl
  have := ring_insert r' (by simpa using hn) ha (ring_next_head r)
  exact this

theorem ring_add_before {L : Links α} {h new y : α} {pre post : List α}
    (r : Ring L h (pre ++ y :: post)) (hn : new ∉ h :: (pre ++ y :: post)) :
    Ring (__list_add L new (L.prev y) y) h (pre ++ new :: y :: post) :=
  ring_insert r hn (ring_prev_mem r) (by simp)

theorem ring_init (L : Links α) (h : α) : Ring (INIT_LIST_HEAD L h) h [] := by
  refine ⟨?_, by simp⟩
  simp [INIT_LIST_HEAD, Linked]

theorem ring_list_empty {L : Links α} {h : α} {xs : List α} (r : Ring L h xs) :
    list_empty L h = true ↔ xs = [] := by
  have hn := ring_next_head r
  cases xs with
  | nil =>
    simp only [List.nil_append, List.head?_cons, Option.some.injEq] at hn
    simp [list_empty, ← hn]
  | cons x t =>
    simp only [List.cons_append, List.head?_cons, Option.some.injEq] at hn
    have hx : x ≠ h := by
      have := r.2
      simp at this
      exact fun e => this.1.1 e.symm
    have : L.next h ≠ h := hn ▸ hx
    simp [list_empty, this]

/-- A ring does not see writes outside itself. -/
theorem ring_frame {L L' : Links α} {h : α} {xs : List α} (r : Ring L h xs)
    (hn : ∀ c ∈ h :: xs, L'.next c = L.next c) (hp : ∀ c ∈ h :: xs, L'.prev c = L.prev c) :
    Ring L' h xs := by
  refine ⟨chain_frame _ r.1 ?_ ?_, r.2⟩
  · intro c hc
    have : (h :: xs ++ [h]).dropLast = h :: xs := by
      show ((h :: xs) ++ [h]).dropLast = h :: xs
      rw [List.dropLast_concat]
    rw [this] at hc
    exact hn c hc
  · intro d hd
    have : d ∈ h :: xs := by
      simp at hd
      rcases hd with e | e
      · simp [e]
      · simp [e]
    exact hp d this

theorem ring_frame_add {L : Links α} {h new a b : α} {xs : List α} (r : Ring L h xs)
    (hn : new ∉ h :: xs) (ha : a ∉ h :: xs) (hb : b ∉ h :: xs) :
    Ring (__list_add L new a b) h xs := by
  refine ring_frame r ?_ ?_
  · intro c hc
    have h1 : c ≠ a := fun e => ha (e ▸ hc)
    have h2 : c ≠ new := fun e => hn (e ▸ hc)
    simp [list_add_next, h1, h2]
  · intro c hc
    have h1 : c ≠ b := fun e => hb (e ▸ hc)
    have h2 : c ≠ new := fun e => hn (e ▸ hc)
    simp [list_add_prev, h1, h2]

theorem ring_frame_del {L : Links α} {h a b : α} {xs : List α} (r : Ring L h xs)
    (ha : a ∉ h :: xs) (hb : b ∉ h :: xs) :
    Ring (__list_del L a b) h xs := by
  refine ring_frame r ?_ ?_
  · intro c hc
    have h1 : c ≠ a := fun e => ha (e ▸ hc)
    simp [list_del_next, h1]
  · intro c hc
    have h1 : c ≠ b := fun e => hb (e ▸ hc)
    simp [list_del_prev, h1]

theorem ring_frame_init {L : Links α} {h l : α} {xs : List α} (r : Ring L h xs)
    (hl : l ∉ h :: xs) : Ring (INIT_LIST_HEAD L l) h xs := by
  refine ring_frame r ?_ ?_
  · intro c hc
    have h1 : c ≠ l := fun e => hl (e ▸ hc)
    simp [INIT_LIST_HEAD, h1]
  · intro c hc
    have h1 : c ≠ l := fun e => hl (e ▸ hc)
    simp [INIT_LIST_HEAD, h1]

/-- The neighbours of an entry of a ring are on the ring. -/
theorem ring_nbr_mem {L : Links α} {h x : α} {xs : List α} (r : Ring L h xs)
    (hx : x ∈ h :: xs) : L.prev x ∈ h :: xs ∧ L.next x ∈ h :: xs := by
  rcases List.mem_cons.1 hx with e | e
  · subst e
    have h1 := List.mem_of_mem_getLast? (ring_prev_head r)
    have h2 := List.mem_of_mem_head? (ring_next_head r)
    refine ⟨h1, ?_⟩
    rcases List.mem_append.1 h2 with e | e
    · simp [e]
    · simp at e; simp [e]
  · obtain ⟨pre, post, rfl⟩ := List.append_of_mem e
    have h1 := List.mem_of_mem_getLast? (ring_prev_mem r)
    have h2 := List.mem_of_mem_head? (ring_next_mem r)
    constructor
    · rcases List.mem_cons.1 h1 with e | e
      · simp [e]
      · simp [e]
    · rcases List.mem_append.1 h2 with e | e
      · simp [e]
      · simp at e; simp [e]

/-- The entries of a ring are determined by the memory. -/
theorem ring_unique {L : Links α} {h : α} : ∀ {xs ys : List α},
    Ring L h xs → Ring L h ys → xs = ys := by
  have key : ∀ (xs ys : List α) (a : α), h ∉ xs → h ∉ ys →
      List.Chain' (Linked L) (a :: xs ++ [h]) → List.Chain' (Linked L) (a :: ys ++ [h]) →
      xs = ys := by
    intro xs
    induction xs with
    | nil =>
      intro ys a _ hy c1 c2
      cases ys with
      | nil => rfl
      | cons y t =>
        simp [Linked] at c1 c2
        exact absurd (c1.1.symm.trans c2.1.1) (by
          intro e; exact hy (by simp [e]))
    | cons x t ih =>
      intro ys a hx hy c1 c2
      cases ys with
      | nil =>
        simp [Linked] at c1 c2
        exact absurd (c2.1.symm.trans c1.1.1) (by
          intro e; exact hx (by simp [e]))
      | cons y t' =>
        have e : x = y := by
          simp [Linked] at c1 c2
          exact c1.1.1.symm.trans c2.1.1
        subst e
        congr 1
        refine ih t' x (fun hm => hx (by simp [hm])) (fun hm => hy (by simp [hm])) ?_ ?_
        · simp only [List.cons_append, List.chain'_cons] at c1 ⊢
          exact c1.2
        · simp only [List.cons_append, List.chain'_cons] at c2 ⊢
          exact c2.2
  intro xs ys r1 r2
  exact key xs ys h (fun hm => (List.nodup_cons.1 r1.2).1 hm)
    (fun hm => (List.nodup_cons.1 r2.2).1 hm) r1.1 r2.1

end ring_lemmas

/-! ## pcb.c: process queues -/

theorem p_list_injective : Function.Injective QNode.p_list := by
  intro a b h; cases h; rfl

theorem s_link_injective : Function.Injective SNode.s_link := by
  intro a b h; cases h; rfl

/-- The loop of `insertProcQ`, started anywhere in the queue: `pre` are the
entries already passed, `post` the ones still ahead. -/
theorem insertProcQ_loop_spec (st : State) (head : QNode) (p : Nat)
    (hp : QNode.p_list p ≠ head) :
    ∀ (post pre : List Nat) (fuel : Nat) (pos : QNode),
      Ring st.q head ((pre ++ post).map QNode.p_list) → p ∉ pre ++ post →
      post.length < fuel →
      (post.map QNode.p_list ++ [head]).head? = some pos →
      ∃ q1, insertProcQ_loop st head p fuel pos = some { st with q := q1 } ∧
        Ring q1 head ((pre ++ specInsert st.p_prio p post).map QNode.p_list) := by
  intro post
  induction post with
  | nil =>
    intro pre fuel pos r hmem hf hpos
    obtain ⟨f, rfl⟩ : ∃ f, fuel = f + 1 := ⟨fuel - 1, by omega⟩
    simp only [List.map_nil, List.nil_append, List.head?_cons, Option.some.injEq] at hpos
    subst hpos
    refine ⟨list_add_tail st.q (QNode.p_list p) head, by simp [insertProcQ_loop], ?_⟩
    have r1 : Ring st.q head (pre.map QNode.p_list) := by simpa using r
    have hn : QNode.p_list p ∉ head :: pre.map QNode.p_list := by
      simp only [List.mem_cons, List.mem_map, not_or]
      refine ⟨hp, ?_⟩
      rintro ⟨a, ha, e⟩
      exact hmem (by simpa [p_list_injective e] using ha)
    simpa [specInsert] using ring_add_tail r1 hn
  | cons c rest ih =>
    intro pre fuel pos r hmem hf hpos
    obtain ⟨f, rfl⟩ : ∃ f, fuel = f + 1 := ⟨fuel - 1, by omega⟩
    simp only [List.map_cons, List.cons_append, List.head?_cons, Option.some.injEq] at hpos
    subst hpos
    have r1 : Ring st.q head (pre.map QNode.p_list ++ QNode.p_list c :: rest.map QNode.p_list) := by
      simpa using r
    have hch : QNode.p_list c ≠ head := by
      intro e
      have := (List.nodup_cons.1 r1.2).1
      exact this (by simp [e])
    have hn : QNode.p_list p ∉
        head :: (pre.map QNode.p_list ++ QNode.p_list c :: rest.map QNode.p_list) := by
      simp only [List.mem_cons, List.mem_append, List.mem_map, not_or]
      simp only [List.mem_append, List.mem_cons, not_or] at hmem
      refine ⟨hp, ?_, ?_, ?_⟩
      · rintro ⟨a, ha, e⟩; exact hmem.1 (by simpa [p_list_injective e] using ha)
      · intro e; exact hmem.2.1 (p_list_injective e)
      · rintro ⟨a, ha, e⟩; exact hmem.2.2 (by simpa [p_list_injective e] using ha)
    by_cases hgt : st.p_prio p > st.p_prio c
    · refine ⟨__list_add st.q (QNode.p_list p) (st.q.prev (QNode.p_list c)) (QNode.p_list c),
        by simp [insertProcQ_loop, hch, container_of_p_list, hgt], ?_⟩
      have := ring_add_before r1 hn
      have hle : ¬ st.p_prio p ≤ st.p_prio c := by omega
      simpa [specInsert, hle] using this
    · have hle : st.p_prio p ≤ st.p_prio c := by omega
      have hnext := ring_next_mem r1
      have r2 : Ring st.q head (((pre ++ [c]) ++ rest).map QNode.p_list) := by simpa using r
      obtain ⟨q1, h1, h2⟩ := ih (pre ++ [c]) f (st.q.next (QNode.p_list c)) r2
        (by simpa using hmem) (by simp at hf; omega) hnext
      refine ⟨q1, by simp [insertProcQ_loop, hch, container_of_p_list, hgt, h1], ?_⟩
      have e : specInsert st.p_prio p (c :: rest) = c :: specInsert st.p_prio p rest := by
        simp [specInsert, hle]
      rw [e]
      simpa using h2

/-- C1: `insertProcQ(head, p)` on a well-formed queue `q` that does not hold
`p` returns, and the queue is then `pre ++ [p] ++ post`, where `pre` is the
longest leading run of `q` whose entries have priority at least that of `p`
and `post` is the remainder of `q`: `p` sits immediately before the first
entry of strictly lower priority, or at the tail if there is none, and the
other entries keep their order.  No other field of the state is written. -/
theorem insertProcQ_spec (st : State) (head : QNode) (q : List Nat) (p : Nat) (fuel : Nat)
    (hr : Ring st.q head (q.map QNode.p_list)) (hp : p ∉ q)
    (hh : QNode.p_list p ≠ head) (hf : q.length < fuel) :
    ∃ q1 pre post, insertProcQ fuel head p st = some { st with q := q1 } ∧
      q = pre ++ post ∧
      pre = q.takeWhile (fun c => decide (st.p_prio p ≤ st.p_prio c)) ∧
      (∀ c ∈ pre, st.p_prio p ≤ st.p_prio c) ∧
      (∀ c ∈ post.head?, st.p_prio c < st.p_prio p) ∧
      Ring q1 head ((pre ++ p :: post).map QNode.p_list) := by
  have hpos := ring_next_head hr
  have hr0 : Ring st.q head (([] ++ q).map QNode.p_list) := by simpa using hr
  obtain ⟨q1, h1, h2⟩ := insertProcQ_loop_spec st head p hh q [] fuel _ hr0 (by simpa using hp)
    hf hpos
  refine ⟨q1, q.takeWhile (fun c => decide (st.p_prio p ≤ st.p_prio c)),
    q.dropWhile (fun c => decide (st.p_prio p ≤ st.p_prio c)), h1,
    (List.takeWhile_append_dropWhile _ _).symm, rfl, ?_, ?_, ?_⟩
  · intro c hc
    simpa using List.mem_takeWhile_imp hc
  · intro c hc
    have := List.head?_dropWhile_not (fun c => decide (st.p_prio p ≤ st.p_prio c)) q
    rw [Option.mem_def] at hc
    rw [hc] at this
    simpa using this
  · simpa [specInsert] using h2

theorem insertProcQ_spec_witness :
    ∃ q1 pre post, insertProcQ 3 (QNode.anchor 0) 2 queue01 = some { queue01 with q := q1 } ∧
      [0, 1] = pre ++ post ∧
      pre = [0, 1].takeWhile (fun c => decide (queue01.p_prio 2 ≤ queue01.p_prio c)) ∧
      (∀ c ∈ pre, queue01.p_prio 2 ≤ queue01.p_prio c) ∧
      (∀ c ∈ post.head?, queue01.p_prio c < queue01.p_prio 2) ∧
      Ring q1 (QNode.anchor 0) ((pre ++ 2 :: post).map QNode.p_list) :=
  insertProcQ_spec queue01 (QNode.anchor 0) [0, 1] 2 3 (by decide) (by decide) (by decide)
    (by decide)

/-! ### Draining a queue -/

theorem removeProcQ_nil (st : State) (head : QNode) (hr : Ring st.q head []) :
    removeProcQ head st = some (st, none) := by
  have := (ring_list_empty hr).2 rfl
  simp [removeProcQ, headProcQ, emptyProcQ, this]

theorem removeProcQ_cons (st : State) (head : QNode) (e : Nat) (rest : List Nat)
    (hr : Ring st.q head ((e :: rest).map QNode.p_list)) :
    removeProcQ head st =
        some ({ st with q := list_del st.q (QNode.p_list e) }, some e) ∧
      Ring (list_del st.q (QNode.p_list e)) head (rest.map QNode.p_list) := by
  have hne : list_empty st.q head = false := by
    cases h : list_empty st.q head with
    | false => rfl
    | true => simpa using (ring_list_empty hr).1 h
  have hn := ring_next_head hr
  simp only [List.map_cons, List.cons_append, List.head?_cons, Option.some.injEq] at hn
  constructor
  · simp [removeProcQ, headProcQ, emptyProcQ, hne, ← hn, container_of_p_list]
  · have hr1 : Ring st.q head ([] ++ QNode.p_list e :: rest.map QNode.p_list) := by simpa using hr
    simpa using ring_delete hr1

theorem drain_spec (head : QNode) : ∀ (q : List Nat) (n : Nat) (st : State),
    Ring st.q head (q.map QNode.p_list) → q.length < n →
    ∃ st2, drain head n st = some (q, st2) ∧ Ring st2.q head [] ∧ st2.p_prio = st.p_prio := by
  intro q
  induction q with
  | nil =>
    intro n st hr hn
    obtain ⟨m, rfl⟩ : ∃ m, n = m + 1 := ⟨n - 1, by omega⟩
    exact ⟨st, by simp [drain, removeProcQ_nil st head (by simpa using hr)], by simpa using hr, rfl⟩
  | cons e rest ih =>
    intro n st hr hn
    obtain ⟨m, rfl⟩ : ∃ m, n = m + 1 := ⟨n - 1, by omega⟩
    obtain ⟨h1, h2⟩ := removeProcQ_cons st head e rest hr
    obtain ⟨st2, h3, h4, h5⟩ := ih m { st with q := list_del st.q (QNode.p_list e) } h2
      (by simp at hn; omega)
    exact ⟨st2, by simp [drain, h1, h3], h4, h5⟩

theorem insertAll_spec (head : QNode) (fuel : Nat) : ∀ (ps q0 : List Nat) (st : State),
    Ring st.q head (q0.map QNode.p_list) → (q0 ++ ps).Nodup →
    (∀ p ∈ ps, QNode.p_list p ≠ head) → q0.length + ps.length < fuel + 1 →
    ∃ st1, insertAll fuel head ps st = some st1 ∧ st1.p_prio = st.p_prio ∧
      Ring st1.q head ((ps.foldl (fun q p => specInsert st.p_prio p q) q0).map QNode.p_list) := by
  intro ps
  induction ps with
  | nil =>
    intro q0 st hr _ _ _
    exact ⟨st, rfl, rfl, by simpa using hr⟩
  | cons p ps ih =>
    intro q0 st hr hnd hh hf
    have hp : p ∉ q0 := by
      intro hm
      have := (List.nodup_append.1 hnd).2.2
      exact this hm (by simp) 
    obtain ⟨q1, h1, h2⟩ := insertProcQ_loop_spec st head p (hh p (by simp)) q0 [] fuel _
      (by simpa using hr) (by simpa using hp) (by simp at hf; omega) (ring_next_head hr)
    have hlen : (specInsert st.p_prio p q0).length = q0.length + 1 := by
      have := congrArg List.length
        (List.takeWhile_append_dropWhile (fun c => decide (st.p_prio p ≤ st.p_prio c)) q0)
      simp only [List.length_append] at this
      simp only [specInsert, List.length_append, List.length_cons]
      omega
    have hperm : (specInsert st.p_prio p q0).Perm (p :: q0) := by
      have h0 := List.takeWhile_append_dropWhile (fun c => decide (st.p_prio p ≤ st.p_prio c)) q0
      have : (specInsert st.p_prio p q0).Perm
          (p :: (q0.takeWhile (fun c => decide (st.p_prio p ≤ st.p_prio c)) ++
            q0.dropWhile (fun c => decide (st.p_prio p ≤ st.p_prio c)))) := List.perm_middle
      rwa [h0] at this
    have hnd' : (specInsert st.p_prio p q0 ++ ps).Nodup := by
      have hp2 : ((specInsert st.p_prio p q0) ++ ps).Perm (q0 ++ p :: ps) :=
        ((hperm.append_right ps).trans (by simpa using (List.perm_middle).symm))
      exact hp2.nodup_iff.2 hnd
    obtain ⟨st1, h3, h4, h5⟩ := ih (specInsert st.p_prio p q0) { st with q := q1 }
      (by simpa using h2) hnd' (fun x hx => hh x (by simp [hx]))
      (by simp at hf; rw [hlen]; omega)
    refine ⟨st1, ?_, h4, by simpa using h5⟩
    have h1' : insertProcQ fuel head p st = some { st with q := q1 } := h1
    simp [insertAll, h1', h3]

/-! ### The order that repeated insertion builds -/

theorem specInsert_cons (prio : Nat → Int) (p c : Nat) (q : List Nat) :
    specInsert prio p (c :: q) =
      if prio p ≤ prio c then c :: specInsert prio p q else p :: c :: q := by
  by_cases h : prio p ≤ prio c <;> simp [specInsert, h]

theorem specInsert_perm (prio : Nat → Int) (p : Nat) (q : List Nat) :
    (specInsert prio p q).Perm (q ++ [p]) := by
  have h0 := List.takeWhile_append_dropWhile (fun c => decide (prio p ≤ prio c)) q
  have h1 : (specInsert prio p q).Perm
      (p :: (q.takeWhile (fun c => decide (prio p ≤ prio c)) ++
        q.dropWhile (fun c => decide (prio p ≤ prio c)))) := List.perm_middle
  rw [h0] at h1
  exact h1.trans (List.perm_append_singleton p q).symm

theorem specInsert_sorted (prio : Nat → Int) (p : Nat) : ∀ (q : List Nat),
    q.Pairwise (fun a b => prio b ≤ prio a) →
    (specInsert prio p q).Pairwise (fun a b => prio b ≤ prio a)
  | [], _ => by simp [specInsert]
  | c :: q, h => by
    rw [specInsert_cons]
    rw [List.pairwise_cons] at h
    by_cases hc : prio p ≤ prio c
    · simp only [hc, if_true, List.pairwise_cons]
      refine ⟨?_, specInsert_sorted prio p q h.2⟩
      intro b hb
      have := (specInsert_perm prio p q).subset hb
      rcases List.mem_append.1 this with hb | hb
      · exact h.1 b hb
      · simp at hb; subst hb; exact hc
    · simp only [hc, if_false, List.pairwise_cons]
      refine ⟨?_, h⟩
      intro b hb
      rcases List.mem_cons.1 hb with e | e
      · subst e; omega
      · have := h.1 b e; omega

theorem specInsert_filter (prio : Nat → Int) (p : Nat) (v : Int) : ∀ (q : List Nat),
    q.Pairwise (fun a b => prio b ≤ prio a) →
    (specInsert prio p q).filter (fun a => decide (prio a = v)) =
      (q ++ [p]).filter (fun a => decide (prio a = v))
  | [], _ => by simp [specInsert]
  | c :: q, h => by
    rw [specInsert_cons]
    rw [List.pairwise_cons] at h
    by_cases hc : prio p ≤ prio c
    · simp only [hc, if_true, List.cons_append, List.filter_cons]
      rw [specInsert_filter prio p v q h.2]
    · simp only [hc, if_false]
      by_cases hv : prio p = v
      · have hnone : (c :: q).filter (fun a => decide (prio a = v)) = [] := by
          rw [List.filter_eq_nil_iff]
          intro b hb
          have hb' : prio b ≤ prio c := by
            rcases List.mem_cons.1 hb with e | e
            · subst e; exact le_refl _
            · exact h.1 b e
          simp only [decide_eq_true_eq]
          omega
        rw [List.filter_append, hnone]
        simp [List.filter_cons, hv, hnone]
      · rw [List.filter_append]
        simp [List.filter_cons, hv]

theorem foldl_specInsert (prio : Nat → Int) : ∀ (ps q0 : List Nat),
    q0.Pairwise (fun a b => prio b ≤ prio a) →
    (ps.foldl (fun q p => specInsert prio p q) q0).Perm (q0 ++ ps) ∧
    (ps.foldl (fun q p => specInsert prio p q) q0).Pairwise (fun a b => prio b ≤ prio a) ∧
    ∀ v : Int, (ps.foldl (fun q p => specInsert prio p q) q0).filter (fun a => decide (prio a = v)) =
      (q0 ++ ps).filter (fun a => decide (prio a = v))
  | [], q0, h => by simpa using h
  | p :: ps, q0, h => by
    obtain ⟨h1, h2, h3⟩ := foldl_specInsert prio ps (specInsert prio p q0)
      (specInsert_sorted prio p q0 h)
    refine ⟨?_, h2, ?_⟩
    · refine h1.trans ?_
      have := (specInsert_perm prio p q0).append_right ps
      simpa using this
    · intro v
      rw [List.foldl_cons, h3 v, List.filter_append, specInsert_filter prio p v q0 h,
        ← List.filter_append]
      simp

/-- C2: distinct PCBs `ps` inserted with `insertProcQ`, first to last, into a
queue made empty with `mkEmptyProcQ`, and then taken out with `removeProcQ`
until it returns `NULL`: both phases return, the calls hand out exactly the
PCBs of `ps` (`out` is a permutation of `ps`), in descending priority order,
and for every priority `v` the PCBs of priority `v` come out in the order in
which they were inserted; the queue is empty afterwards. -/
theorem procQ_stable_sort (st : State) (head : QNode) (ps : List Nat) (fuel n : Nat)
    (hnd : ps.Nodup) (hh : ∀ p ∈ ps, QNode.p_list p ≠ head)
    (hf : ps.length ≤ fuel) (hn : ps.length < n) :
    ∃ st1 st2 out, insertAll fuel head ps (mkEmptyProcQ head st) = some st1 ∧
      drain head n st1 = some (out, st2) ∧
      emptyProcQ head st2 = true ∧
      out.Perm ps ∧
      out.Pairwise (fun a b => st.p_prio b ≤ st.p_prio a) ∧
      ∀ v : Int, out.filter (fun a => decide (st.p_prio a = v)) =
        ps.filter (fun a => decide (st.p_prio a = v)) := by
  have r0 : Ring (mkEmptyProcQ head st).q head (([] : List Nat).map QNode.p_list) := by
    simpa [mkEmptyProcQ] using ring_init st.q head
  obtain ⟨st1, h1, h2, h3⟩ := insertAll_spec head fuel ps [] (mkEmptyProcQ head st) r0
    (by simpa using hnd) hh (by simp; omega)
  have hprio : (mkEmptyProcQ head st).p_prio = st.p_prio := rfl
  rw [hprio] at h3
  obtain ⟨hp, hs, hfil⟩ := foldl_specInsert st.p_prio ps [] List.Pairwise.nil
  obtain ⟨st2, h4, h5, h6⟩ := drain_spec head _ n st1 h3 (by
    rw [hp.length_eq]; simpa using hn)
  refine ⟨st1, st2, _, h1, h4, ?_, by simpa using hp, hs, by simpa using hfil⟩
  exact (ring_list_empty h5).2 rfl

theorem procQ_stable_sort_witness :
    (∃ st1 st2 out,
      insertAll 4 (QNode.anchor 0) [0, 1, 2, 3]
          (mkEmptyProcQ (QNode.anchor 0) (freshState prio5351)) = some st1 ∧
      drain (QNode.anchor 0) 5 st1 = some (out, st2) ∧
      emptyProcQ (QNode.anchor 0) st2 = true ∧
      out.Perm [0, 1, 2, 3] ∧
      out.Pairwise (fun a b => (freshState prio5351).p_prio b ≤ (freshState prio5351).p_prio a) ∧
      ∀ v : Int, out.filter (fun a => decide ((freshState prio5351).p_prio a = v)) =
        [0, 1, 2, 3].filter (fun a => decide ((freshState prio5351).p_prio a = v))) ∧
    ((insertAll 4 (QNode.anchor 0) [0, 1, 2, 3]
          (mkEmptyProcQ (QNode.anchor 0) (freshState prio5351))).bind
        (drain (QNode.anchor 0) 5)).map (fun r => (r.1, r.1.map prio5351))
      = some ([0, 2, 1, 3], [5, 5, 3, 1]) :=
  ⟨procQ_stable_sort (freshState prio5351) (QNode.anchor 0) [0, 1, 2, 3] 4 5 (by decide)
    (by decide) (by decide) (by decide), by decide⟩

/-! ## asl.c: looking a key up -/

theorem scanKeys_some {s_key : Nat → Nat} {key j : Nat} : ∀ {js : List Nat},
    scanKeys s_key key js = some j → j ∈ js ∧ s_key j = key
  | [], h => by simp [scanKeys] at h
  | i :: js, h => by
    unfold scanKeys at h
    by_cases h1 : s_key i = key
    · simp [h1] at h; subst h; exact ⟨by simp, h1⟩
    · by_cases h2 : s_key i > key
      · simp [h1, h2] at h
      · simp only [h1, h2, if_false] at h
        have := scanKeys_some h
        exact ⟨by simp [this.1], this.2⟩

theorem scanKeys_of_mem {s_key : Nat → Nat} {j : Nat} : ∀ {js : List Nat},
    (js.map s_key).Pairwise (fun a b => a < b) → j ∈ js →
    scanKeys s_key (s_key j) js = some j
  | [], _, h => by simp at h
  | i :: js, hs, h => by
    simp only [List.map_cons, List.pairwise_cons, List.mem_map, forall_exists_index,
      and_imp, forall_apply_eq_imp_iff₂] at hs
    unfold scanKeys
    rcases List.mem_cons.1 h with e | e
    · subst e; simp
    · have hlt := hs.1 j e
      have h1 : s_key i ≠ s_key j := by omega
      have h2 : ¬ s_key i > s_key j := by omega
      simp only [h1, h2, if_false]
      exact scanKeys_of_mem hs.2 e

theorem scanKeys_none_iff {s_key : Nat → Nat} {key : Nat} {js : List Nat}
    (hs : (js.map s_key).Pairwise (fun a b => a < b)) :
    scanKeys s_key key js = none ↔ key ∉ js.map s_key := by
  constructor
  · intro h hm
    obtain ⟨j, hj, rfl⟩ := List.mem_map.1 hm
    rw [scanKeys_of_mem hs hj] at h
    cases h
  · intro h
    cases hsc : scanKeys s_key key js with
    | none => rfl
    | some j =>
      have := scanKeys_some hsc
      exact absurd (List.mem_map.2 ⟨j, this.1, this.2⟩) h

/-- The loop of `getSemd` on a chain that leads to `semd_h` returns what
`scanKeys` says. -/
theorem getSemd_loop_spec (st : State) (key : Nat) : ∀ (js : List Nat) (a : SNode) (fuel : Nat),
    List.Chain' (Linked st.s) (a :: js.map SNode.s_link ++ [SNode.semd_h]) →
    js.length < fuel →
    getSemd_loop st key fuel (st.s.next a) = some (scanKeys st.s_key key js)
  | [], a, fuel, hc, hf => by
    obtain ⟨f, rfl⟩ : ∃ f, fuel = f + 1 := ⟨fuel - 1, by omega⟩
    simp [Linked] at hc
    simp [getSemd_loop, hc.1, scanKeys]
  | j :: js, a, fuel, hc, hf => by
    obtain ⟨f, rfl⟩ : ∃ f, fuel = f + 1 := ⟨fuel - 1, by omega⟩
    simp only [List.map_cons, List.cons_append, List.chain'_cons] at hc
    have ih := getSemd_loop_spec st key js (SNode.s_link j) f
      (by simpa using hc.2) (by simp at hf; omega)
    rw [hc.1.1]
    unfold getSemd_loop scanKeys
    simp only [reduceCtorEq, if_false, container_of_s_link]
    by_cases h1 : st.s_key j = key
    · simp [h1]
    · by_cases h2 : st.s_key j > key
      · simp [h1, h2]
      · simp only [h1, h2, if_false]
        exact ih

theorem getSemd_spec {st : State} {asl : List Nat} (key fuel : Nat)
    (hr : Ring st.s SNode.semd_h (asl.map SNode.s_link)) (hf : asl.length < fuel) :
    getSemd fuel key st = some (scanKeys st.s_key key asl) :=
  getSemd_loop_spec st key asl SNode.semd_h fuel hr.1 hf

/-! ## asl.c: descriptors entering and leaving the ASL -/

theorem specInsertKey_cons (s_key : Nat → Nat) (k f j : Nat) (js : List Nat) :
    specInsertKey s_key k f (j :: js) =
      if s_key j ≤ k then j :: specInsertKey s_key k f js else f :: j :: js := by
  by_cases h : s_key j ≤ k <;> simp [specInsertKey, h]

theorem specInsertKey_perm (s_key : Nat → Nat) (k f : Nat) (asl : List Nat) :
    (specInsertKey s_key k f asl).Perm (f :: asl) := by
  have h0 := List.takeWhile_append_dropWhile (fun j => decide (s_key j ≤ k)) asl
  have h1 : (specInsertKey s_key k f asl).Perm
      (f :: (asl.takeWhile (fun j => decide (s_key j ≤ k)) ++
        asl.dropWhile (fun j => decide (s_key j ≤ k)))) := List.perm_middle
  rwa [h0] at h1

theorem specInsertKey_upd (s_key : Nat → Nat) (k f : Nat) : ∀ (asl : List Nat), f ∉ asl →
    specInsertKey (upd s_key f k) k f asl = specInsertKey s_key k f asl
  | [], _ => rfl
  | j :: js, h => by
    simp only [List.mem_cons, not_or] at h
    have hj : upd s_key f k j = s_key j := by simp [upd, Ne.symm h.1]
    rw [specInsertKey_cons, specInsertKey_cons, hj, specInsertKey_upd s_key k f js h.2]

theorem specInsertKey_sorted (s_key : Nat → Nat) (k f : Nat) : ∀ (asl : List Nat),
    (asl.map s_key).Pairwise (fun a b => a < b) → k ∉ asl.map s_key → f ∉ asl →
    ((specInsertKey s_key k f asl).map (upd s_key f k)).Pairwise (fun a b => a < b)
  | [], _, _, _ => by simp [specInsertKey]
  | j :: js, hs, hk, hf => by
    simp only [List.mem_cons, not_or] at hf
    simp only [List.map_cons, List.mem_cons, not_or] at hk
    simp only [List.map_cons, List.pairwise_cons] at hs
    have hj : upd s_key f k j = s_key j := by simp [upd, Ne.symm hf.1]
    have hmap : js.map (upd s_key f k) = js.map s_key := by
      apply List.map_congr_left
      intro x hx
      have : x ≠ f := fun e => hf.2 (e ▸ hx)
      simp [upd, this]
    rw [specInsertKey_cons]
    by_cases hle : s_key j ≤ k
    · simp only [hle, if_true, List.map_cons, List.pairwise_cons, hj]
      refine ⟨?_, specInsertKey_sorted s_key k f js hs.2 hk.2 hf.2⟩
      intro b hb
      obtain ⟨x, hx, rfl⟩ := List.mem_map.1 hb
      have := (specInsertKey_perm s_key k f js).subset hx
      rcases List.mem_cons.1 this with e | e
      · subst e
        have : k ≠ s_key j := hk.1
        simp only [upd, if_true]; omega
      · have hxf : x ≠ f := fun e' => hf.2 (e' ▸ e)
        simp only [upd, hxf, if_false]
        exact hs.1 _ (List.mem_map.2 ⟨x, e, rfl⟩)
    · simp only [hle, if_false, List.map_cons, List.pairwise_cons, hj, hmap]
      refine ⟨?_, hs⟩
      intro b hb
      have hkj : k < s_key j := by omega
      simp only [upd, if_true]
      rcases List.mem_cons.1 hb with e | e
      · subst e; exact hkj
      · exact lt_trans hkj (hs.1 b e)

/-- The loop of `insertBlocked` that links the new descriptor into the ASL. -/
theorem insertBlocked_loop_spec (s : Links SNode) (s_key : Nat → Nat) (semAdd sem : Nat) :
    ∀ (post pre : List Nat) (fuel : Nat) (pos : SNode),
      Ring s SNode.semd_h ((pre ++ post).map SNode.s_link) → sem ∉ pre ++ post →
      post.length < fuel →
      (post.map SNode.s_link ++ [SNode.semd_h]).head? = some pos →
      ∃ a b, a ∈ SNode.semd_h :: (pre ++ post).map SNode.s_link ∧
        b ∈ SNode.semd_h :: (pre ++ post).map SNode.s_link ∧
        insertBlocked_loop s s_key semAdd sem fuel pos =
          some (__list_add s (SNode.s_link sem) a b) ∧
        Ring (__list_add s (SNode.s_link sem) a b) SNode.semd_h
          ((pre ++ specInsertKey s_key semAdd sem post).map SNode.s_link) := by
  intro post
  induction post with
  | nil =>
    intro pre fuel pos r hmem hf hpos
    obtain ⟨f, rfl⟩ : ∃ f, fuel = f + 1 := ⟨fuel - 1, by omega⟩
    simp only [List.map_nil, List.nil_append, List.head?_cons, Option.some.injEq] at hpos
    subst hpos
    have r1 : Ring s SNode.semd_h (pre.map SNode.s_link) := by simpa using r
    have hn : SNode.s_link sem ∉ SNode.semd_h :: pre.map SNode.s_link := by
      simp only [List.mem_cons, List.mem_map, not_or]
      refine ⟨by simp, ?_⟩
      rintro ⟨a, ha, e⟩
      exact hmem (by simpa [s_link_injective e] using ha)
    refine ⟨s.prev SNode.semd_h, SNode.semd_h, ?_, by simp, by simp [insertBlocked_loop, list_add_tail], ?_⟩
    · simpa using (ring_nbr_mem r1 (List.mem_cons_self _ _)).1
    · simpa [specInsertKey, list_add_tail] using ring_add_tail r1 hn
  | cons c rest ih =>
    intro pre fuel pos r hmem hf hpos
    obtain ⟨f, rfl⟩ : ∃ f, fuel = f + 1 := ⟨fuel - 1, by omega⟩
    simp only [List.map_cons, List.cons_append, List.head?_cons, Option.some.injEq] at hpos
    subst hpos
    have r1 : Ring s SNode.semd_h (pre.map SNode.s_link ++ SNode.s_link c :: rest.map SNode.s_link) := by
      simpa using r
    have hn : SNode.s_link sem ∉
        SNode.semd_h :: (pre.map SNode.s_link ++ SNode.s_link c :: rest.map SNode.s_link) := by
      simp only [List.mem_cons, List.mem_append, List.mem_map, not_or]
      simp only [List.mem_append, List.mem_cons, not_or] at hmem
      refine ⟨by simp, ?_, ?_, ?_⟩
      · rintro ⟨a, ha, e⟩; exact hmem.1 (by simpa [s_link_injective e] using ha)
      · intro e; exact hmem.2.1 (s_link_injective e)
      · rintro ⟨a, ha, e⟩; exact hmem.2.2 (by simpa [s_link_injective e] using ha)
    have hcm : SNode.s_link c ∈ SNode.semd_h :: (pre ++ c :: rest).map SNode.s_link := by simp
    by_cases hgt : s_key c > semAdd
    · refine ⟨s.prev (SNode.s_link c), SNode.s_link c, (ring_nbr_mem r hcm).1, hcm,
        by simp [insertBlocked_loop, container_of_s_link, hgt], ?_⟩
      have := ring_add_before r1 hn
      have hle : ¬ s_key c ≤ semAdd := by omega
      simpa [specInsertKey, hle] using this
    · have hle : s_key c ≤ semAdd := by omega
      have hnext := ring_next_mem r1
      have r2 : Ring s SNode.semd_h (((pre ++ [c]) ++ rest).map SNode.s_link) := by simpa using r
      obtain ⟨a, b, h1, h2, h3, h4⟩ := ih (pre ++ [c]) f (s.next (SNode.s_link c)) r2
        (by simpa using hmem) (by simp at hf; omega) hnext
      refine ⟨a, b, by simpa using h1, by simpa using h2,
        by simp [insertBlocked_loop, container_of_s_link, hgt, h3], ?_⟩
      rw [specInsertKey_cons]
      simpa [hle] using h4

theorem snode_disjoint {asl free : List Nat} (hnd : (asl ++ free).Nodup) {x : SNode}
    (hx : x ∈ SNode.semd_h :: asl.map SNode.s_link) :
    x ∉ SNode.semdFree_h :: free.map SNode.s_link := by
  rw [List.nodup_append] at hnd
  intro hx'
  rcases List.mem_cons.1 hx with e | e
  · subst e; simp at hx'
  · obtain ⟨j, hj, rfl⟩ := List.mem_map.1 e
    simp only [List.mem_cons, reduceCtorEq, List.mem_map, false_or] at hx'
    obtain ⟨i, hi, e'⟩ := hx'
    cases s_link_injective e'
    exact hnd.2.2 hj hi

theorem snode_disjoint' {asl free : List Nat} (hnd : (asl ++ free).Nodup) {x : SNode}
    (hx : x ∈ SNode.semdFree_h :: free.map SNode.s_link) :
    x ∉ SNode.semd_h :: asl.map SNode.s_link :=
  fun h => snode_disjoint hnd h hx

/-- Taking the first free descriptor and linking it into the ASL for a key
that is not there yet. -/
theorem asl_alloc {s : Links SNode} {s_key : Nat → Nat} {asl free : List Nat} {f : Nat}
    (semAdd fuel : Nat) (h : AslInv s s_key asl (f :: free))
    (hk : semAdd ∉ asl.map s_key) (hf : asl.length < fuel) :
    s.next SNode.semdFree_h = SNode.s_link f ∧
    ∃ s2, insertBlocked_loop (list_del s (SNode.s_link f)) (upd s_key f semAdd) semAdd f fuel
        ((list_del s (SNode.s_link f)).next SNode.semd_h) = some s2 ∧
      AslInv s2 (upd s_key f semAdd) (specInsertKey s_key semAdd f asl) free := by
  obtain ⟨ra, rf, hnd, hs⟩ := h
  have hn := ring_next_head rf
  simp only [List.map_cons, List.cons_append, List.head?_cons, Option.some.injEq] at hn
  refine ⟨hn.symm, ?_⟩
  have hfm : SNode.s_link f ∈ SNode.semdFree_h :: (f :: free).map SNode.s_link := by simp
  have hnb := ring_nbr_mem rf hfm
  -- the free ring without its first entry
  have rf1 : Ring (list_del s (SNode.s_link f)) SNode.semdFree_h (free.map SNode.s_link) := by
    have rf0 : Ring s SNode.semdFree_h ([] ++ SNode.s_link f :: free.map SNode.s_link) := by
      simpa using rf
    simpa using ring_delete rf0
  -- the ASL ring is not touched by that
  have ra1 : Ring (list_del s (SNode.s_link f)) SNode.semd_h (asl.map SNode.s_link) :=
    ring_frame_del ra (snode_disjoint' hnd hnb.1) (snode_disjoint' hnd hnb.2)
  have hfa : f ∉ asl := by
    intro hm
    exact (List.nodup_append.1 hnd).2.2 hm (by simp)
  have hff : f ∉ free := by
    have := (List.nodup_append.1 hnd).2.1
    exact (List.nodup_cons.1 this).1
  have ra1' : Ring (list_del s (SNode.s_link f)) SNode.semd_h (([] ++ asl).map SNode.s_link) := by
    simpa using ra1
  obtain ⟨a, b, ha, hb, hloop, hring⟩ := insertBlocked_loop_spec (list_del s (SNode.s_link f))
    (upd s_key f semAdd) semAdd f asl [] fuel _ ra1' (by simpa using hfa) hf (ring_next_head ra1)
  refine ⟨_, hloop, ?_, ?_, ?_, ?_⟩
  · rw [specInsertKey_upd s_key semAdd f asl hfa] at hring
    simpa using hring
  · have hnd' : (asl ++ free).Nodup := by
      have : List.Sublist (asl ++ free) (asl ++ f :: free) :=
        List.Sublist.append (List.Sublist.refl _) (List.sublist_cons_self _ _)
      exact hnd.sublist this
    refine ring_frame_add rf1 ?_ (snode_disjoint hnd' (by simpa using ha))
      (snode_disjoint hnd' (by simpa using hb))
    simp only [List.mem_cons, reduceCtorEq, List.mem_map, false_or, not_exists, not_and]
    intro x hx e
    cases s_link_injective e
    exact hff hx
  · have hp : (specInsertKey s_key semAdd f asl ++ free).Perm (asl ++ f :: free) :=
      ((specInsertKey_perm s_key semAdd f asl).append_right free).trans
        (by simpa using (List.perm_middle).symm)
    exact hp.nodup_iff.2 hnd
  · exact specInsertKey_sorted s_key semAdd f asl hs hk hfa

/-- Unlinking a descriptor from the ASL and putting it at the head of the
free list. -/
theorem asl_reclaim {s : Links SNode} {s_key : Nat → Nat} {asl free : List Nat} {j : Nat}
    (h : AslInv s s_key asl free) (hj : j ∈ asl) :
    AslInv (list_add (list_del s (SNode.s_link j)) (SNode.s_link j) SNode.semdFree_h) s_key
      (asl.erase j) (j :: free) := by
  obtain ⟨ra, rf, hnd, hs⟩ := h
  obtain ⟨pre, post, rfl⟩ := List.append_of_mem hj
  have hnda : (pre ++ j :: post).Nodup := (List.nodup_append.1 hnd).1
  have hjpre : j ∉ pre := by
    intro hm
    exact (List.nodup_append.1 hnda).2.2 hm (by simp) 
  have hjpost : j ∉ post := by
    have := (List.nodup_append.1 hnda).2.1
    exact (List.nodup_cons.1 this).1
  have herase : (pre ++ j :: post).erase j = pre ++ post := by
    rw [List.erase_append_right _ hjpre]; simp
  rw [herase]
  have hjm : SNode.s_link j ∈ SNode.semd_h :: (pre ++ j :: post).map SNode.s_link := by simp
  have hnb := ring_nbr_mem ra hjm
  have ra0 : Ring s SNode.semd_h (pre.map SNode.s_link ++ SNode.s_link j :: post.map SNode.s_link) := by
    simpa using ra
  have ra1 : Ring (list_del s (SNode.s_link j)) SNode.semd_h ((pre ++ post).map SNode.s_link) := by
    simpa using ring_delete ra0
  have rf1 : Ring (list_del s (SNode.s_link j)) SNode.semdFree_h (free.map SNode.s_link) :=
    ring_frame_del rf (snode_disjoint hnd hnb.1) (snode_disjoint hnd hnb.2)
  have hjf : j ∉ free := by
    intro hm
    exact (List.nodup_append.1 hnd).2.2 hj hm
  have hnd' : ((pre ++ post) ++ free).Nodup := by
    have : List.Sublist ((pre ++ post) ++ free) ((pre ++ j :: post) ++ free) :=
      List.Sublist.append
        (List.Sublist.append (List.Sublist.refl _) (List.sublist_cons_self _ _))
        (List.Sublist.refl _)
    exact hnd.sublist this
  have hnew : SNode.s_link j ∉ SNode.semdFree_h :: free.map SNode.s_link := by
    simp only [List.mem_cons, reduceCtorEq, List.mem_map, false_or, not_exists, not_and]
    intro x hx e
    cases s_link_injective e
    exact hjf hx
  have hnew' : SNode.s_link j ∉ SNode.semd_h :: (pre ++ post).map SNode.s_link := by
    simp only [List.mem_cons, reduceCtorEq, List.mem_map, false_or, not_exists, not_and]
    intro x hx e
    cases s_link_injective e
    rcases List.mem_append.1 hx with e1 | e1
    · exact hjpre e1
    · exact hjpost e1
  have hb := (ring_nbr_mem rf1 (List.mem_cons_self _ _)).2
  refine ⟨?_, ?_, ?_, ?_⟩
  · exact ring_frame_add ra1 hnew' (snode_disjoint' hnd' (List.mem_cons_self _ _))
      (snode_disjoint' hnd' hb)
  · simpa using ring_add_head rf1 hnew
  · have hp : ((pre ++ post) ++ j :: free).Perm ((pre ++ j :: post) ++ free) := by
      have h1 : ((pre ++ post) ++ j :: free).Perm (j :: ((pre ++ post) ++ free)) :=
        List.perm_middle
      have h2 : ((pre ++ j :: post) ++ free).Perm (j :: ((pre ++ post) ++ free)) := by
        simp
      exact h1.trans h2.symm
    exact hp.nodup_iff.2 hnd
  · have : List.Sublist ((pre ++ post).map s_key) ((pre ++ j :: post).map s_key) :=
      List.Sublist.map _
        (List.Sublist.append (List.Sublist.refl _) (List.sublist_cons_self _ _))
    exact hs.sublist this

/-! ## More fuel does not change a result -/

theorem getSemd_loop_mono (st : State) (key : Nat) : ∀ (fuel fuel' : Nat) (pos : SNode)
    (r : Option Nat), fuel ≤ fuel' → getSemd_loop st key fuel pos = some r →
    getSemd_loop st key fuel' pos = some r
  | 0, _, _, _, _, h => by simp [getSemd_loop] at h
  | f + 1, fuel', pos, r, hle, h => by
    obtain ⟨f', rfl⟩ : ∃ f', fuel' = f' + 1 := ⟨fuel' - 1, by omega⟩
    unfold getSemd_loop at h ⊢
    by_cases h0 : pos = SNode.semd_h
    · simpa [h0] using h
    · simp only [h0, if_false] at h ⊢
      cases hc : container_of_s_link pos with
      | none => simp [hc] at h
      | some entry =>
        simp only [hc] at h ⊢
        by_cases h1 : st.s_key entry = key
        · simpa [h1] using h
        · by_cases h2 : st.s_key entry > key
          · simpa [h1, h2] using h
          · simp only [h1, h2, if_false] at h ⊢
            exact getSemd_loop_mono st key f f' _ r (by omega) h

theorem insertBlocked_loop_mono (s : Links SNode) (s_key : Nat → Nat) (semAdd sem : Nat) :
    ∀ (fuel fuel' : Nat) (pos : SNode) (r : Links SNode), fuel ≤ fuel' →
    insertBlocked_loop s s_key semAdd sem fuel pos = some r →
    insertBlocked_loop s s_key semAdd sem fuel' pos = some r
  | 0, _, _, _, _, h => by simp [insertBlocked_loop] at h
  | f + 1, fuel', pos, r, hle, h => by
    obtain ⟨f', rfl⟩ : ∃ f', fuel' = f' + 1 := ⟨fuel' - 1, by omega⟩
    unfold insertBlocked_loop at h ⊢
    by_cases h0 : pos = SNode.semd_h
    · simpa [h0] using h
    · simp only [h0, if_false] at h ⊢
      cases hc : container_of_s_link pos with
      | none => simp [hc] at h
      | some entry =>
        simp only [hc] at h ⊢
        by_cases h2 : s_key entry > semAdd
        · simpa [h2] using h
        · simp only [h2, if_false] at h ⊢
          exact insertBlocked_loop_mono s s_key semAdd sem f f' _ r (by omega) h

/-- On a well-formed ASL a call of `getSemd` that returns, returns what
`scanKeys` says, whatever the fuel. -/
theorem getSemd_eq_scan {st : State} {asl : List Nat} {key fuel : Nat} {g : Option Nat}
    (hr : Ring st.s SNode.semd_h (asl.map SNode.s_link))
    (h : getSemd fuel key st = some g) : g = scanKeys st.s_key key asl := by
  have h1 := getSemd_loop_mono st key fuel (max fuel (asl.length + 1)) _ g (le_max_left _ _) h
  have h2 := getSemd_spec key (max fuel (asl.length + 1)) hr
    (lt_of_lt_of_le (Nat.lt_succ_self _) (le_max_right _ _))
  unfold getSemd at h2
  rw [h1] at h2
  exact Option.some.inj h2

/-! ## initASL -/

theorem initASL_fold (s : Links SNode) : ∀ (n : Nat),
    Ring ((List.range n).foldl (fun s i => list_add s (SNode.s_link i) SNode.semdFree_h)
        (INIT_LIST_HEAD (INIT_LIST_HEAD s SNode.semdFree_h) SNode.semd_h))
      SNode.semd_h [] ∧
    Ring ((List.range n).foldl (fun s i => list_add s (SNode.s_link i) SNode.semdFree_h)
        (INIT_LIST_HEAD (INIT_LIST_HEAD s SNode.semdFree_h) SNode.semd_h))
      SNode.semdFree_h ((List.range n).reverse.map SNode.s_link)
  | 0 => by
    refine ⟨ring_init _ _, ?_⟩
    exact ring_frame_init (ring_init s SNode.semdFree_h) (by simp)
  | n + 1 => by
    obtain ⟨h1, h2⟩ := initASL_fold s n
    rw [List.range_succ, List.foldl_append]
    simp only [List.foldl_cons, List.foldl_nil, List.reverse_append, List.reverse_cons,
      List.reverse_nil, List.nil_append, List.singleton_append, List.map_cons]
    have hn : SNode.s_link n ∉ SNode.semdFree_h :: (List.range n).reverse.map SNode.s_link := by
      simp only [List.mem_cons, reduceCtorEq, List.mem_map, List.mem_reverse, List.mem_range,
        false_or, not_exists, not_and]
      intro x hx e
      cases s_link_injective e
      omega
    refine ⟨?_, ring_add_head h2 hn⟩
    have hb := (ring_nbr_mem h2 (List.mem_cons_self _ _)).2
    refine ring_frame_add h1 (by simp) (by simp) ?_
    intro hm
    simp only [List.mem_singleton] at hm
    rw [hm] at hb
    simp at hb

theorem initASL_inv (MAXPROC : Nat) (st : State) :
    AslInv (initASL MAXPROC st).s (initASL MAXPROC st).s_key [] (List.range MAXPROC).reverse := by
  obtain ⟨h1, h2⟩ := initASL_fold st.s MAXPROC
  refine ⟨by simpa [initASL] using h1, by simpa [initASL] using h2, ?_, by simp⟩
  simpa using List.nodup_range MAXPROC

/-! ## Every call keeps the ASL well formed -/

@[simp] theorem reclaim_q (j : Nat) (st : State) : (reclaim j st).q = st.q := by
  unfold reclaim; split <;> rfl

@[simp] theorem reclaim_s_key (j : Nat) (st : State) : (reclaim j st).s_key = st.s_key := by
  unfold reclaim; split <;> rfl

@[simp] theorem reclaim_p_semAdd (j : Nat) (st : State) :
    (reclaim j st).p_semAdd = st.p_semAdd := by
  unfold reclaim; split <;> rfl

@[simp] theorem reclaim_p_prio (j : Nat) (st : State) : (reclaim j st).p_prio = st.p_prio := by
  unfold reclaim; split <;> rfl

theorem reclaim_asl {st : State} {asl free : List Nat} {j : Nat}
    (h : AslInv st.s st.s_key asl free) (hj : j ∈ asl) :
    (list_empty st.q (QNode.s_procq j) = true →
      AslInv (reclaim j st).s (reclaim j st).s_key (asl.erase j) (j :: free)) ∧
    (list_empty st.q (QNode.s_procq j) = false → reclaim j st = st) := by
  constructor
  · intro he
    simpa [reclaim, he] using asl_reclaim h hj
  · intro he
    simp [reclaim, he]

theorem reclaim_asl_some {st : State} {asl free : List Nat} {j : Nat}
    (h : AslInv st.s st.s_key asl free) (hj : j ∈ asl) :
    ∃ asl1 free1, AslInv (reclaim j st).s (reclaim j st).s_key asl1 free1 := by
  cases he : list_empty st.q (QNode.s_procq j) with
  | true => exact ⟨_, _, (reclaim_asl h hj).1 he⟩
  | false =>
    rw [(reclaim_asl h hj).2 he]
    exact ⟨_, _, h⟩

theorem insertBlocked_asl {st st1 : State} {asl free : List Nat} {fuel k p : Nat} {r : Bool}
    (h : AslInv st.s st.s_key asl free) (hop : insertBlocked fuel k p st = some (st1, r)) :
    ∃ asl1 free1, AslInv st1.s st1.s_key asl1 free1 := by
  unfold insertBlocked at hop
  cases hg : getSemd fuel k st with
  | none => simp [hg] at hop
  | some g =>
    have hgs := getSemd_eq_scan h.1 hg
    cases g with
    | some j =>
      simp only [hg, insertBlocked_enqueue, Option.some.injEq, Prod.mk.injEq] at hop
      obtain ⟨rfl, -⟩ := hop
      exact ⟨asl, free, h⟩
    | none =>
      simp only [hg] at hop
      have hk : k ∉ asl.map st.s_key := (scanKeys_none_iff h.2.2.2).1 hgs.symm
      cases he : list_empty st.s SNode.semdFree_h with
      | true =>
        simp only [he, if_true, Option.some.injEq, Prod.mk.injEq] at hop
        obtain ⟨rfl, -⟩ := hop
        exact ⟨asl, free, h⟩
      | false =>
        cases free with
        | nil =>
          have := (ring_list_empty h.2.1).2 rfl
          rw [this] at he
          cases he
        | cons f free1 =>
          obtain ⟨hn, s2, hl, hinv⟩ := asl_alloc k (max fuel (asl.length + 1)) h hk
            (lt_of_lt_of_le (Nat.lt_succ_self _) (le_max_right _ _))
          simp only [he, hn, container_of_s_link, Bool.false_eq_true, if_false] at hop
          cases hl' : insertBlocked_loop (list_del st.s (SNode.s_link f)) (upd st.s_key f k) k f fuel
              ((list_del st.s (SNode.s_link f)).next SNode.semd_h) with
          | none => simp [hl'] at hop
          | some s2' =>
            have := insertBlocked_loop_mono _ _ _ _ fuel (max fuel (asl.length + 1)) _ _
              (le_max_left _ _) hl'
            rw [hl] at this
            cases this
            simp only [hl', insertBlocked_enqueue, Option.some.injEq, Prod.mk.injEq] at hop
            obtain ⟨rfl, -⟩ := hop
            exact ⟨_, _, hinv⟩

theorem removeBlocked_asl {st st1 : State} {asl free : List Nat} {fuel k : Nat} {r : Option Nat}
    (h : AslInv st.s st.s_key asl free) (hop : removeBlocked fuel k st = some (st1, r)) :
    ∃ asl1 free1, AslInv st1.s st1.s_key asl1 free1 := by
  unfold removeBlocked at hop
  cases hg : getSemd fuel k st with
  | none => simp [hg] at hop
  | some g =>
    have hgs := getSemd_eq_scan h.1 hg
    cases g with
    | none =>
      simp only [hg, Option.some.injEq, Prod.mk.injEq] at hop
      obtain ⟨rfl, -⟩ := hop
      exact ⟨asl, free, h⟩
    | some j =>
      have hj := (scanKeys_some hgs.symm).1
      simp only [hg] at hop
      cases he : list_empty st.q (QNode.s_procq j) with
      | true =>
        simp only [he, if_true, Option.some.injEq, Prod.mk.injEq] at hop
        obtain ⟨rfl, -⟩ := hop
        exact ⟨asl, free, h⟩
      | false =>
        simp only [he, Bool.false_eq_true, if_false] at hop
        cases hc : container_of_p_list (st.q.next (QNode.s_procq j)) with
        | none => simp [hc] at hop
        | some p =>
          simp only [hc, Option.some.injEq, Prod.mk.injEq] at hop
          obtain ⟨rfl, -⟩ := hop
          exact @reclaim_asl_some { st with
            q := list_del st.q (st.q.next (QNode.s_procq j)),
            p_semAdd := upd st.p_semAdd p NULL } asl free j h hj

theorem outBlocked_asl {st st1 : State} {asl free : List Nat} {fuel p : Nat} {r : Option Nat}
    (h : AslInv st.s st.s_key asl free) (hop : outBlocked fuel p st = some (st1, r)) :
    ∃ asl1 free1, AslInv st1.s st1.s_key asl1 free1 := by
  unfold outBlocked at hop
  by_cases h0 : st.p_semAdd p = NULL
  · simp only [h0, if_true, Option.some.injEq, Prod.mk.injEq] at hop
    obtain ⟨rfl, -⟩ := hop
    exact ⟨asl, free, h⟩
  · simp only [h0, if_false] at hop
    cases hg : getSemd fuel (st.p_semAdd p) st with
    | none => simp [hg] at hop
    | some g =>
      have hgs := getSemd_eq_scan h.1 hg
      cases g with
      | none =>
        simp only [hg, Option.some.injEq, Prod.mk.injEq] at hop
        obtain ⟨rfl, -⟩ := hop
        exact ⟨asl, free, h⟩
      | some j =>
        have hj := (scanKeys_some hgs.symm).1
        simp only [hg, Option.some.injEq, Prod.mk.injEq] at hop
        obtain ⟨rfl, -⟩ := hop
        exact @reclaim_asl_some { st with
          q := list_del st.q (QNode.p_list p),
          p_semAdd := upd st.p_semAdd p NULL } asl free j h hj

theorem reachable_asl {MAXPROC : Nat} {st : State} (h : Reachable MAXPROC st) :
    ∃ asl free, AslInv st.s st.s_key asl free := by
  induction h with
  | init st => exact ⟨_, _, initASL_inv MAXPROC st⟩
  | insertBlocked fuel semAdd p r _ hop ih =>
    obtain ⟨asl, free, hi⟩ := ih
    exact insertBlocked_asl hi hop
  | removeBlocked fuel semAdd r _ hop ih =>
    obtain ⟨asl, free, hi⟩ := ih
    exact removeBlocked_asl hi hop
  | outBlocked fuel p r _ hop ih =>
    obtain ⟨asl, free, hi⟩ := ih
    exact outBlocked_asl hi hop
  | headBlocked fuel semAdd r _ _ ih => exact ih

/-- C3: in every state reachable from `initASL` by calls of `insertBlocked`,
`removeBlocked`, `outBlocked` and `headBlocked` (any arguments, any call that
returns), the ASL is a well-formed ring of descriptors whose keys, in list
order, are strictly ascending; so no key occurs twice. -/
theorem asl_keys_ascending (MAXPROC : Nat) (st : State) (h : Reachable MAXPROC st) :
    ∃ asl : List Nat, Ring st.s SNode.semd_h (asl.map SNode.s_link) ∧
      (asl.map st.s_key).Pairwise (fun a b => a < b) ∧ (asl.map st.s_key).Nodup := by
  obtain ⟨asl, free, hi⟩ := reachable_asl h
  refine ⟨asl, hi.1, hi.2.2.2, ?_⟩
  exact hi.2.2.2.imp (fun hab => Nat.ne_of_lt hab)

theorem asl_keys_ascending_witness :
    Reachable 3 blocked30_10_20 ∧
    (∃ asl : List Nat, Ring blocked30_10_20.s SNode.semd_h (asl.map SNode.s_link) ∧
      (asl.map blocked30_10_20.s_key).Pairwise (fun a b => a < b) ∧
      (asl.map blocked30_10_20.s_key).Nodup) ∧
    Ring blocked30_10_20.s SNode.semd_h ([1, 0, 2].map SNode.s_link) ∧
    [1, 0, 2].map blocked30_10_20.s_key = [10, 20, 30] :=
  have hr : Reachable 3 blocked30_10_20 :=
    Reachable.insertBlocked 4 20 2 false
      (Reachable.insertBlocked 4 10 1 false
        (Reachable.insertBlocked 4 30 0 false (Reachable.init (freshState prio5351)) rfl) rfl) rfl
  ⟨hr, asl_keys_ascending 3 blocked30_10_20 hr, by decide, by decide⟩

/-! ## Waiter queues -/

theorem qnode_disjoint {wq : Nat → List Nat} {j j' : Nat} (hne : j ≠ j')
    (hd : ∀ p ∈ wq j, p ∉ wq j') {x : QNode}
    (hx : x ∈ QNode.s_procq j :: (wq j).map QNode.p_list) :
    x ∉ QNode.s_procq j' :: (wq j').map QNode.p_list := by
  intro hx'
  rcases List.mem_cons.1 hx with e | e
  · subst e
    simp only [List.mem_cons, QNode.s_procq.injEq, List.mem_map, reduceCtorEq, and_false,
      exists_false, or_false] at hx'
    exact hne hx'
  · obtain ⟨p, hp, rfl⟩ := List.mem_map.1 e
    simp only [List.mem_cons, reduceCtorEq, List.mem_map, false_or] at hx'
    obtain ⟨p', hp', e'⟩ := hx'
    cases p_list_injective e'
    exact hd p hp hp'

theorem p_list_not_mem {p : Nat} {j : Nat} {w : List Nat} (hp : p ∉ w) :
    QNode.p_list p ∉ QNode.s_procq j :: w.map QNode.p_list := by
  simp only [List.mem_cons, reduceCtorEq, List.mem_map, false_or, not_exists, not_and]
  intro x hx e
  cases p_list_injective e
  exact hp hx

/-- Appending a PCB that is in no waiter queue to the queue of descriptor `j`. -/
theorem qinv_add_tail {q : Links QNode} {asl : List Nat} {wq : Nat → List Nat} {j p : Nat}
    (h : QInv q asl wq) (hj : j ∈ asl) (hp : ∀ i ∈ asl, p ∉ wq i) :
    QInv (list_add_tail q (QNode.p_list p) (QNode.s_procq j)) asl
      (Function.update wq j (wq j ++ [p])) := by
  obtain ⟨hr, hd⟩ := h
  have rj := (hr j hj).1
  constructor
  · intro i hi
    by_cases e : i = j
    · subst e
      simp only [Function.update_same]
      refine ⟨?_, by simp⟩
      simpa using ring_add_tail rj (p_list_not_mem (hp i hi))
    · simp only [Function.update_noteq e]
      refine ⟨?_, (hr i hi).2⟩
      have hprev := (ring_nbr_mem rj (List.mem_cons_self _ _)).1
      exact ring_frame_add (hr i hi).1 (p_list_not_mem (hp i hi))
        (qnode_disjoint (Ne.symm e) (hd j hj i hi (Ne.symm e)) hprev)
        (qnode_disjoint (Ne.symm e) (hd j hj i hi (Ne.symm e)) (List.mem_cons_self _ _))
  · intro i hi i' hi' hne x hx
    by_cases e : i = j
    · subst e
      have e' : i' ≠ i := Ne.symm hne
      simp only [Function.update_same, Function.update_noteq e'] at hx ⊢
      rcases List.mem_append.1 hx with hx | hx
      · exact hd i hi i' hi' hne x hx
      · simp only [List.mem_singleton] at hx; subst hx; exact hp i' hi'
    · simp only [Function.update_noteq e] at hx
      by_cases e' : i' = j
      · subst e'
        simp only [Function.update_same, List.mem_append, List.mem_singleton, not_or]
        refine ⟨hd i hi i' hi' hne x hx, ?_⟩
        intro hxp; subst hxp; exact hp i hi hx
      · simp only [Function.update_noteq e']
        exact hd i hi i' hi' hne x hx

/-- The queue of a descriptor `f` that enters the ASL: made empty, then the
PCB appended. -/
theorem qinv_new {q : Links QNode} {asl asl1 : List Nat} {wq : Nat → List Nat} {f p : Nat}
    (h : QInv q asl wq) (hf : f ∉ asl) (hp : ∀ i ∈ asl, p ∉ wq i)
    (hsub : ∀ i ∈ asl1, i = f ∨ i ∈ asl) :
    QInv (list_add_tail (INIT_LIST_HEAD q (QNode.s_procq f)) (QNode.p_list p) (QNode.s_procq f))
      asl1 (Function.update wq f [p]) := by
  obtain ⟨hr, hd⟩ := h
  have r0 : Ring (INIT_LIST_HEAD q (QNode.s_procq f)) (QNode.s_procq f) [] := ring_init _ _
  have hprev : (INIT_LIST_HEAD q (QNode.s_procq f)).prev (QNode.s_procq f) = QNode.s_procq f := by
    simp [INIT_LIST_HEAD]
  constructor
  · intro i hi
    rcases hsub i hi with e | hia
    · subst e
      simp only [Function.update_same]
      refine ⟨?_, by simp⟩
      simpa using ring_add_tail r0 (by simp)
    · have e : i ≠ f := fun e => hf (e ▸ hia)
      simp only [Function.update_noteq e]
      refine ⟨?_, (hr i hia).2⟩
      have hfi : QNode.s_procq f ∉ QNode.s_procq i :: (wq i).map QNode.p_list := by
        simp [Ne.symm e]
      have r1 : Ring (INIT_LIST_HEAD q (QNode.s_procq f)) (QNode.s_procq i)
          ((wq i).map QNode.p_list) := ring_frame_init (hr i hia).1 hfi
      unfold list_add_tail
      rw [hprev]
      exact ring_frame_add r1 (p_list_not_mem (hp i hia)) hfi hfi
  · intro i hi i' hi' hne x hx
    rcases hsub i hi with e | hia
    · subst e
      rcases hsub i' hi' with e' | hia'
      · exact absurd e'.symm hne
      · have e' : i' ≠ i := Ne.symm hne
        simp only [Function.update_same, Function.update_noteq e', List.mem_singleton] at hx ⊢
        subst hx; exact hp i' hia'
    · have e : i ≠ f := fun e => hf (e ▸ hia)
      simp only [Function.update_noteq e] at hx
      rcases hsub i' hi' with e' | hia'
      · subst e'
        simp only [Function.update_same, List.mem_singleton]
        intro hxp; subst hxp; exact hp i hia hx
      · have e' : i' ≠ f := fun e' => hf (e' ▸ hia')
        simp only [Function.update_noteq e']
        exact hd i hia i' hia' hne x hx

/-- Unlinking a PCB from the waiter queue it is in. -/
theorem qinv_del {q : Links QNode} {asl : List Nat} {wq : Nat → List Nat} {j x : Nat}
    {pre post : List Nat} (h : QInv q asl wq) (hj : j ∈ asl) (hw : wq j = pre ++ x :: post) :
    Ring (list_del q (QNode.p_list x)) (QNode.s_procq j) ((pre ++ post).map QNode.p_list) ∧
    (∀ i ∈ asl, i ≠ j →
      Ring (list_del q (QNode.p_list x)) (QNode.s_procq i) ((wq i).map QNode.p_list)) ∧
    (pre ++ post ≠ [] →
      QInv (list_del q (QNode.p_list x)) asl (Function.update wq j (pre ++ post))) := by
  obtain ⟨hr, hd⟩ := h
  have rj : Ring q (QNode.s_procq j) (pre.map QNode.p_list ++ QNode.p_list x :: post.map QNode.p_list) := by
    have := (hr j hj).1
    rw [hw] at this
    simpa using this
  have rj' : Ring q (QNode.s_procq j) ((wq j).map QNode.p_list) := (hr j hj).1
  have hxm : QNode.p_list x ∈ QNode.s_procq j :: (wq j).map QNode.p_list := by
    rw [hw]; simp
  have hnb := ring_nbr_mem rj' hxm
  have h1 : Ring (list_del q (QNode.p_list x)) (QNode.s_procq j) ((pre ++ post).map QNode.p_list) := by
    simpa using ring_delete rj
  have h2 : ∀ i ∈ asl, i ≠ j →
      Ring (list_del q (QNode.p_list x)) (QNode.s_procq i) ((wq i).map QNode.p_list) := by
    intro i hi e
    exact ring_frame_del (hr i hi).1
      (qnode_disjoint (Ne.symm e) (hd j hj i hi (Ne.symm e)) hnb.1)
      (qnode_disjoint (Ne.symm e) (hd j hj i hi (Ne.symm e)) hnb.2)
  refine ⟨h1, h2, ?_⟩
  intro hne
  have hsub : ∀ y ∈ pre ++ post, y ∈ wq j := by
    intro y hy
    rw [hw]
    rcases List.mem_append.1 hy with e | e
    · simp [e]
    · simp [e]
  constructor
  · intro i hi
    by_cases e : i = j
    · subst e
      simp only [Function.update_same]
      exact ⟨h1, hne⟩
    · simp only [Function.update_noteq e]
      exact ⟨h2 i hi e, (hr i hi).2⟩
  · intro i hi i' hi' hnii y hy
    by_cases e : i = j
    · subst e
      have e' : i' ≠ i := Ne.symm hnii
      simp only [Function.update_same, Function.update_noteq e'] at hy ⊢
      exact hd i hi i' hi' hnii y (hsub y hy)
    · simp only [Function.update_noteq e] at hy
      by_cases e' : i' = j
      · subst e'
        simp only [Function.update_same]
        intro hy'
        exact hd i hi i' hi' hnii y hy (hsub y hy')
      · simp only [Function.update_noteq e']
        exact hd i hi i' hi' hnii y hy

/-- The waiter queues of the descriptors that stay when `j` leaves the ASL. -/
theorem qinv_erase {q q1 : Links QNode} {asl : List Nat} {wq : Nat → List Nat} {j : Nat}
    (h : QInv q asl wq) (hnd : asl.Nodup)
    (h2 : ∀ i ∈ asl, i ≠ j → Ring q1 (QNode.s_procq i) ((wq i).map QNode.p_list)) :
    QInv q1 (asl.erase j) wq := by
  obtain ⟨hr, hd⟩ := h
  have hmem : ∀ i ∈ asl.erase j, i ∈ asl ∧ i ≠ j := by
    intro i hi
    exact ⟨List.mem_of_mem_erase hi, fun e => by
      subst e; exact (List.Nodup.not_mem_erase hnd) hi⟩
  constructor
  · intro i hi
    exact ⟨h2 i (hmem i hi).1 (hmem i hi).2, (hr i (hmem i hi).1).2⟩
  · intro i hi i' hi' hne
    exact hd i (hmem i hi).1 i' (hmem i' hi').1 hne

/-! ## What each call of asl.c does on a well-formed state -/

theorem scanKeys_none_of_not_mem {s_key : Nat → Nat} {key : Nat} {js : List Nat}
    (h : key ∉ js.map s_key) : scanKeys s_key key js = none := by
  cases hsc : scanKeys s_key key js with
  | none => rfl
  | some j =>
    have := scanKeys_some hsc
    exact absurd (List.mem_map.2 ⟨j, this.1, this.2⟩) h

theorem getSemd_found {st : State} {asl free : List Nat} {j fuel : Nat}
    (h : AslInv st.s st.s_key asl free) (hj : j ∈ asl) (hf : asl.length < fuel) :
    getSemd fuel (st.s_key j) st = some (some j) := by
  rw [getSemd_spec _ fuel h.1 hf, scanKeys_of_mem h.2.2.2 hj]

theorem getSemd_absent {st : State} {asl : List Nat} {key fuel : Nat}
    (hr : Ring st.s SNode.semd_h (asl.map SNode.s_link)) (hk : key ∉ asl.map st.s_key)
    (hf : asl.length < fuel) :
    getSemd fuel key st = some none := by
  rw [getSemd_spec _ fuel hr hf, scanKeys_none_of_not_mem hk]

/-- The three ways `insertBlocked` can go. -/
theorem insertBlocked_cases {st : State} {asl free : List Nat} (k p fuel : Nat)
    (h : AslInv st.s st.s_key asl free) (hf : asl.length < fuel) :
    (∀ j ∈ asl, st.s_key j = k →
      insertBlocked fuel k p st = some (insertBlocked_enqueue k p j st)) ∧
    (k ∉ asl.map st.s_key → free = [] → insertBlocked fuel k p st = some (st, TRUE)) ∧
    (k ∉ asl.map st.s_key → ∀ f free1, free = f :: free1 →
      ∃ s2, AslInv s2 (upd st.s_key f k) (specInsertKey st.s_key k f asl) free1 ∧
        insertBlocked fuel k p st = some (insertBlocked_enqueue k p f
          { st with s := s2, s_key := upd st.s_key f k,
                    q := INIT_LIST_HEAD st.q (QNode.s_procq f) })) := by
  refine ⟨?_, ?_, ?_⟩
  · intro j hj hk
    subst hk
    simp [insertBlocked, getSemd_found h hj hf]
  · intro hk hfree
    subst hfree
    have := (ring_list_empty h.2.1).2 rfl
    simp [insertBlocked, getSemd_absent h.1 hk hf, this]
  · intro hk f free1 hfree
    subst hfree
    obtain ⟨hn, s2, hl, hinv⟩ := asl_alloc k fuel h hk hf
    have he : list_empty st.s SNode.semdFree_h = false := by
      cases he : list_empty st.s SNode.semdFree_h with
      | false => rfl
      | true => simpa using (ring_list_empty h.2.1).1 he
    refine ⟨s2, hinv, ?_⟩
    simp [insertBlocked, getSemd_absent h.1 hk hf, he, hn, container_of_s_link, hl]

/-- C5: on a well-formed ASL, `insertBlocked(key, p)` returns; it returns
`TRUE` if and only if `key` has no descriptor on the ASL and the free list of
descriptors is empty, and then the state after the call is the state before
it (nothing is written, `p` is not enqueued); in every other case it returns
`FALSE`. -/
theorem insertBlocked_exhausted (st : State) (asl free : List Nat) (key p fuel : Nat)
    (h : AslInv st.s st.s_key asl free) (hf : asl.length < fuel) :
    ∃ st1 r, insertBlocked fuel key p st = some (st1, r) ∧
      (r = TRUE ↔ (key ∉ asl.map st.s_key ∧ free = [])) ∧
      (r = TRUE → st1 = st) ∧
      (¬ (key ∉ asl.map st.s_key ∧ free = []) → r = FALSE) := by
  obtain ⟨hA, hB, hC⟩ := insertBlocked_cases key p fuel h hf
  by_cases hk : key ∈ asl.map st.s_key
  · obtain ⟨j, hj, hkj⟩ := List.mem_map.1 hk
    refine ⟨_, _, hA j hj hkj, ?_, ?_, ?_⟩
    · simp [insertBlocked_enqueue, TRUE, FALSE, hk]
    · simp [insertBlocked_enqueue, TRUE, FALSE]
    · intro _; rfl
  · cases free with
    | nil =>
      refine ⟨_, _, hB hk rfl, ?_, ?_, ?_⟩
      · simp [hk]
      · intro _; rfl
      · intro hn; exact absurd ⟨hk, rfl⟩ hn
    | cons f free1 =>
      obtain ⟨s2, -, hop⟩ := hC hk f free1 rfl
      refine ⟨_, _, hop, ?_, ?_, ?_⟩
      · simp [insertBlocked_enqueue, TRUE, FALSE]
      · simp [insertBlocked_enqueue, TRUE, FALSE]
      · intro _; rfl

theorem insertBlocked_exhausted_witness :
    AslInv blocked30_10_20.s blocked30_10_20.s_key [1, 0, 2] [] ∧
    (∃ st1 r, insertBlocked 4 40 3 blocked30_10_20 = some (st1, r) ∧
      (r = TRUE ↔ (40 ∉ [1, 0, 2].map blocked30_10_20.s_key ∧ ([] : List Nat) = [])) ∧
      (r = TRUE → st1 = blocked30_10_20) ∧
      (¬ (40 ∉ [1, 0, 2].map blocked30_10_20.s_key ∧ ([] : List Nat) = []) → r = FALSE)) ∧
    (insertBlocked 4 40 3 blocked30_10_20).map Prod.snd = some TRUE ∧
    (insertBlocked 4 20 3 blocked30_10_20).map Prod.snd = some FALSE :=
  ⟨by decide, insertBlocked_exhausted blocked30_10_20 [1, 0, 2] [] 40 3 4 (by decide) (by decide),
    by decide, by decide⟩

/-- A successful `insertBlocked` on a well-formed state, for a PCB that is in
no waiter queue: the PCB is appended at the tail of the queue of the key. -/
theorem insertBlocked_wf {st : State} {asl free : List Nat} {wq : Nat → List Nat}
    (k p fuel : Nat) (h : WF st asl free wq) (hf : asl.length < fuel)
    (hp : ∀ i ∈ asl, p ∉ wq i) :
    (∀ j ∈ asl, st.s_key j = k →
      insertBlocked fuel k p st = some (insertBlocked_enqueue k p j st) ∧
      WF (insertBlocked_enqueue k p j st).1 asl free (Function.update wq j (wq j ++ [p]))) ∧
    (k ∉ asl.map st.s_key → ∀ f free1, free = f :: free1 →
      ∃ st1, insertBlocked fuel k p st = some (st1, FALSE) ∧
        st1.p_semAdd = upd st.p_semAdd p k ∧ st1.s_key = upd st.s_key f k ∧
        st1.p_prio = st.p_prio ∧
        WF st1 (specInsertKey st.s_key k f asl) free1 (Function.update wq f [p])) := by
  obtain ⟨hA, -, hC⟩ := insertBlocked_cases k p fuel h.1 hf
  constructor
  · intro j hj hk
    exact ⟨hA j hj hk, h.1, qinv_add_tail h.2 hj hp⟩
  · intro hk f free1 hfree
    obtain ⟨s2, hinv, hop⟩ := hC hk f free1 hfree
    refine ⟨_, hop, rfl, rfl, rfl, hinv, ?_⟩
    have hfa : f ∉ asl := by
      intro hm
      have := h.1.2.2.1
      rw [hfree] at this
      exact (List.nodup_append.1 this).2.2 hm (by simp)
    refine qinv_new h.2 hfa hp ?_
    intro i hi
    have := (specInsertKey_perm st.s_key k f asl).subset hi
    simpa using this

/-- The end of `removeBlocked` and `outBlocked`: PCB `x` is unlinked from the
queue of descriptor `j`, its blocking key is cleared, and the descriptor is
reclaimed if the queue is empty now. -/
theorem unlink_wf {st : State} {asl free : List Nat} {wq : Nat → List Nat} {j x : Nat}
    {pre post : List Nat} (h : WF st asl free wq) (hj : j ∈ asl)
    (hw : wq j = pre ++ x :: post) :
    (pre ++ post ≠ [] →
      reclaim j { st with q := list_del st.q (QNode.p_list x),
                          p_semAdd := upd st.p_semAdd x NULL } =
        { st with q := list_del st.q (QNode.p_list x), p_semAdd := upd st.p_semAdd x NULL } ∧
      WF { st with q := list_del st.q (QNode.p_list x), p_semAdd := upd st.p_semAdd x NULL }
        asl free (Function.update wq j (pre ++ post))) ∧
    (pre ++ post = [] →
      WF (reclaim j { st with q := list_del st.q (QNode.p_list x),
                              p_semAdd := upd st.p_semAdd x NULL })
        (asl.erase j) (j :: free) wq) := by
  obtain ⟨h1, h2, h3⟩ := qinv_del h.2 hj hw
  have hnda : asl.Nodup := (List.nodup_append.1 h.1.2.2.1).1
  constructor
  · intro hne
    have he : list_empty (list_del st.q (QNode.p_list x)) (QNode.s_procq j) = false := by
      cases he : list_empty (list_del st.q (QNode.p_list x)) (QNode.s_procq j) with
      | false => rfl
      | true =>
        have := (ring_list_empty h1).1 he
        simp only [List.map_eq_nil_iff] at this
        exact absurd this hne
    refine ⟨by simp [reclaim, he], h.1, h3 hne⟩
  · intro hnil
    have he : list_empty (list_del st.q (QNode.p_list x)) (QNode.s_procq j) = true := by
      refine (ring_list_empty h1).2 ?_
      simp [hnil]
    have hA := (@reclaim_asl { st with q := list_del st.q (QNode.p_list x),
                                       p_semAdd := upd st.p_semAdd x NULL } asl free j h.1 hj).1 he
    refine ⟨hA, ?_⟩
    simp only [reclaim_q]
    exact qinv_erase h.2 hnda h2

/-- `removeBlocked` on a key whose descriptor `j` is on the ASL, with waiter
queue `h0 :: rest`. -/
theorem removeBlocked_wf {st : State} {asl free : List Nat} {wq : Nat → List Nat}
    (fuel : Nat) (h : WF st asl free wq) (hf : asl.length < fuel) {j h0 : Nat}
    {rest : List Nat} (hj : j ∈ asl) (hw : wq j = h0 :: rest) :
    ∃ st1, removeBlocked fuel (st.s_key j) st = some (st1, some h0) ∧
      st1.p_semAdd = upd st.p_semAdd h0 NULL ∧ st1.s_key = st.s_key ∧
      st1.p_prio = st.p_prio ∧
      (rest ≠ [] → st1.s = st.s ∧ WF st1 asl free (Function.update wq j rest)) ∧
      (rest = [] → WF st1 (asl.erase j) (j :: free) wq) := by
  have rj := (h.2.1 j hj).1
  rw [hw] at rj
  have he : list_empty st.q (QNode.s_procq j) = false := by
    cases he : list_empty st.q (QNode.s_procq j) with
    | false => rfl
    | true => simpa using (ring_list_empty rj).1 he
  have hn := ring_next_head rj
  simp only [List.map_cons, List.cons_append, List.head?_cons, Option.some.injEq] at hn
  have hw' : wq j = [] ++ h0 :: rest := by simpa using hw
  obtain ⟨u1, u2⟩ := unlink_wf h hj hw'
  refine Exists.intro (reclaim j { st with q := list_del st.q (QNode.p_list h0),
                                           p_semAdd := upd st.p_semAdd h0 NULL })
    ⟨?_, by simp, by simp, by simp, ?_, ?_⟩
  · simp [removeBlocked, getSemd_found h.1 hj hf, he, ← hn, container_of_p_list]
  · intro hne
    obtain ⟨e, hwf⟩ := u1 (by simpa using hne)
    rw [e]
    exact ⟨rfl, by simpa using hwf⟩
  · intro hnil
    exact u2 (by simpa using hnil)

/-- `outBlocked` on a PCB that is in the waiter queue of the descriptor of
its blocking key. -/
theorem outBlocked_wf {st : State} {asl free : List Nat} {wq : Nat → List Nat}
    (fuel : Nat) (h : WF st asl free wq) (hf : asl.length < fuel) {j p : Nat}
    (hj : j ∈ asl) (hp : p ∈ wq j) (hk : st.p_semAdd p = st.s_key j)
    (hnz : st.p_semAdd p ≠ NULL) :
    ∃ st1, outBlocked fuel p st = some (st1, some p) ∧
      st1.p_semAdd = upd st.p_semAdd p NULL ∧ st1.s_key = st.s_key ∧
      st1.p_prio = st.p_prio ∧
      ((wq j).erase p ≠ [] →
        st1.s = st.s ∧ WF st1 asl free (Function.update wq j ((wq j).erase p))) ∧
      ((wq j).erase p = [] → WF st1 (asl.erase j) (j :: free) wq) := by
  obtain ⟨pre, post, hw⟩ := List.append_of_mem hp
  have rj := (h.2.1 j hj).1
  have hndw : (wq j).Nodup := by
    have := (List.nodup_cons.1 rj.2).2
    exact List.Nodup.of_map _ this
  have herase : (wq j).erase p = pre ++ post := by
    rw [hw] at hndw ⊢
    have hpp : p ∉ pre := by
      intro hm
      exact (List.nodup_append.1 hndw).2.2 hm (by simp) 
    rw [List.erase_append_right _ hpp]; simp
  obtain ⟨u1, u2⟩ := unlink_wf h hj hw
  refine Exists.intro (reclaim j { st with q := list_del st.q (QNode.p_list p),
                                           p_semAdd := upd st.p_semAdd p NULL })
    ⟨?_, by simp, by simp, by simp, ?_, ?_⟩
  · have hg := getSemd_found h.1 hj hf
    rw [← hk] at hg
    simp [outBlocked, hnz, hg]
  · intro hne
    rw [herase] at hne ⊢
    obtain ⟨e, hwf⟩ := u1 hne
    rw [e]
    exact ⟨rfl, hwf⟩
  · intro hnil
    rw [herase] at hnil
    exact u2 hnil

/-- C7: `removeBlocked(key)` on a well-formed state.  If `key` has no
descriptor on the ASL the call returns `NULL` and the state is unchanged.
Otherwise, with `j` the descriptor of `key` and `h0 :: rest` its waiter
queue, the call returns `h0`, the blocking key of `h0` is `NULL` afterwards
and no other blocking key is written; if `rest` is not empty the ASL and the
free list are as before and the queue of `j` is exactly `rest`; if `rest` is
empty, `j` has left the ASL and is at the head of the free list. -/
theorem removeBlocked_spec (st : State) (asl free : List Nat) (wq : Nat → List Nat)
    (key fuel : Nat) (h : WF st asl free wq) (hf : asl.length < fuel) :
    (key ∉ asl.map st.s_key → removeBlocked fuel key st = some (st, none)) ∧
    (∀ j ∈ asl, st.s_key j = key → ∀ h0 rest, wq j = h0 :: rest →
      ∃ st1, removeBlocked fuel key st = some (st1, some h0) ∧
        st1.p_semAdd h0 = NULL ∧ (∀ x, x ≠ h0 → st1.p_semAdd x = st.p_semAdd x) ∧
        st1.s_key = st.s_key ∧
        (rest ≠ [] → WF st1 asl free (Function.update wq j rest)) ∧
        (rest = [] → WF st1 (asl.erase j) (j :: free) wq)) := by
  constructor
  · intro hk
    simp [removeBlocked, getSemd_absent h.1.1 hk hf]
  · intro j hj hk h0 rest hw
    subst hk
    obtain ⟨st1, h1, h2, h3, -, h5, h6⟩ := removeBlocked_wf fuel h hf hj hw
    refine ⟨st1, h1, by simp [h2, upd], ?_, h3, fun hne => (h5 hne).2, h6⟩
    intro x hx
    simp [h2, upd, hx]

theorem removeBlocked_spec_witness :
    WF blocked4 [1, 0, 2] [] wq4 ∧
    ((40 ∉ [1, 0, 2].map blocked4.s_key → removeBlocked 4 40 blocked4 = some (blocked4, none)) ∧
    (∀ j ∈ [1, 0, 2], blocked4.s_key j = 40 → ∀ h0 rest, wq4 j = h0 :: rest →
      ∃ st1, removeBlocked 4 40 blocked4 = some (st1, some h0) ∧
        st1.p_semAdd h0 = NULL ∧ (∀ x, x ≠ h0 → st1.p_semAdd x = blocked4.p_semAdd x) ∧
        st1.s_key = blocked4.s_key ∧
        (rest ≠ [] → WF st1 [1, 0, 2] [] (Function.update wq4 j rest)) ∧
        (rest = [] → WF st1 ([1, 0, 2].erase j) (j :: []) wq4))) ∧
    (removeBlocked 4 10 blocked4).map Prod.snd = some (some 1) ∧
    (removeBlocked 4 30 blocked4).map Prod.snd = some (some 0) ∧
    (removeBlocked 4 40 blocked4).map Prod.snd = some none :=
  ⟨by decide, removeBlocked_spec blocked4 [1, 0, 2] [] wq4 40 4 (by decide) (by decide),
    by decide, by decide, by decide⟩

theorem erase_mid {p : Nat} {pre post : List Nat} (hnd : (pre ++ p :: post).Nodup) :
    (pre ++ p :: post).erase p = pre ++ post := by
  have hpp : p ∉ pre := by
    intro hm
    exact (List.nodup_append.1 hnd).2.2 hm (by simp) 
  rw [List.erase_append_right _ hpp]; simp

/-- C8: `outBlocked(p)` on a well-formed state, for a PCB `p` that has a
blocking key and is in the waiter queue `pre ++ [p] ++ post` of the descriptor
`j` of that key (at the head, in the middle or at the tail): the call returns
`p`, the blocking key of `p` is `NULL` afterwards and no other blocking key
or descriptor key is written; if `p` was not the only waiter, the ASL and the
free list are as before, the queue of `j` is `pre ++ post` and every other
queue is as before; if `p` was the only waiter, `j` has left the ASL and is
at the head of the free list, and the other queues are as before. -/
theorem outBlocked_spec (st : State) (asl free : List Nat) (wq : Nat → List Nat)
    (p j fuel : Nat) (pre post : List Nat) (h : WF st asl free wq) (hf : asl.length < fuel)
    (hj : j ∈ asl) (hw : wq j = pre ++ p :: post)
    (hk : st.p_semAdd p = st.s_key j) (hnz : st.p_semAdd p ≠ NULL) :
    ∃ st1, outBlocked fuel p st = some (st1, some p) ∧
      st1.p_semAdd p = NULL ∧ (∀ x, x ≠ p → st1.p_semAdd x = st.p_semAdd x) ∧
      st1.s_key = st.s_key ∧
      (wq j ≠ [p] → WF st1 asl free (Function.update wq j (pre ++ post))) ∧
      (wq j = [p] → WF st1 (asl.erase j) (j :: free) wq) := by
  have hp : p ∈ wq j := by rw [hw]; simp
  have hndw : (wq j).Nodup := by
    have := (List.nodup_cons.1 (h.2.1 j hj).1.2).2
    exact List.Nodup.of_map _ this
  have herase : (wq j).erase p = pre ++ post := by
    rw [hw] at hndw ⊢
    exact erase_mid hndw
  have hiff : pre ++ post = [] ↔ wq j = [p] := by
    rw [hw]
    constructor
    · intro e
      have e1 : pre = [] := (List.append_eq_nil.1 e).1
      have e2 : post = [] := (List.append_eq_nil.1 e).2
      simp [e1, e2]
    · intro e
      have := congrArg List.length e
      simp only [List.length_append, List.length_cons, List.length_nil] at this
      have h1 : pre.length = 0 := by omega
      have h2 : post.length = 0 := by omega
      simp [List.length_eq_zero.1 h1, List.length_eq_zero.1 h2]
  obtain ⟨st1, h1, h2, h3, -, h5, h6⟩ := outBlocked_wf fuel h hf hj hp hk hnz
  rw [herase] at h5 h6
  refine ⟨st1, h1, by simp [h2, upd], ?_, h3, ?_, ?_⟩
  · intro x hx
    simp [h2, upd, hx]
  · intro hne
    exact (h5 (fun e => hne (hiff.1 e))).2
  · intro e
    exact h6 (hiff.2 e)

theorem outBlocked_spec_witness :
    (WF blocked4 [1, 0, 2] [] wq4 ∧ 1 ∈ [1, 0, 2] ∧ wq4 1 = [1] ++ 3 :: [] ∧
      blocked4.p_semAdd 3 = blocked4.s_key 1 ∧ blocked4.p_semAdd 3 ≠ NULL) ∧
    (∃ st1, outBlocked 4 3 blocked4 = some (st1, some 3) ∧
      st1.p_semAdd 3 = NULL ∧ (∀ x, x ≠ 3 → st1.p_semAdd x = blocked4.p_semAdd x) ∧
      st1.s_key = blocked4.s_key ∧
      (wq4 1 ≠ [3] → WF st1 [1, 0, 2] [] (Function.update wq4 1 ([1] ++ []))) ∧
      (wq4 1 = [3] → WF st1 ([1, 0, 2].erase 1) (1 :: []) wq4)) :=
  ⟨by decide, outBlocked_spec blocked4 [1, 0, 2] [] wq4 3 1 4 [1] [] (by decide) (by decide)
    (by decide) (by decide) (by decide) (by decide)⟩

/-- C10: `outBlocked(p)` for a PCB whose blocking key is `NULL`, or whose
blocking key has no descriptor on the (well-formed) ASL, returns `NULL` and
the state after the call is the state before it: nothing is written. -/
theorem outBlocked_absent (st : State) (asl : List Nat) (p fuel : Nat)
    (hr : Ring st.s SNode.semd_h (asl.map SNode.s_link)) (hf : asl.length < fuel)
    (h : st.p_semAdd p = NULL ∨ st.p_semAdd p ∉ asl.map st.s_key) :
    outBlocked fuel p st = some (st, none) := by
  by_cases h0 : st.p_semAdd p = NULL
  · simp [outBlocked, h0]
  · rcases h with h | h
    · exact absurd h h0
    · simp [outBlocked, h0, getSemd_absent hr h hf]

theorem outBlocked_absent_witness :
    ((Ring blocked4.s SNode.semd_h ([1, 0, 2].map SNode.s_link) ∧
      (blocked4.p_semAdd 7 = NULL ∨ blocked4.p_semAdd 7 ∉ [1, 0, 2].map blocked4.s_key)) ∧
    outBlocked 4 7 blocked4 = some (blocked4, none)) ∧
    ((Ring lostKeyState.s SNode.semd_h ([1, 0, 2].map SNode.s_link) ∧
      lostKeyState.p_semAdd 7 = 99 ∧
      (lostKeyState.p_semAdd 7 = NULL ∨
        lostKeyState.p_semAdd 7 ∉ [1, 0, 2].map lostKeyState.s_key)) ∧
    outBlocked 4 7 lostKeyState = some (lostKeyState, none)) :=
  ⟨⟨by decide, outBlocked_absent blocked4 [1, 0, 2] 7 4 (by decide) (by decide) (by decide)⟩,
    ⟨by decide,
      outBlocked_absent lostKeyState [1, 0, 2] 7 4 (by decide) (by decide) (by decide)⟩⟩

/-- C6, the claim as stated fails: with PCB 3 (priority 1) waiting on key 10,
`insertBlocked(10, pcb 0)` for PCB 0 of priority 5 succeeds and leaves the
waiter queue `[3, 0]`, where `insertProcQ` on the same queue gives `[0, 3]`;
`removeBlocked(10)` then returns PCB 3, whose priority is not maximal. -/
theorem insertBlocked_not_priority_ordered :
    insertBlocked 4 10 0 waiting3 = some (waiting3_0, FALSE) ∧
    waiting3_0.p_semAdd 0 = 10 ∧ waiting3_0.s_key 2 = 10 ∧
    Ring waiting3.q (QNode.s_procq 2) ([3].map QNode.p_list) ∧
    (insertProcQ 4 (QNode.s_procq 2) 0 waiting3).map
        (fun s => decide (Ring s.q (QNode.s_procq 2) ([0, 3].map QNode.p_list))) = some true ∧
    specInsert waiting3.p_prio 0 [3] = [0, 3] ∧
    Ring waiting3_0.q (QNode.s_procq 2) ([3, 0].map QNode.p_list) ∧
    ¬ Ring waiting3_0.q (QNode.s_procq 2) ((specInsert waiting3.p_prio 0 [3]).map QNode.p_list) ∧
    (removeBlocked 4 10 waiting3_0).map Prod.snd = some (some 3) ∧
    waiting3_0.p_prio 3 < waiting3_0.p_prio 0 :=
  ⟨rfl, by decide, by decide, by decide, by decide, by decide, by decide, by decide, by decide,
    by decide⟩

/-- C6, amended: whenever `insertBlocked(key, p)` succeeds on a well-formed
state for a PCB `p` that is in no waiter queue, the blocking key of `p` is
`key` and the waiter queue of the descriptor `j` of `key` is the previous
queue `old` with `p` appended at the tail (`old` is empty for a descriptor
that has just entered the ASL), whatever the priorities: the queue is in
arrival order.  `removeBlocked(key)` right after returns the head of that
queue, the waiter that has been blocked on `key` the longest. -/
theorem insertBlocked_fifo (st st1 : State) (asl free : List Nat) (wq : Nat → List Nat)
    (key p fuel : Nat) (h : WF st asl free wq) (hf : asl.length < fuel)
    (hp : ∀ i ∈ asl, p ∉ wq i)
    (hop : insertBlocked fuel key p st = some (st1, FALSE)) :
    st1.p_semAdd p = key ∧
    ∃ j asl1 free1 old, j ∈ asl1 ∧ st1.s_key j = key ∧
      (j ∈ asl → old = wq j) ∧ (j ∉ asl → old = []) ∧
      WF st1 asl1 free1 (Function.update wq j (old ++ [p])) ∧
      ∃ st2, removeBlocked (fuel + 1) key st1 = some (st2, (old ++ [p]).head?) := by
  obtain ⟨hA, hC⟩ := insertBlocked_wf key p fuel h hf hp
  by_cases hk : key ∈ asl.map st.s_key
  · obtain ⟨j, hj, hkj⟩ := List.mem_map.1 hk
    obtain ⟨h1, h2⟩ := hA j hj hkj
    rw [h1] at hop
    have e : (insertBlocked_enqueue key p j st).1 = st1 := by
      have := Option.some.inj hop
      rw [this]
    rw [e] at h2
    have hkey : st1.s_key j = key := by rw [← e]; exact hkj
    refine ⟨by rw [← e]; simp [insertBlocked_enqueue, upd], j, asl, free, wq j, hj, hkey,
      fun _ => rfl, fun hn => absurd hj hn, h2, ?_⟩
    obtain ⟨h0, rest, hw⟩ : ∃ h0 rest, wq j ++ [p] = h0 :: rest := by
      cases hq : wq j ++ [p] with
      | nil => simp at hq
      | cons a t => exact ⟨a, t, rfl⟩
    have hw' : Function.update wq j (wq j ++ [p]) j = h0 :: rest := by simp [hw]
    obtain ⟨st2, hr, -⟩ := removeBlocked_wf (fuel + 1) h2 (by omega) hj hw'
    rw [hkey] at hr
    exact ⟨st2, by rw [hr, hw]; rfl⟩
  · cases hfree : free with
    | nil =>
      have := (insertBlocked_cases key p fuel h.1 hf).2.1 hk hfree
      rw [this] at hop
      simp [TRUE, FALSE] at hop
    | cons f free1 =>
      obtain ⟨st1', h1, h2, h3, -, h5⟩ := hC hk f free1 hfree
      rw [h1] at hop
      have e : st1' = st1 := by
        have := Option.some.inj hop
        exact congrArg Prod.fst this
      subst e
      have hfa : f ∉ asl := by
        intro hm
        have := h.1.2.2.1
        rw [hfree] at this
        exact (List.nodup_append.1 this).2.2 hm (by simp)
      have hfm : f ∈ specInsertKey st.s_key key f asl :=
        (specInsertKey_perm st.s_key key f asl).symm.subset (by simp)
      have hkey : st1'.s_key f = key := by simp [h3, upd]
      refine ⟨by simp [h2, upd], f, _, free1, [], hfm, hkey, fun hm => absurd hm hfa,
        fun _ => rfl, by simpa using h5, ?_⟩
      have hw' : Function.update wq f [p] f = p :: [] := by simp
      have hlen : (specInsertKey st.s_key key f asl).length < fuel + 1 := by
        rw [(specInsertKey_perm st.s_key key f asl).length_eq]
        simp only [List.length_cons]; omega
      obtain ⟨st2, hr, -⟩ := removeBlocked_wf (fuel + 1) h5 hlen hfm hw'
      rw [hkey] at hr
      exact ⟨st2, by rw [hr]; rfl⟩

theorem insertBlocked_fifo_witness :
    (WF waiting3 [2] [1, 0] (fun _ => [3]) ∧ (∀ i ∈ [2], 0 ∉ (fun _ : Nat => [3]) i) ∧
      insertBlocked 4 10 0 waiting3 = some (waiting3_0, FALSE)) ∧
    (waiting3_0.p_semAdd 0 = 10 ∧
      ∃ j asl1 free1 old, j ∈ asl1 ∧ waiting3_0.s_key j = 10 ∧
        (j ∈ [2] → old = (fun _ : Nat => [3]) j) ∧ (j ∉ [2] → old = []) ∧
        WF waiting3_0 asl1 free1 (Function.update (fun _ => [3]) j (old ++ [0])) ∧
        ∃ st2, removeBlocked (4 + 1) 10 waiting3_0 = some (st2, (old ++ [0]).head?)) ∧
    Ring waiting3_0.q (QNode.s_procq 2) ([3, 0].map QNode.p_list) ∧
    waiting3_0.p_prio 3 < waiting3_0.p_prio 0 ∧
    (removeBlocked 5 10 waiting3_0).map Prod.snd = some (some 3) :=
  ⟨⟨by decide, by decide, rfl⟩,
    insertBlocked_fifo waiting3 waiting3_0 [2] [1, 0] (fun _ => [3]) 10 0 4 (by decide)
      (by decide) (by decide) rfl,
    by decide, by decide, by decide⟩

/-- C9, the code at the failing input: key 30 is on the ASL with the waiter
queue `[pcb 0]`; PCB 1 records the blocking key 30 but is not in that queue.
`outBlocked(pcb 1)` returns PCB 1, not `NULL`, and clears its blocking key. -/
theorem outBlocked_stray :
    WF strayState [2] [1, 0] (fun _ => [0]) ∧ strayState.s_key 2 = 30 ∧
    strayState.p_semAdd 1 = 30 ∧ 1 ∉ [0] ∧
    (outBlocked 4 1 strayState).map Prod.snd = some (some 1) ∧
    (outBlocked 4 1 strayState).map (fun r => r.1.p_semAdd 1) = some NULL :=
  ⟨by decide, by decide, by decide, by decide, by decide, by decide⟩

/-! ## More fuel, whole calls -/

theorem getSemd_mono {st : State} {key fuel F : Nat} {g : Option Nat} (hle : fuel ≤ F)
    (h : getSemd fuel key st = some g) : getSemd F key st = some g :=
  getSemd_loop_mono st key fuel F _ g hle h

theorem insertBlocked_mono {st : State} {k p fuel F : Nat} {x : State × Bool} (hle : fuel ≤ F)
    (h : insertBlocked fuel k p st = some x) : insertBlocked F k p st = some x := by
  unfold insertBlocked at h ⊢
  cases hg : getSemd fuel k st with
  | none => simp [hg] at h
  | some g =>
    rw [getSemd_mono hle hg]
    rw [hg] at h
    cases g with
    | some j => exact h
    | none =>
      simp only at h ⊢
      cases he : list_empty st.s SNode.semdFree_h with
      | true => simpa [he] using h
      | false =>
        simp only [he, Bool.false_eq_true, if_false] at h ⊢
        cases hc : container_of_s_link (st.s.next SNode.semdFree_h) with
        | none => simp [hc] at h
        | some sem =>
          simp only [hc] at h ⊢
          cases hl : insertBlocked_loop (list_del st.s (st.s.next SNode.semdFree_h))
              (upd st.s_key sem k) k sem fuel
              ((list_del st.s (st.s.next SNode.semdFree_h)).next SNode.semd_h) with
          | none => simp [hl] at h
          | some s2 =>
            rw [insertBlocked_loop_mono _ _ _ _ fuel F _ _ hle hl]
            simpa [hl] using h

theorem removeBlocked_mono {st : State} {k fuel F : Nat} {x : State × Option Nat}
    (hle : fuel ≤ F) (h : removeBlocked fuel k st = some x) :
    removeBlocked F k st = some x := by
  unfold removeBlocked at h ⊢
  cases hg : getSemd fuel k st with
  | none => simp [hg] at h
  | some g =>
    rw [getSemd_mono hle hg]
    rw [hg] at h
    exact h

theorem outBlocked_mono {st : State} {p fuel F : Nat} {x : State × Option Nat}
    (hle : fuel ≤ F) (h : outBlocked fuel p st = some x) :
    outBlocked F p st = some x := by
  unfold outBlocked at h ⊢
  by_cases h0 : st.p_semAdd p = NULL
  · simpa [h0] using h
  · simp only [h0, if_false] at h ⊢
    cases hg : getSemd fuel (st.p_semAdd p) st with
    | none => simp [hg] at h
    | some g =>
      rw [getSemd_mono hle hg]
      rw [hg] at h
      exact h

/-! ## The invariant of the ASL under calls that respect the queues -/

theorem full_init (MAXPROC : Nat) (st : State) (h : ∀ p, st.p_semAdd p = NULL) :
    AslFull MAXPROC (initASL MAXPROC st) [] (List.range MAXPROC).reverse (fun _ => []) := by
  refine ⟨⟨initASL_inv MAXPROC st, ?_⟩, ?_, ?_, ?_⟩
  · constructor <;> simp
  · simp
  · simp
  · intro p hp
    exact absurd (h p) hp

theorem wq_nodup {st : State} {asl free : List Nat} {wq : Nat → List Nat} {j : Nat}
    (h : WF st asl free wq) (hj : j ∈ asl) : (wq j).Nodup :=
  List.Nodup.of_map _ (List.nodup_cons.1 (h.2.1 j hj).1.2).2

theorem not_blocked {st : State} {asl free : List Nat} {wq : Nat → List Nat} {p : Nat}
    (h : WF st asl free wq) (hp : ¬ Blocked st p) : ∀ i ∈ asl, p ∉ wq i := by
  intro i hi hm
  exact hp ⟨asl, i, wq i, h.1.1, hi, (h.2.1 i hi).1, hm⟩

theorem full_unlink {MAXPROC : Nat} {st st1 : State} {asl free : List Nat}
    {wq : Nat → List Nat} {j x : Nat} {pre post : List Nat}
    (h : AslFull MAXPROC st asl free wq) (hj : j ∈ asl) (hw : wq j = pre ++ x :: post)
    (h1 : st1.p_semAdd = upd st.p_semAdd x NULL) (h2 : st1.s_key = st.s_key)
    (h3 : pre ++ post ≠ [] → WF st1 asl free (Function.update wq j (pre ++ post)))
    (h4 : pre ++ post = [] → WF st1 (asl.erase j) (j :: free) wq) :
    ∃ asl1 free1 wq1, AslFull MAXPROC st1 asl1 free1 wq1 := by
  obtain ⟨hwf, hperm, hkey, hbl⟩ := h
  have hndw : (wq j).Nodup := wq_nodup hwf hj
  have hnda : asl.Nodup := (List.nodup_append.1 hwf.1.2.2.1).1
  have hxj : x ∈ wq j := by rw [hw]; simp
  have hx_not : x ∉ pre ++ post := by
    rw [hw] at hndw
    have hp := (List.perm_middle : (pre ++ x :: post).Perm (x :: (pre ++ post)))
    exact (List.nodup_cons.1 (hp.nodup_iff.1 hndw)).1
  have hxi : ∀ i ∈ asl, i ≠ j → x ∉ wq i := fun i hi e =>
    hwf.2.2 j hj i hi (Ne.symm e) x hxj
  have hsa : ∀ y, y ≠ x → st1.p_semAdd y = st.p_semAdd y := by
    intro y hy; simp [h1, upd, hy]
  have hsx : st1.p_semAdd x = NULL := by simp [h1, upd]
  by_cases hne : pre ++ post = []
  · refine ⟨asl.erase j, j :: free, wq, h4 hne, ?_, ?_, ?_⟩
    · have hp1 : (asl.erase j ++ j :: free).Perm (j :: (asl.erase j ++ free)) := List.perm_middle
      have hp2 : (j :: (asl.erase j ++ free)).Perm (asl ++ free) := by
        have := (List.perm_cons_erase hj).symm.append_right free
        simpa using this
      exact (hp1.trans hp2).trans hperm
    · intro i hi y hy
      have hia : i ∈ asl := List.mem_of_mem_erase hi
      have hij : i ≠ j := fun e => by
        subst e; exact (List.Nodup.not_mem_erase hnda) hi
      have hyx : y ≠ x := fun e => hxi i hia hij (e ▸ hy)
      rw [hsa y hyx, h2]
      exact hkey i hia y hy
    · intro y hy
      have hyx : y ≠ x := fun e => hy (e ▸ hsx)
      rw [hsa y hyx] at hy
      obtain ⟨i, hi, hyi⟩ := hbl y hy
      have hij : i ≠ j := by
        intro e
        subst e
        rw [hw] at hyi
        have e1 : pre = [] := (List.append_eq_nil.1 hne).1
        have e2 : post = [] := (List.append_eq_nil.1 hne).2
        subst e1; subst e2
        simp at hyi
        exact hyx hyi
      exact ⟨i, (List.mem_erase_of_ne hij).2 hi, hyi⟩
  · refine ⟨asl, free, Function.update wq j (pre ++ post), h3 hne, hperm, ?_, ?_⟩
    · intro i hi y hy
      by_cases e : i = j
      · subst e
        simp only [Function.update_same] at hy
        have hyx : y ≠ x := fun e => hx_not (e ▸ hy)
        have hyw : y ∈ wq i := by
          rw [hw]
          rcases List.mem_append.1 hy with e | e
          · simp [e]
          · simp [e]
        rw [hsa y hyx, h2]
        exact hkey i hi y hyw
      · simp only [Function.update_noteq e] at hy
        have hyx : y ≠ x := fun e' => hxi i hi e (e' ▸ hy)
        rw [hsa y hyx, h2]
        exact hkey i hi y hy
    · intro y hy
      have hyx : y ≠ x := fun e => hy (e ▸ hsx)
      rw [hsa y hyx] at hy
      obtain ⟨i, hi, hyi⟩ := hbl y hy
      refine ⟨i, hi, ?_⟩
      by_cases e : i = j
      · subst e
        simp only [Function.update_same]
        rw [hw] at hyi
        rcases List.mem_append.1 hyi with e | e
        · simp [e]
        · rcases List.mem_cons.1 e with e | e
          · exact absurd e hyx
          · simp [e]
      · simpa [Function.update_noteq e] using hyi

theorem full_insert {MAXPROC : Nat} {st st1 : State} {asl free : List Nat}
    {wq : Nat → List Nat} {fuel k p : Nat} {r : Bool}
    (h : AslFull MAXPROC st asl free wq) (hnb : ¬ Blocked st p)
    (hop : insertBlocked fuel k p st = some (st1, r)) :
    ∃ asl1 free1 wq1, AslFull MAXPROC st1 asl1 free1 wq1 := by
  obtain ⟨hwf, hperm, hkey, hbl⟩ := h
  have hp := not_blocked hwf hnb
  have hf : asl.length < max fuel (asl.length + 1) :=
    lt_of_lt_of_le (Nat.lt_succ_self _) (le_max_right _ _)
  have hop' := insertBlocked_mono (le_max_left fuel (asl.length + 1)) hop
  obtain ⟨hA, hC⟩ := insertBlocked_wf k p _ hwf hf hp
  by_cases hk : k ∈ asl.map st.s_key
  · obtain ⟨j, hj, hkj⟩ := List.mem_map.1 hk
    obtain ⟨e1, e2⟩ := hA j hj hkj
    rw [e1] at hop'
    have e : (insertBlocked_enqueue k p j st).1 = st1 := by
      have := Option.some.inj hop'
      rw [this]
    rw [e] at e2
    have hsa : st1.p_semAdd = upd st.p_semAdd p k := by rw [← e]; rfl
    have hsk : st1.s_key = st.s_key := by rw [← e]; rfl
    refine ⟨asl, free, _, e2, hperm, ?_, ?_⟩
    · intro i hi y hy
      by_cases ei : i = j
      · subst ei
        simp only [Function.update_same, List.mem_append, List.mem_singleton] at hy
        rcases hy with hy | hy
        · have hyp : y ≠ p := fun e' => hp i hi (e' ▸ hy)
          simp only [hsa, hsk, upd, hyp, if_false]
          exact hkey i hi y hy
        · subst hy
          simp [hsa, hsk, upd, hkj]
      · simp only [Function.update_noteq ei] at hy
        have hyp : y ≠ p := fun e' => hp i hi (e' ▸ hy)
        simp only [hsa, hsk, upd, hyp, if_false]
        exact hkey i hi y hy
    · intro y hy
      by_cases hyp : y = p
      · subst hyp
        exact ⟨j, hj, by simp⟩
      · simp only [hsa, upd, hyp, if_false] at hy
        obtain ⟨i, hi, hyi⟩ := hbl y hy
        refine ⟨i, hi, ?_⟩
        by_cases ei : i = j
        · subst ei; simp [hyi]
        · simpa [Function.update_noteq ei] using hyi
  · cases hfree : free with
    | nil =>
      have := (insertBlocked_cases k p _ hwf.1 hf).2.1 hk hfree
      rw [this] at hop'
      have e : st = st1 := congrArg Prod.fst (Option.some.inj hop')
      subst e
      exact ⟨asl, [], wq, by rw [← hfree]; exact hwf, by rw [← hfree]; exact hperm, hkey, hbl⟩
    | cons f free1 =>
      obtain ⟨st1', e1, hsa, hsk, -, hwf1⟩ := hC hk f free1 hfree
      rw [e1] at hop'
      have e : st1' = st1 := congrArg Prod.fst (Option.some.inj hop')
      subst e
      have hfa : f ∉ asl := by
        intro hm
        have := hwf.1.2.2.1
        rw [hfree] at this
        exact (List.nodup_append.1 this).2.2 hm (by simp)
      have hmem : ∀ i ∈ specInsertKey st.s_key k f asl, i = f ∨ i ∈ asl := by
        intro i hi
        simpa using (specInsertKey_perm st.s_key k f asl).subset hi
      refine ⟨_, free1, _, hwf1, ?_, ?_, ?_⟩
      · have hp1 : (specInsertKey st.s_key k f asl ++ free1).Perm (asl ++ f :: free1) :=
          ((specInsertKey_perm st.s_key k f asl).append_right free1).trans
            (by simpa using (List.perm_middle).symm)
        rw [hfree] at hperm
        exact hp1.trans hperm
      · intro i hi y hy
        rcases hmem i hi with ei | hia
        · subst ei
          simp only [Function.update_same, List.mem_singleton] at hy
          subst hy
          simp [hsa, hsk, upd]
        · have ei : i ≠ f := fun e' => hfa (e' ▸ hia)
          simp only [Function.update_noteq ei] at hy
          have hyp : y ≠ p := fun e' => hp i hia (e' ▸ hy)
          simp only [hsa, hsk, upd, hyp, ei, if_false]
          exact hkey i hia y hy
      · intro y hy
        by_cases hyp : y = p
        · subst hyp
          exact ⟨f, (specInsertKey_perm st.s_key k f asl).symm.subset (by simp), by simp⟩
        · simp only [hsa, upd, hyp, if_false] at hy
          obtain ⟨i, hi, hyi⟩ := hbl y hy
          have ei : i ≠ f := fun e' => hfa (e' ▸ hi)
          exact ⟨i, (specInsertKey_perm st.s_key k f asl).symm.subset (by simp [hi]),
            by simpa [Function.update_noteq ei] using hyi⟩

theorem full_remove {MAXPROC : Nat} {st st1 : State} {asl free : List Nat}
    {wq : Nat → List Nat} {fuel k : Nat} {r : Option Nat}
    (h : AslFull MAXPROC st asl free wq)
    (hop : removeBlocked fuel k st = some (st1, r)) :
    ∃ asl1 free1 wq1, AslFull MAXPROC st1 asl1 free1 wq1 := by
  have hwf := h.1
  have hf : asl.length < max fuel (asl.length + 1) :=
    lt_of_lt_of_le (Nat.lt_succ_self _) (le_max_right _ _)
  have hop' := removeBlocked_mono (le_max_left fuel (asl.length + 1)) hop
  by_cases hk : k ∈ asl.map st.s_key
  · obtain ⟨j, hj, hkj⟩ := List.mem_map.1 hk
    obtain ⟨h0, rest, hw⟩ : ∃ h0 rest, wq j = h0 :: rest := by
      cases hq : wq j with
      | nil => exact absurd hq (hwf.2.1 j hj).2
      | cons a t => exact ⟨a, t, rfl⟩
    obtain ⟨st1', e1, hsa, hsk, -, h5, h6⟩ := removeBlocked_wf _ hwf hf hj hw
    rw [hkj, hop'] at e1
    have e : st1 = st1' := congrArg Prod.fst (Option.some.inj e1)
    subst e
    have hw' : wq j = [] ++ h0 :: rest := by simpa using hw
    exact full_unlink h hj hw' hsa hsk (fun hne => by simpa using (h5 (by simpa using hne)).2)
      (fun hnil => h6 (by simpa using hnil))
  · have := getSemd_absent hwf.1.1 hk hf
    simp only [removeBlocked, this, Option.some.injEq, Prod.mk.injEq] at hop'
    obtain ⟨rfl, -⟩ := hop'
    exact ⟨asl, free, wq, h⟩

theorem full_out {MAXPROC : Nat} {st st1 : State} {asl free : List Nat}
    {wq : Nat → List Nat} {fuel p : Nat} {r : Option Nat}
    (h : AslFull MAXPROC st asl free wq)
    (hop : outBlocked fuel p st = some (st1, r)) :
    ∃ asl1 free1 wq1, AslFull MAXPROC st1 asl1 free1 wq1 := by
  have hwf := h.1
  have hf : asl.length < max fuel (asl.length + 1) :=
    lt_of_lt_of_le (Nat.lt_succ_self _) (le_max_right _ _)
  have hop' := outBlocked_mono (le_max_left fuel (asl.length + 1)) hop
  by_cases h0 : st.p_semAdd p = NULL
  · simp only [outBlocked, h0, if_true, Option.some.injEq, Prod.mk.injEq] at hop'
    obtain ⟨rfl, -⟩ := hop'
    exact ⟨asl, free, wq, h⟩
  · obtain ⟨j, hj, hpj⟩ := h.2.2.2 p h0
    have hk := h.2.2.1 j hj p hpj
    obtain ⟨pre, post, hw⟩ := List.append_of_mem hpj
    have herase : (wq j).erase p = pre ++ post := by
      have hnd := wq_nodup hwf hj
      rw [hw] at hnd ⊢
      exact erase_mid hnd
    obtain ⟨st1', e1, hsa, hsk, -, h5, h6⟩ := outBlocked_wf _ hwf hf hj hpj hk h0
    rw [hop'] at e1
    have e : st1 = st1' := congrArg Prod.fst (Option.some.inj e1)
    subst e
    rw [herase] at h5 h6
    exact full_unlink h hj hw hsa hsk (fun hne => (h5 hne).2) h6

theorem reachable_full {MAXPROC : Nat} {st : State} (h : ReachableProper MAXPROC st) :
    ∃ asl free wq, AslFull MAXPROC st asl free wq := by
  induction h with
  | init st h0 => exact ⟨_, _, _, full_init MAXPROC st h0⟩
  | insertBlocked fuel semAdd p r _ hnb hop ih =>
    obtain ⟨asl, free, wq, hi⟩ := ih
    exact full_insert hi hnb hop
  | removeBlocked fuel semAdd r _ hop ih =>
    obtain ⟨asl, free, wq, hi⟩ := ih
    exact full_remove hi hop
  | outBlocked fuel p r _ hop ih =>
    obtain ⟨asl, free, wq, hi⟩ := ih
    exact full_out hi hop

/-- C4, the claim as stated fails: after `initASL()` (two descriptors),
`insertBlocked(10, pcb 0)`, `insertBlocked(20, pcb 0)` for the same PCB, which
is still in the waiter queue of key 10, and `removeBlocked(10)`, the
descriptor of key 20 is on the ASL with an empty waiter queue
(`list_empty(&s_procq)` holds, and `removeBlocked(20)` returns `NULL`). -/
theorem asl_entry_with_empty_queue :
    Reachable 2 twice3 ∧
    Blocked twice1 0 ∧
    Ring twice3.s SNode.semd_h ([1, 0].map SNode.s_link) ∧
    [1, 0].map twice3.s_key = [10, 20] ∧
    list_empty twice3.q (QNode.s_procq 0) = true ∧
    Ring twice3.q (QNode.s_procq 0) [] ∧
    (removeBlocked 4 20 twice3).map Prod.snd = some none :=
  have hr : Reachable 2 twice3 :=
    Reachable.removeBlocked 4 10 (some 0)
      (Reachable.insertBlocked 4 20 0 false
        (Reachable.insertBlocked 4 10 0 false (Reachable.init (freshState prio5351)) rfl) rfl) rfl
  ⟨hr, ⟨[1], 1, [0], by decide, by decide, by decide, by decide⟩, by decide, by decide,
    by decide, by decide, by decide⟩

/-- C4, amended: in every state reachable from `initASL` (entered with no PCB
recording a blocking key) by calls of `insertBlocked`, `removeBlocked` and
`outBlocked` in which `insertBlocked` is only called on a PCB that is not in
a waiter queue, the state is well formed and: every descriptor on the ASL
has a waiter queue that is not empty; every one of the `MAXPROC` descriptors
is on the ASL or on the free list, and none is on both; every waiter records
the key of its descriptor; and every PCB that records a blocking key is a
waiter of the descriptor on the ASL that has this key, so that a descriptor
off the ASL has no waiter. -/
theorem asl_membership (MAXPROC : Nat) (st : State) (h : ReachableProper MAXPROC st) :
    ∃ asl free wq, WF st asl free wq ∧
      (∀ j ∈ asl, wq j ≠ [] ∧ list_empty st.q (QNode.s_procq j) = false) ∧
      (∀ j, j < MAXPROC ↔ (j ∈ asl ∨ j ∈ free)) ∧
      (∀ j, j < MAXPROC → j ∉ asl → j ∈ free) ∧
      (∀ j ∈ asl, j ∉ free) ∧
      (∀ j ∈ asl, ∀ p ∈ wq j, st.p_semAdd p = st.s_key j) ∧
      (∀ p, st.p_semAdd p ≠ NULL →
        ∃ j ∈ asl, st.s_key j = st.p_semAdd p ∧ p ∈ wq j) := by
  obtain ⟨asl, free, wq, hwf, hperm, hkey, hbl⟩ := reachable_full h
  have hmem : ∀ j, j < MAXPROC ↔ (j ∈ asl ∨ j ∈ free) := by
    intro j
    rw [← List.mem_range, ← hperm.mem_iff, List.mem_append]
  refine ⟨asl, free, wq, hwf, ?_, hmem, ?_, ?_, hkey, ?_⟩
  · intro j hj
    refine ⟨(hwf.2.1 j hj).2, ?_⟩
    cases he : list_empty st.q (QNode.s_procq j) with
    | false => rfl
    | true =>
      have := (ring_list_empty (hwf.2.1 j hj).1).1 he
      simp only [List.map_eq_nil_iff] at this
      exact absurd this (hwf.2.1 j hj).2
  · intro j hj hn
    rcases (hmem j).1 hj with e | e
    · exact absurd e hn
    · exact e
  · intro j hj hf
    exact (List.nodup_append.1 hwf.1.2.2.1).2.2 hj hf
  · intro p hp
    obtain ⟨j, hj, hpj⟩ := hbl p hp
    exact ⟨j, hj, (hkey j hj p hpj).symm, hpj⟩

theorem not_blocked_of_wf {st : State} {asl free : List Nat} {wq : Nat → List Nat} {p : Nat}
    (h : WF st asl free wq) (hp : ∀ i ∈ asl, p ∉ wq i) : ¬ Blocked st p := by
  rintro ⟨asl1, j, w, hr, hj, hq, hpw⟩
  have e1 : asl1 = asl :=
    List.map_injective_iff.2 s_link_injective (ring_unique hr h.1.1)
  subst e1
  have e2 : w = wq j :=
    List.map_injective_iff.2 p_list_injective (ring_unique hq (h.2.1 j hj).1)
  subst e2
  exact hp j hj hpw

theorem asl_membership_witness :
    ReachableProper 3 blocked30_10_20 ∧
    (∃ asl free wq, WF blocked30_10_20 asl free wq ∧
      (∀ j ∈ asl, wq j ≠ [] ∧ list_empty blocked30_10_20.q (QNode.s_procq j) = false) ∧
      (∀ j, j < 3 ↔ (j ∈ asl ∨ j ∈ free)) ∧
      (∀ j, j < 3 → j ∉ asl → j ∈ free) ∧
      (∀ j ∈ asl, j ∉ free) ∧
      (∀ j ∈ asl, ∀ p ∈ wq j, blocked30_10_20.p_semAdd p = blocked30_10_20.s_key j) ∧
      (∀ p, blocked30_10_20.p_semAdd p ≠ NULL →
        ∃ j ∈ asl, blocked30_10_20.s_key j = blocked30_10_20.p_semAdd p ∧ p ∈ wq j)) :=
  have h0 : ReachableProper 3 (initASL 3 (freshState prio5351)) :=
    ReachableProper.init (freshState prio5351) (fun _ => rfl)
  have w0 : WF (initASL 3 (freshState prio5351)) [] [2, 1, 0] (fun _ => []) := by decide
  have h1 : ReachableProper 3 blocked30 :=
    ReachableProper.insertBlocked 4 30 0 false h0 (not_blocked_of_wf w0 (by decide)) rfl
  have w1 : WF blocked30 [2] [1, 0] (fun _ => [0]) := by decide
  have h2 : ReachableProper 3 blocked30_10 :=
    ReachableProper.insertBlocked 4 10 1 false h1 (not_blocked_of_wf w1 (by decide)) rfl
  have w2 : WF blocked30_10 [1, 2] [0] (fun j => if j = 2 then [0] else [1]) := by decide
  have h3 : ReachableProper 3 blocked30_10_20 :=
    ReachableProper.insertBlocked 4 20 2 false h2 (not_blocked_of_wf w2 (by decide)) rfl
  ⟨h3, asl_membership 3 blocked30_10_20 h3⟩

/-! ## pcb.c: removing a given PCB from a queue -/

/-- The loop of `outProcQ`, started anywhere in the queue: `pre` are the
entries already passed (none of them is `p`), `post` the ones still ahead. -/
theorem outProcQ_loop_spec (st : State) (head : QNode) (p : Nat) :
    ∀ (post pre : List Nat) (fuel : Nat) (pos : QNode),
      Ring st.q head ((pre ++ post).map QNode.p_list) →
      post.length < fuel →
      (post.map QNode.p_list ++ [head]).head? = some pos →
      (p ∈ post → outProcQ_loop st head p fuel pos =
        some ({ st with q := list_del st.q (QNode.p_list p) }, some p)) ∧
      (p ∉ post → outProcQ_loop st head p fuel pos = some (st, none)) := by
  intro post
  induction post with
  | nil =>
    intro pre fuel pos r hf hpos
    obtain ⟨f, rfl⟩ : ∃ f, fuel = f + 1 := ⟨fuel - 1, by omega⟩
    simp only [List.map_nil, List.nil_append, List.head?_cons, Option.some.injEq] at hpos
    subst hpos
    exact ⟨fun h => by simp at h, fun _ => by simp [outProcQ_loop]⟩
  | cons c rest ih =>
    intro pre fuel pos r hf hpos
    obtain ⟨f, rfl⟩ : ∃ f, fuel = f + 1 := ⟨fuel - 1, by omega⟩
    simp only [List.map_cons, List.cons_append, List.head?_cons, Option.some.injEq] at hpos
    subst hpos
    have r1 : Ring st.q head (pre.map QNode.p_list ++ QNode.p_list c :: rest.map QNode.p_list) := by
      simpa using r
    have hch : QNode.p_list c ≠ head := by
      intro e
      have := (List.nodup_cons.1 r1.2).1
      exact this (by simp [e])
    by_cases hcp : c = p
    · subst hcp
      refine ⟨fun _ => by simp [outProcQ_loop, hch, container_of_p_list], fun h => ?_⟩
      exact absurd (List.mem_cons_self _ _) h
    · have hnext := ring_next_mem r1
      have r2 : Ring st.q head (((pre ++ [c]) ++ rest).map QNode.p_list) := by simpa using r
      obtain ⟨h1, h2⟩ := ih (pre ++ [c]) f (st.q.next (QNode.p_list c)) r2
        (by simp at hf; omega) hnext
      constructor
      · intro hm
        have hm' : p ∈ rest := by
          rcases List.mem_cons.1 hm with e | e
          · exact absurd e.symm hcp
          · exact e
        simp [outProcQ_loop, hch, container_of_p_list, hcp, h1 hm']
      · intro hm
        have hm' : p ∉ rest := fun e => hm (List.mem_cons_of_mem _ e)
        simp [outProcQ_loop, hch, container_of_p_list, hcp, h2 hm']

/-- C16: `outProcQ(head, p)` on a well-formed queue `q` returns.  If `p` is
in `q`, say `q = pre ++ [p] ++ post`, it returns `p` and the queue is then
`pre ++ post`: exactly `p` is removed and the other entries keep their order;
no other field of the state is written.  If `p` is not in `q` it returns
`NULL` and the state is unchanged.  Only the identity of the PCB decides:
no field of a PCB occurs in the statement. -/
theorem outProcQ_spec (st : State) (head : QNode) (q : List Nat) (p fuel : Nat)
    (hr : Ring st.q head (q.map QNode.p_list)) (hf : q.length < fuel) :
    (p ∈ q → ∃ q1 pre post, q = pre ++ p :: post ∧
      outProcQ fuel head p st = some ({ st with q := q1 }, some p) ∧
      Ring q1 head ((pre ++ post).map QNode.p_list)) ∧
    (p ∉ q → outProcQ fuel head p st = some (st, none)) := by
  have hr0 : Ring st.q head (([] ++ q).map QNode.p_list) := by simpa using hr
  obtain ⟨h1, h2⟩ := outProcQ_loop_spec st head p q [] fuel _ hr0 hf (ring_next_head hr)
  refine ⟨fun hm => ?_, h2⟩
  obtain ⟨pre, post, rfl⟩ := List.append_of_mem hm
  refine ⟨_, pre, post, rfl, h1 hm, ?_⟩
  have r1 : Ring st.q head (pre.map QNode.p_list ++ QNode.p_list p :: post.map QNode.p_list) := by
    simpa using hr
  simpa using ring_delete r1

theorem outProcQ_spec_witness :
    Ring queue01.q (QNode.anchor 0) ([0, 1].map QNode.p_list) ∧
    ((1 ∈ [0, 1] → ∃ q1 pre post, [0, 1] = pre ++ 1 :: post ∧
      outProcQ 3 (QNode.anchor 0) 1 queue01 = some ({ queue01 with q := q1 }, some 1) ∧
      Ring q1 (QNode.anchor 0) ((pre ++ post).map QNode.p_list)) ∧
    (1 ∉ [0, 1] → outProcQ 3 (QNode.anchor 0) 1 queue01 = some (queue01, none))) ∧
    (outProcQ 3 (QNode.anchor 0) 0 queue01).map
      (fun r => (r.2, decide (Ring r.1.q (QNode.anchor 0) ([1].map QNode.p_list)))) =
        some (some 0, true) ∧
    (outProcQ 3 (QNode.anchor 0) 2 queue01).map Prod.snd = some none :=
  ⟨by decide, outProcQ_spec queue01 (QNode.anchor 0) [0, 1] 1 3 (by decide) (by decide),
    by decide, by decide⟩

/-! ## pcb.c: the process tree -/

theorem p_sib_injective : Function.Injective TNode.p_sib := by
  intro a b h; cases h; rfl

theorem p_sib_not_mem {c par : Nat} {cs : List Nat} (hc : c ∉ cs) :
    TNode.p_sib c ∉ TNode.p_child par :: cs.map TNode.p_sib := by
  simp only [List.mem_cons, reduceCtorEq, List.mem_map, false_or, not_exists, not_and]
  intro x hx e
  cases p_sib_injective e
  exact hc hx

/-- C12: `outChild(p)`.  If `p` has no parent it returns `NULL` and the state
is unchanged.  If `p` has the parent `par` and the child list of `par` is
`pre ++ [p] ++ post` (so `p` is first, in the middle or last), it returns `p`,
the parent reference of `p` is `NULL` afterwards, no other parent reference
is written, and the child list of `par` is `pre ++ post`.  In particular
`insertChild(parent, c)` for a `c` that is not a child of `parent`, followed
by `outChild(c)`, returns `c`, clears its parent reference and leaves the
child list of `parent` as it was. -/
theorem outChild_spec (st : State) (p : Nat) :
    (st.p_parent p = none → outChild p st = (st, none)) ∧
    (∀ par pre post, st.p_parent p = some par →
      Ring st.t (TNode.p_child par) ((pre ++ p :: post).map TNode.p_sib) →
      (outChild p st).2 = some p ∧ (outChild p st).1.p_parent p = none ∧
      (∀ x, x ≠ p → (outChild p st).1.p_parent x = st.p_parent x) ∧
      Ring (outChild p st).1.t (TNode.p_child par) ((pre ++ post).map TNode.p_sib)) ∧
    (∀ parent c cs, Ring st.t (TNode.p_child parent) (cs.map TNode.p_sib) → c ∉ cs →
      Ring (insertChild (some parent) (some c) st).t (TNode.p_child parent)
        ((c :: cs).map TNode.p_sib) ∧
      (insertChild (some parent) (some c) st).p_parent c = some parent ∧
      (outChild c (insertChild (some parent) (some c) st)).2 = some c ∧
      (outChild c (insertChild (some parent) (some c) st)).1.p_parent c = none ∧
      Ring (outChild c (insertChild (some parent) (some c) st)).1.t (TNode.p_child parent)
        (cs.map TNode.p_sib)) := by
  refine ⟨?_, ?_, ?_⟩
  · intro h
    simp [outChild, h]
  · intro par pre post hpar hr
    have hne : st.p_parent p ≠ none := by rw [hpar]; simp
    have r1 : Ring st.t (TNode.p_child par)
        (pre.map TNode.p_sib ++ TNode.p_sib p :: post.map TNode.p_sib) := by simpa using hr
    refine ⟨by simp [outChild, hne], by simp [outChild, hne, upd], ?_, ?_⟩
    · intro x hx
      simp [outChild, hne, upd, hx]
    · simpa [outChild, hne] using ring_delete r1
  · intro parent c cs hr hc
    have hadd : Ring (list_add st.t (TNode.p_sib c) (TNode.p_child parent)) (TNode.p_child parent)
        (TNode.p_sib c :: cs.map TNode.p_sib) := ring_add_head hr (p_sib_not_mem hc)
    have hadd0 : Ring (list_add st.t (TNode.p_sib c) (TNode.p_child parent)) (TNode.p_child parent)
        ([] ++ TNode.p_sib c :: cs.map TNode.p_sib) := by simpa using hadd
    have hdel := ring_delete hadd0
    refine ⟨by simpa [insertChild] using hadd, by simp [insertChild, upd],
      by simp [outChild, insertChild, upd], by simp [outChild, insertChild, upd], ?_⟩
    simpa [outChild, insertChild, upd] using hdel

theorem outChild_spec_witness :
    (family.p_parent 2 = some 0 ∧
      Ring family.t (TNode.p_child 0) (([3] ++ 2 :: [1]).map TNode.p_sib) ∧ 4 ∉ [3, 2, 1]) ∧
    ((family.p_parent 2 = none → outChild 2 family = (family, none)) ∧
    (∀ par pre post, family.p_parent 2 = some par →
      Ring family.t (TNode.p_child par) ((pre ++ 2 :: post).map TNode.p_sib) →
      (outChild 2 family).2 = some 2 ∧ (outChild 2 family).1.p_parent 2 = none ∧
      (∀ x, x ≠ 2 → (outChild 2 family).1.p_parent x = family.p_parent x) ∧
      Ring (outChild 2 family).1.t (TNode.p_child par) ((pre ++ post).map TNode.p_sib)) ∧
    (∀ parent c cs, Ring family.t (TNode.p_child parent) (cs.map TNode.p_sib) → c ∉ cs →
      Ring (insertChild (some parent) (some c) family).t (TNode.p_child parent)
        ((c :: cs).map TNode.p_sib) ∧
      (insertChild (some parent) (some c) family).p_parent c = some parent ∧
      (outChild c (insertChild (some parent) (some c) family)).2 = some c ∧
      (outChild c (insertChild (some parent) (some c) family)).1.p_parent c = none ∧
      Ring (outChild c (insertChild (some parent) (some c) family)).1.t (TNode.p_child parent)
        (cs.map TNode.p_sib))) ∧
    (outChild 2 family).2 = some 2 ∧
    Ring (outChild 2 family).1.t (TNode.p_child 0) ([3, 1].map TNode.p_sib) ∧
    (outChild 7 family).2 = none :=
  ⟨by decide, outChild_spec family 2, by decide, by decide, by decide⟩

/-- C11, the code at the failing input.  PCB 0 has no children;
`insertChild(pcb 0, pcb 1)` followed by `removeChild(pcb 0)` returns PCB 1 and
clears its parent reference, but `list_del(&p->p_child.next)` has unlinked the
list head and not the child: `emptyChild(pcb 0)` is false afterwards and a
further `removeChild(pcb 0)` returns PCB 1 again.  With the children 3, 2, 1
before, `insertChild(pcb 0, pcb 4)` and `removeChild(pcb 0)` do not leave the
child list 3, 2, 1: the head still points to PCB 4. -/
theorem removeChild_unlinks_head :
    emptyChild 0 (freshState prio5351) = true ∧
    removeChild 0 (insertChild (some 0) (some 1) (freshState prio5351)) =
      some (onlyChildRemoved, some 1) ∧
    onlyChildRemoved.p_parent 1 = none ∧
    emptyChild 0 onlyChildRemoved = false ∧
    (removeChild 0 onlyChildRemoved).map Prod.snd = some (some 1) ∧
    Ring family.t (TNode.p_child 0) ([3, 2, 1].map TNode.p_sib) ∧
    removeChild 0 (insertChild (some 0) (some 4) family) = some (fourthChildRemoved, some 4) ∧
    ¬ Ring fourthChildRemoved.t (TNode.p_child 0) ([3, 2, 1].map TNode.p_sib) ∧
    fourthChildRemoved.t.next (TNode.p_child 0) = TNode.p_sib 4 ∧
    (removeChild 0 fourthChildRemoved).map Prod.snd = some (some 4) :=
  ⟨by decide, rfl, by decide, by decide, by decide, by decide, rfl, by decide, by decide,
    by decide⟩

/-! ## pcb.c: the PCB pool -/

/-- C14: a PCB returned by a successful `allocPcb()` has, whatever the state
before the call held in its slot: no parent, an empty child list, sibling and
queue links that point to themselves, priority 0, CPU time 0, no blocking
key, no support pointer; its identifier is the value of the counter
`next_pid` before the call, the only field that depends on the call. -/
theorem allocPcb_neutral (st st1 : State) (p : Nat) (h : allocPcb st = some (st1, some p)) :
    st1.p_parent p = none ∧ emptyChild p st1 = true ∧
    st1.t.next (TNode.p_child p) = TNode.p_child p ∧
    st1.t.prev (TNode.p_child p) = TNode.p_child p ∧
    st1.t.next (TNode.p_sib p) = TNode.p_sib p ∧
    st1.t.prev (TNode.p_sib p) = TNode.p_sib p ∧
    st1.q.next (QNode.p_list p) = QNode.p_list p ∧
    st1.q.prev (QNode.p_list p) = QNode.p_list p ∧
    st1.p_prio p = 0 ∧ st1.p_time p = 0 ∧ st1.p_semAdd p = NULL ∧
    st1.p_supportStruct p = NULL ∧ st1.p_pid p = st.next_pid := by
  unfold allocPcb at h
  cases he : list_empty st.q QNode.pcbFree_h with
  | true => simp [he] at h
  | false =>
    simp only [he, Bool.false_eq_true, if_false] at h
    cases hc : container_of_p_list (st.q.next QNode.pcbFree_h) with
    | none => simp [hc] at h
    | some p' =>
      simp only [hc, Option.some.injEq, Prod.mk.injEq] at h
      obtain ⟨rfl, hp⟩ := h
      cases hp
      simp [emptyChild, list_empty, INIT_LIST_HEAD, upd]

theorem allocPcb_neutral_witness :
    (allocPcb dirtyPool = some (dirtyAlloc, some 0) ∧
      dirtyPool.p_prio 0 = 5 ∧ dirtyPool.p_semAdd 0 = 77 ∧ emptyChild 0 dirtyPool = false) ∧
    (dirtyAlloc.p_parent 0 = none ∧ emptyChild 0 dirtyAlloc = true ∧
    dirtyAlloc.t.next (TNode.p_child 0) = TNode.p_child 0 ∧
    dirtyAlloc.t.prev (TNode.p_child 0) = TNode.p_child 0 ∧
    dirtyAlloc.t.next (TNode.p_sib 0) = TNode.p_sib 0 ∧
    dirtyAlloc.t.prev (TNode.p_sib 0) = TNode.p_sib 0 ∧
    dirtyAlloc.q.next (QNode.p_list 0) = QNode.p_list 0 ∧
    dirtyAlloc.q.prev (QNode.p_list 0) = QNode.p_list 0 ∧
    dirtyAlloc.p_prio 0 = 0 ∧ dirtyAlloc.p_time 0 = 0 ∧ dirtyAlloc.p_semAdd 0 = NULL ∧
    dirtyAlloc.p_supportStruct 0 = NULL ∧ dirtyAlloc.p_pid 0 = dirtyPool.next_pid) :=
  ⟨⟨rfl, by decide, by decide, by decide⟩, allocPcb_neutral dirtyPool dirtyAlloc 0 rfl⟩

/-! ## asl.c: the early exit of `getSemd` -/

theorem exhaustiveScan_loop_spec (st : State) (key : Nat) :
    ∀ (js : List Nat) (a : SNode) (fuel : Nat),
    List.Chain' (Linked st.s) (a :: js.map SNode.s_link ++ [SNode.semd_h]) →
    js.length < fuel →
    exhaustiveScan_loop st key fuel (st.s.next a) =
      some (js.find? (fun j => decide (st.s_key j = key)))
  | [], a, fuel, hc, hf => by
    obtain ⟨f, rfl⟩ : ∃ f, fuel = f + 1 := ⟨fuel - 1, by omega⟩
    simp [Linked] at hc
    simp [exhaustiveScan_loop, hc.1]
  | j :: js, a, fuel, hc, hf => by
    obtain ⟨f, rfl⟩ : ∃ f, fuel = f + 1 := ⟨fuel - 1, by omega⟩
    simp only [List.map_cons, List.cons_append, List.chain'_cons] at hc
    have ih := exhaustiveScan_loop_spec st key js (SNode.s_link j) f
      (by simpa using hc.2) (by simp at hf; omega)
    rw [hc.1.1]
    unfold exhaustiveScan_loop
    simp only [reduceCtorEq, if_false, container_of_s_link, List.find?_cons]
    by_cases h1 : st.s_key j = key
    · simp [h1]
    · simp only [h1, if_false, decide_False]
      exact ih

theorem scanKeys_eq_find {s_key : Nat → Nat} {key : Nat} : ∀ {js : List Nat},
    (js.map s_key).Pairwise (fun a b => a < b) →
    scanKeys s_key key js = js.find? (fun j => decide (s_key j = key))
  | [], _ => rfl
  | j :: js, hs => by
    simp only [List.map_cons, List.pairwise_cons, List.mem_map, forall_exists_index,
      and_imp, forall_apply_eq_imp_iff₂] at hs
    unfold scanKeys
    simp only [List.find?_cons]
    by_cases h1 : s_key j = key
    · simp [h1]
    · simp only [h1, if_false, decide_False]
      by_cases h2 : s_key j > key
      · simp only [h2, if_true]
        symm
        rw [List.find?_eq_none]
        intro x hx
        have := hs.1 x hx
        simp only [decide_eq_true_eq]
        omega
      · simp only [h2, if_false]
        exact scanKeys_eq_find hs.2

/-- C18: on an ASL whose ring is well formed and whose keys are strictly
ascending, `getSemd(key)` returns, and it returns what the exhaustive scan
(the same loop without the early exit) returns: the descriptor with this key
if one is on the ASL, `NULL` otherwise. -/
theorem getSemd_refines_scan (st : State) (asl : List Nat) (key fuel : Nat)
    (hr : Ring st.s SNode.semd_h (asl.map SNode.s_link))
    (hs : (asl.map st.s_key).Pairwise (fun a b => a < b)) (hf : asl.length < fuel) :
    getSemd fuel key st = exhaustiveScan fuel key st ∧
    getSemd fuel key st = some (asl.find? (fun j => decide (st.s_key j = key))) ∧
    (∀ j ∈ asl, st.s_key j = key → getSemd fuel key st = some (some j)) ∧
    (key ∉ asl.map st.s_key → getSemd fuel key st = some none) := by
  have h1 := getSemd_spec key fuel hr hf
  have h2 : exhaustiveScan fuel key st = some (asl.find? (fun j => decide (st.s_key j = key))) :=
    exhaustiveScan_loop_spec st key asl SNode.semd_h fuel hr.1 hf
  rw [scanKeys_eq_find hs] at h1
  refine ⟨by rw [h1, h2], h1, ?_, ?_⟩
  · intro j hj hk
    subst hk
    rw [getSemd_spec _ fuel hr hf, scanKeys_of_mem hs hj]
  · intro hk
    exact getSemd_absent hr hk hf

theorem getSemd_refines_scan_witness :
    (Ring blocked30_10_20.s SNode.semd_h ([1, 0, 2].map SNode.s_link) ∧
      ([1, 0, 2].map blocked30_10_20.s_key).Pairwise (fun a b => a < b)) ∧
    (getSemd 4 20 blocked30_10_20 = exhaustiveScan 4 20 blocked30_10_20 ∧
    getSemd 4 20 blocked30_10_20 =
      some ([1, 0, 2].find? (fun j => decide (blocked30_10_20.s_key j = 20))) ∧
    (∀ j ∈ [1, 0, 2], blocked30_10_20.s_key j = 20 →
      getSemd 4 20 blocked30_10_20 = some (some j)) ∧
    (20 ∉ [1, 0, 2].map blocked30_10_20.s_key → getSemd 4 20 blocked30_10_20 = some none)) ∧
    getSemd 4 20 blocked30_10_20 = some (some 0) ∧
    getSemd 4 15 blocked30_10_20 = some none ∧
    exhaustiveScan 4 15 blocked30_10_20 = some none :=
  ⟨by decide, getSemd_refines_scan blocked30_10_20 [1, 0, 2] 20 4 (by decide) (by decide)
    (by decide), by decide, by decide, by decide⟩

theorem initPcbs_fold (q : Links QNode) : ∀ (n : Nat),
    Ring ((List.range n).foldl (fun q i => list_add_tail q (QNode.p_list i) QNode.pcbFree_h)
        (INIT_LIST_HEAD q QNode.pcbFree_h))
      QNode.pcbFree_h ((List.range n).map QNode.p_list)
  | 0 => ring_init _ _
  | n + 1 => by
    have h := initPcbs_fold q n
    rw [List.range_succ, List.foldl_append]
    simp only [List.foldl_cons, List.foldl_nil, List.map_append, List.map_cons, List.map_nil]
    refine ring_add_tail h ?_
    simp only [List.mem_cons, reduceCtorEq, List.mem_map, List.mem_range, false_or,
      not_exists, not_and]
    intro x hx e
    cases p_list_injective e
    omega

theorem initPcbs_ring (MAXPROC : Nat) (st : State) :
    Ring (initPcbs MAXPROC st).q QNode.pcbFree_h ((List.range MAXPROC).map QNode.p_list) := by
  simpa [initPcbs] using initPcbs_fold st.q MAXPROC

theorem p_list_not_mem_free {p : Nat} {w : List Nat} (hp : p ∉ w) :
    QNode.p_list p ∉ QNode.pcbFree_h :: w.map QNode.p_list := by
  simp only [List.mem_cons, reduceCtorEq, List.mem_map, false_or, not_exists, not_and]
  intro x hx e
  cases p_list_injective e
  exact hp hx

/-- `allocPcb()` on a pool whose free list is well formed. -/
theorem allocPcb_ring {st : State} {free : List Nat}
    (hr : Ring st.q QNode.pcbFree_h (free.map QNode.p_list)) :
    (free = [] → allocPcb st = some (st, none)) ∧
    (∀ f free1, free = f :: free1 →
      ∃ st1, allocPcb st = some (st1, some f) ∧
        Ring st1.q QNode.pcbFree_h (free1.map QNode.p_list) ∧
        st1.p_pid f = st.next_pid ∧ st1.next_pid = wrap32 (st.next_pid + 1)) := by
  constructor
  · intro h
    subst h
    have := (ring_list_empty hr).2 rfl
    simp [allocPcb, this]
  · intro f free1 h
    subst h
    have he : list_empty st.q QNode.pcbFree_h = false := by
      cases he : list_empty st.q QNode.pcbFree_h with
      | false => rfl
      | true => simpa using (ring_list_empty hr).1 he
    have hn := ring_next_head hr
    simp only [List.map_cons, List.cons_append, List.head?_cons, Option.some.injEq] at hn
    have hr0 : Ring st.q QNode.pcbFree_h ([] ++ QNode.p_list f :: free1.map QNode.p_list) := by
      simpa using hr
    have hdel : Ring (list_del st.q (QNode.p_list f)) QNode.pcbFree_h
        (free1.map QNode.p_list) := by simpa using ring_delete hr0
    have hf : f ∉ free1 := by
      have := (List.nodup_cons.1 hr.2).2
      simp only [List.map_cons, List.nodup_cons] at this
      intro hm
      exact this.1 (List.mem_map.2 ⟨f, hm, rfl⟩)
    refine ⟨_, by simp only [allocPcb, he, ← hn, container_of_p_list]; rfl, ?_, ?_, rfl⟩
    · exact ring_frame_init hdel (p_list_not_mem_free hf)
    · simp [upd]

theorem allocMany_spec : ∀ (free : List Nat) (st : State),
    Ring st.q QNode.pcbFree_h (free.map QNode.p_list) →
    ∃ st2, allocMany (free.length + 1) st = some (free.map some ++ [none], st2)
  | [], st, hr => by
    have := (allocPcb_ring hr).1 rfl
    exact ⟨st, by simp [allocMany, this]⟩
  | f :: free1, st, hr => by
    obtain ⟨st1, h1, h2, -⟩ := (allocPcb_ring hr).2 f free1 rfl
    obtain ⟨st2, h3⟩ := allocMany_spec free1 st1 h2
    refine ⟨st2, ?_⟩
    simp only [List.length_cons] at h3 ⊢
    rw [allocMany]
    simp [h1, h3]

theorem poolRun_inv {MAXPROC : Nat} {st : State} {out : List Nat}
    (h : PoolRun MAXPROC st out) :
    ∃ free, Ring st.q QNode.pcbFree_h (free.map QNode.p_list) ∧
      (free ++ out).Perm (List.range MAXPROC) := by
  induction h with
  | init st => exact ⟨_, initPcbs_ring MAXPROC st, by simp⟩
  | alloc p _ hop ih =>
    obtain ⟨free, hr, hp⟩ := ih
    cases free with
    | nil =>
      rw [(allocPcb_ring hr).1 rfl] at hop
      simp at hop
    | cons f free1 =>
      obtain ⟨st1', h1, h2, -⟩ := (allocPcb_ring hr).2 f free1 rfl
      rw [h1] at hop
      simp only [Option.some.injEq, Prod.mk.injEq] at hop
      obtain ⟨rfl, rfl⟩ := hop
      refine ⟨free1, h2, ?_⟩
      refine List.Perm.trans ?_ hp
      simp
  | allocFail _ hop ih =>
    obtain ⟨free, hr, hp⟩ := ih
    cases free with
    | nil =>
      rw [(allocPcb_ring hr).1 rfl] at hop
      simp only [Option.some.injEq, Prod.mk.injEq, and_true] at hop
      subst hop
      exact ⟨[], hr, hp⟩
    | cons f free1 =>
      obtain ⟨st1', h1, -⟩ := (allocPcb_ring hr).2 f free1 rfl
      rw [h1] at hop
      simp at hop
  | free p _ hm ih =>
    obtain ⟨free, hr, hp⟩ := ih
    have hnd : (free ++ _).Nodup := hp.nodup_iff.2 (List.nodup_range MAXPROC)
    have hpf : p ∉ free := fun hf => (List.nodup_append.1 hnd).2.2 hf hm
    refine ⟨free ++ [p], ?_, ?_⟩
    · simpa [freePcb] using ring_add_tail hr (p_list_not_mem_free hpf)
    · refine List.Perm.trans ?_ hp
      have h1 := (List.perm_cons_erase hm).symm
      simpa using (List.Perm.append_left free h1)

/-- C13: after `initPcbs()`, `MAXPROC + 1` calls of `allocPcb()` return, the
first `MAXPROC` of them the PCBs of the table (each once, so pairwise
distinct) and the last one `NULL`.  More generally, after any run of
`allocPcb()` and of `freePcb` on currently allocated PCBs, the outstanding
PCBs are pairwise distinct PCBs of the table, and `allocPcb()` returns, with
`NULL` if and only if exactly `MAXPROC` PCBs are outstanding. -/
theorem pool_capacity (MAXPROC : Nat) (st : State) :
    (∃ st2, allocMany (MAXPROC + 1) (initPcbs MAXPROC st) =
        some ((List.range MAXPROC).map some ++ [none], st2)) ∧
    ((List.range MAXPROC).map some).Nodup ∧
    (∀ st1 out, PoolRun MAXPROC st1 out →
      out.Nodup ∧ (∀ p ∈ out, p < MAXPROC) ∧
      ∃ st2 r, allocPcb st1 = some (st2, r) ∧ (r = none ↔ out.length = MAXPROC)) := by
  refine ⟨?_, ?_, ?_⟩
  · have := allocMany_spec (List.range MAXPROC) _ (initPcbs_ring MAXPROC st)
    simpa using this
  · exact (List.nodup_range MAXPROC).map (fun a b h => Option.some.inj h)
  · intro st1 out hrun
    obtain ⟨free, hr, hp⟩ := poolRun_inv hrun
    have hnd : (free ++ out).Nodup := hp.nodup_iff.2 (List.nodup_range MAXPROC)
    have hlen : free.length + out.length = MAXPROC := by
      have := hp.length_eq
      simpa using this
    refine ⟨(List.nodup_append.1 hnd).2.1, ?_, ?_⟩
    · intro p hpm
      have : p ∈ List.range MAXPROC := hp.subset (by simp [hpm])
      simpa using this
    · cases free with
      | nil =>
        refine ⟨st1, none, (allocPcb_ring hr).1 rfl, ?_⟩
        simp at hlen
        simp [hlen]
      | cons f free1 =>
        obtain ⟨st2, h1, -⟩ := (allocPcb_ring hr).2 f free1 rfl
        refine ⟨st2, some f, h1, ?_⟩
        simp only [List.length_cons] at hlen
        simp only [reduceCtorEq, false_iff]
        omega

theorem pool_capacity_witness :
    ((∃ st2, allocMany (2 + 1) (initPcbs 2 (freshState prio5351)) =
        some ((List.range 2).map some ++ [none], st2)) ∧
    ((List.range 2).map some).Nodup ∧
    (∀ st1 out, PoolRun 2 st1 out →
      out.Nodup ∧ (∀ p ∈ out, p < 2) ∧
      ∃ st2 r, allocPcb st1 = some (st2, r) ∧ (r = none ↔ out.length = 2))) ∧
    (allocMany 3 (initPcbs 2 (freshState prio5351))).map Prod.fst =
      some [some 0, some 1, none] :=
  ⟨pool_capacity 2 (freshState prio5351), by decide⟩

/-! ## pcb.c: process identifiers -/

theorem wrap32_succ (x : Int) : wrap32 (wrap32 x + 1) = wrap32 (x + 1) := by
  unfold wrap32; omega

theorem wrap32_small (x : Int) (h0 : -2147483648 ≤ x) (h1 : x ≤ 2147483647) : wrap32 x = x := by
  unfold wrap32; omega

/-- What `allocPcb()` does to the counter, whatever the rest of the state. -/
theorem allocPcb_pid {st st1 : State} {p : Nat} (h : allocPcb st = some (st1, some p)) :
    st1.p_pid p = st.next_pid ∧ st1.next_pid = wrap32 (st.next_pid + 1) := by
  unfold allocPcb at h
  cases he : list_empty st.q QNode.pcbFree_h with
  | true => simp [he] at h
  | false =>
    simp only [he, Bool.false_eq_true, if_false] at h
    cases hc : container_of_p_list (st.q.next QNode.pcbFree_h) with
    | none => simp [hc] at h
    | some p' =>
      simp only [hc, Option.some.injEq, Prod.mk.injEq] at h
      obtain ⟨rfl, hp⟩ := h
      cases hp
      simp [upd]

theorem allocPcb_fail {st st1 : State} (h : allocPcb st = some (st1, none)) : st1 = st := by
  unfold allocPcb at h
  cases he : list_empty st.q QNode.pcbFree_h with
  | true =>
    simp only [he, if_true, Option.some.injEq, Prod.mk.injEq, and_true] at h
    exact h.symm
  | false =>
    simp only [he, Bool.false_eq_true, if_false] at h
    cases hc : container_of_p_list (st.q.next QNode.pcbFree_h) with
    | none => simp [hc] at h
    | some p' => simp [hc] at h

/-- The counter and the identifiers of a run: the `n`-th successful
allocation got the value of a 32-bit counter that started at 1. -/
theorem pidRun_inv {st : State} {log : List Int} (h : PidRun st log) :
    st.next_pid = wrap32 (1 + log.length) ∧
    ∀ a rest, log = a :: rest → a = wrap32 (1 + rest.length) := by
  induction h with
  | start st h1 =>
    refine ⟨by rw [h1]; rfl, ?_⟩
    intro a rest e
    cases e
  | initPcbs M _ ih => exact ih
  | alloc p _ hop ih =>
    obtain ⟨h1, h2⟩ := allocPcb_pid hop
    refine ⟨?_, ?_⟩
    · rw [h2, ih.1, wrap32_succ]
      congr 1
    · intro a rest e
      cases e
      rw [h1, ih.1]
  | allocFail _ hop ih =>
    rw [allocPcb_fail hop]
    exact ih
  | freePcb p _ ih => exact ih

theorem pidRun_tail {st : State} {log : List Int} (h : PidRun st log) :
    ∀ a rest, log = a :: rest → ∃ st0, PidRun st0 rest := by
  induction h with
  | start st h1 => intro a rest e; cases e
  | initPcbs M _ ih => exact ih
  | alloc p hrun hop _ =>
    intro a rest e
    cases e
    exact ⟨_, hrun⟩
  | allocFail _ _ ih => exact ih
  | freePcb p _ ih => exact ih

/-- Every identifier of a run is the position of its allocation, as a 32-bit
value. -/
theorem pidRun_log : ∀ (log : List Int) (st : State), PidRun st log →
    log = ((List.range log.length).map (fun i : Nat => wrap32 (1 + (i : Int)))).reverse
  | [], _, _ => rfl
  | a :: rest, st, h => by
    obtain ⟨st0, h0⟩ := pidRun_tail h a rest rfl
    have ih := pidRun_log rest st0 h0
    have ha := (pidRun_inv h).2 a rest rfl
    simp only [List.length_cons, List.range_succ, List.map_append, List.map_cons, List.map_nil,
      List.reverse_append, List.reverse_cons, List.reverse_nil, List.nil_append,
      List.singleton_append]
    rw [← ih, ha]

/-- A run that allocates and frees the only PCB of a pool `k` times. -/
theorem pid_cycles : ∀ (k : Nat), ∃ st log, PidRun st log ∧ log.length = k ∧
    Ring st.q QNode.pcbFree_h ([0].map QNode.p_list)
  | 0 =>
    ⟨initPcbs 1 (freshState prio5351), [],
      PidRun.initPcbs 1 (PidRun.start (freshState prio5351) rfl), rfl,
      by simpa using initPcbs_ring 1 (freshState prio5351)⟩
  | k + 1 => by
    obtain ⟨st, log, hrun, hlen, hr⟩ := pid_cycles k
    obtain ⟨st1, h1, h2, -⟩ := (allocPcb_ring hr).2 0 [] rfl
    refine ⟨freePcb 0 st1, st1.p_pid 0 :: log, PidRun.freePcb 0 (PidRun.alloc 0 hrun h1),
      by simp [hlen], ?_⟩
    simpa [freePcb] using ring_add_tail h2 (by simp)

/-- C15, the claim as stated fails: `next_pid` is an `int`.  In the run that
allocates and frees one PCB over and over, the 2147483648-th successful
`allocPcb()` gets the identifier -2147483648, which is smaller than the
identifier 1 of the first one. -/
theorem pid_wraps :
    ∃ st log later earlier, PidRun st log ∧ log.length = 2147483648 ∧
      log.head? = some later ∧ earlier ∈ log.tail ∧
      later = -2147483648 ∧ earlier = 1 ∧ later < earlier := by
  obtain ⟨st, log, hrun, hlen, -⟩ := pid_cycles 2147483648
  have hlog := pidRun_log log st hrun
  cases log with
  | nil => simp at hlen
  | cons a rest =>
    have hrest : rest.length = 2147483647 := by
      simp only [List.length_cons] at hlen; omega
    have ha : a = -2147483648 := by
      rw [(pidRun_inv hrun).2 a rest rfl, hrest]
      unfold wrap32; omega
    have h1 : (1 : Int) ∈ a :: rest := by
      rw [hlog, List.mem_reverse, List.mem_map]
      refine ⟨0, by rw [List.mem_range, hlen]; omega, ?_⟩
      unfold wrap32; omega
    have h1' : (1 : Int) ∈ rest := by
      rcases List.mem_cons.1 h1 with e | e
      · rw [ha] at e; omega
      · exact e
    exact ⟨st, a :: rest, a, 1, hrun, hlen, rfl, h1', ha, rfl, by rw [ha]; omega⟩

/-- C15, amended: in every run of `initPcbs`, `allocPcb` and `freePcb` (any
interleaving, any argument of `freePcb`) that starts with `next_pid = 1` and
has at most 2147483647 successful allocations, the identifier that a
successful `allocPcb()` gives is strictly greater than the identifier given
by every earlier successful `allocPcb()`, also when both return the same pool
slot: the `n`-th one is `n`.  So no identifier is used twice. -/
theorem pid_monotone (st : State) (log : List Int) (h : PidRun st log)
    (hb : log.length ≤ 2147483647) :
    log.Pairwise (fun later earlier => earlier < later) ∧
    log = ((List.range log.length).map (fun i : Nat => 1 + (i : Int))).reverse ∧
    log.Nodup := by
  have hlog := pidRun_log log st h
  have hmap : (List.range log.length).map (fun i : Nat => wrap32 (1 + (i : Int))) =
      (List.range log.length).map (fun i : Nat => 1 + (i : Int)) := by
    apply List.map_congr_left
    intro i hi
    have : i < log.length := List.mem_range.1 hi
    exact wrap32_small _ (by omega) (by omega)
  rw [hmap] at hlog
  have hpw : log.Pairwise (fun later earlier => earlier < later) := by
    rw [hlog, List.pairwise_reverse, List.pairwise_map]
    exact (List.pairwise_lt_range log.length).imp (fun hab => by omega)
  refine ⟨hpw, hlog, ?_⟩
  exact hpw.imp (fun hab => by omega)

theorem pid_monotone_witness :
    (PidRun pool2c [3, 2, 1] ∧ ([3, 2, 1] : List Int).length ≤ 2147483647) ∧
    (([3, 2, 1] : List Int).Pairwise (fun later earlier => earlier < later) ∧
    ([3, 2, 1] : List Int) =
      ((List.range ([3, 2, 1] : List Int).length).map (fun i : Nat => 1 + (i : Int))).reverse ∧
    ([3, 2, 1] : List Int).Nodup) ∧
    allocPcb pool2b = some (pool2c, some 0) ∧ pool2a.p_pid 0 = 1 ∧ pool2c.p_pid 0 = 3 :=
  have h0 : PidRun (initPcbs 2 (freshState prio5351)) [] :=
    PidRun.initPcbs 2 (PidRun.start (freshState prio5351) rfl)
  have h1 : PidRun pool2a [1] := PidRun.alloc 0 h0 rfl
  have h2 : PidRun pool2b [2, 1] := PidRun.alloc 1 (PidRun.freePcb 0 h1) rfl
  have h3 : PidRun pool2c [3, 2, 1] := PidRun.alloc 0 h2 rfl
  ⟨⟨h3, by decide⟩, pid_monotone pool2c [3, 2, 1] h3 (by decide), rfl, by decide, by decide⟩

/-! ## asl.c: no descriptor is lost -/

theorem reclaim_count {MAXPROC : Nat} {st : State} {asl free : List Nat} {j : Nat}
    (h : AslInv st.s st.s_key asl free) (hp : (asl ++ free).Perm (List.range MAXPROC))
    (hj : j ∈ asl) :
    ∃ asl1 free1, AslInv (reclaim j st).s (reclaim j st).s_key asl1 free1 ∧
      (asl1 ++ free1).Perm (List.range MAXPROC) := by
  cases he : list_empty st.q (QNode.s_procq j) with
  | true =>
    refine ⟨_, _, (reclaim_asl h hj).1 he, ?_⟩
    have hp1 : (asl.erase j ++ j :: free).Perm (j :: (asl.erase j ++ free)) := List.perm_middle
    have hp2 : (j :: (asl.erase j ++ free)).Perm (asl ++ free) := by
      have := (List.perm_cons_erase hj).symm.append_right free
      simpa using this
    exact (hp1.trans hp2).trans hp
  | false =>
    rw [(reclaim_asl h hj).2 he]
    exact ⟨_, _, h, hp⟩

theorem insertBlocked_count {MAXPROC : Nat} {st st1 : State} {asl free : List Nat}
    {fuel k p : Nat} {r : Bool}
    (h : AslInv st.s st.s_key asl free) (hp : (asl ++ free).Perm (List.range MAXPROC))
    (hop : insertBlocked fuel k p st = some (st1, r)) :
    ∃ asl1 free1, AslInv st1.s st1.s_key asl1 free1 ∧
      (asl1 ++ free1).Perm (List.range MAXPROC) := by
  have hf : asl.length < max fuel (asl.length + 1) :=
    lt_of_lt_of_le (Nat.lt_succ_self _) (le_max_right _ _)
  have hop' := insertBlocked_mono (le_max_left fuel (asl.length + 1)) hop
  obtain ⟨hA, hB, hC⟩ := insertBlocked_cases k p _ h hf
  by_cases hk : k ∈ asl.map st.s_key
  · obtain ⟨j, hj, hkj⟩ := List.mem_map.1 hk
    rw [hA j hj hkj] at hop'
    have e : (insertBlocked_enqueue k p j st).1 = st1 := by
      have := Option.some.inj hop'
      rw [this]
    rw [← e]
    exact ⟨asl, free, h, hp⟩
  · cases hfree : free with
    | nil =>
      rw [hB hk hfree] at hop'
      have e : st = st1 := congrArg Prod.fst (Option.some.inj hop')
      subst e
      exact ⟨asl, [], by rw [← hfree]; exact h, by rw [← hfree]; exact hp⟩
    | cons f free1 =>
      obtain ⟨s2, hinv, e1⟩ := hC hk f free1 hfree
      rw [e1] at hop'
      have e : (insertBlocked_enqueue k p f
          { st with s := s2, s_key := upd st.s_key f k,
                    q := INIT_LIST_HEAD st.q (QNode.s_procq f) }).1 = st1 := by
        have := Option.some.inj hop'
        rw [this]
      rw [← e]
      refine ⟨_, free1, hinv, ?_⟩
      have hp1 : (specInsertKey st.s_key k f asl ++ free1).Perm (asl ++ f :: free1) :=
        ((specInsertKey_perm st.s_key k f asl).append_right free1).trans
          (by simpa using (List.perm_middle).symm)
      rw [hfree] at hp
      exact hp1.trans hp

theorem removeBlocked_count {MAXPROC : Nat} {st st1 : State} {asl free : List Nat}
    {fuel k : Nat} {r : Option Nat}
    (h : AslInv st.s st.s_key asl free) (hp : (asl ++ free).Perm (List.range MAXPROC))
    (hop : removeBlocked fuel k st = some (st1, r)) :
    ∃ asl1 free1, AslInv st1.s st1.s_key asl1 free1 ∧
      (asl1 ++ free1).Perm (List.range MAXPROC) := by
  unfold removeBlocked at hop
  cases hg : getSemd fuel k st with
  | none => simp [hg] at hop
  | some g =>
    have hgs := getSemd_eq_scan h.1 hg
    cases g with
    | none =>
      simp only [hg, Option.some.injEq, Prod.mk.injEq] at hop
      obtain ⟨rfl, -⟩ := hop
      exact ⟨asl, free, h, hp⟩
    | some j =>
      have hj := (scanKeys_some hgs.symm).1
      simp only [hg] at hop
      cases he : list_empty st.q (QNode.s_procq j) with
      | true =>
        simp only [he, if_true, Option.some.injEq, Prod.mk.injEq] at hop
        obtain ⟨rfl, -⟩ := hop
        exact ⟨asl, free, h, hp⟩
      | false =>
        simp only [he, Bool.false_eq_true, if_false] at hop
        cases hc : container_of_p_list (st.q.next (QNode.s_procq j)) with
        | none => simp [hc] at hop
        | some p =>
          simp only [hc, Option.some.injEq, Prod.mk.injEq] at hop
          obtain ⟨rfl, -⟩ := hop
          exact @reclaim_count MAXPROC { st with
            q := list_del st.q (st.q.next (QNode.s_procq j)),
            p_semAdd := upd st.p_semAdd p NULL } asl free j h hp hj

theorem outBlocked_count {MAXPROC : Nat} {st st1 : State} {asl free : List Nat}
    {fuel p : Nat} {r : Option Nat}
    (h : AslInv st.s st.s_key asl free) (hp : (asl ++ free).Perm (List.range MAXPROC))
    (hop : outBlocked fuel p st = some (st1, r)) :
    ∃ asl1 free1, AslInv st1.s st1.s_key asl1 free1 ∧
      (asl1 ++ free1).Perm (List.range MAXPROC) := by
  unfold outBlocked at hop
  by_cases h0 : st.p_semAdd p = NULL
  · simp only [h0, if_true, Option.some.injEq, Prod.mk.injEq] at hop
    obtain ⟨rfl, -⟩ := hop
    exact ⟨asl, free, h, hp⟩
  · simp only [h0, if_false] at hop
    cases hg : getSemd fuel (st.p_semAdd p) st with
    | none => simp [hg] at hop
    | some g =>
      have hgs := getSemd_eq_scan h.1 hg
      cases g with
      | none =>
        simp only [hg, Option.some.injEq, Prod.mk.injEq] at hop
        obtain ⟨rfl, -⟩ := hop
        exact ⟨asl, free, h, hp⟩
      | some j =>
        have hj := (scanKeys_some hgs.symm).1
        simp only [hg, Option.some.injEq, Prod.mk.injEq] at hop
        obtain ⟨rfl, -⟩ := hop
        exact @reclaim_count MAXPROC { st with
          q := list_del st.q (QNode.p_list p),
          p_semAdd := upd st.p_semAdd p NULL } asl free j h hp hj

theorem reachable_count {MAXPROC : Nat} {st : State} (h : Reachable MAXPROC st) :
    ∃ asl free, AslInv st.s st.s_key asl free ∧ (asl ++ free).Perm (List.range MAXPROC) := by
  induction h with
  | init st => exact ⟨_, _, initASL_inv MAXPROC st, by simp⟩
  | insertBlocked fuel semAdd p r _ hop ih =>
    obtain ⟨asl, free, hi, hp⟩ := ih
    exact insertBlocked_count hi hp hop
  | removeBlocked fuel semAdd r _ hop ih =>
    obtain ⟨asl, free, hi, hp⟩ := ih
    exact removeBlocked_count hi hp hop
  | outBlocked fuel p r _ hop ih =>
    obtain ⟨asl, free, hi, hp⟩ := ih
    exact outBlocked_count hi hp hop
  | headBlocked fuel semAdd r _ _ ih => exact ih

/-- C19: in every state reachable from `initASL` by calls of `insertBlocked`,
`removeBlocked`, `outBlocked` and `headBlocked`, with any arguments (so in
particular when `outBlocked` is only called on PCBs that are in the waiter
queue their blocking key names, or have no blocking key), the ASL and the
free list are well-formed rings, no descriptor is on both, together they hold
each of the `MAXPROC` descriptors exactly once, the keys on the ASL are
pairwise distinct, and (free descriptors) + (active keys) = `MAXPROC`; hence
`insertBlocked` for a key that is not on the ASL returns, with `TRUE`
(failure) if and only if `MAXPROC` keys are active. -/
theorem descriptors_conserved (MAXPROC : Nat) (st : State) (h : Reachable MAXPROC st) :
    ∃ asl free, AslInv st.s st.s_key asl free ∧
      (∀ j ∈ asl, j ∉ free) ∧ (asl ++ free).Nodup ∧
      (∀ j, j < MAXPROC ↔ (j ∈ asl ∨ j ∈ free)) ∧
      (asl.map st.s_key).Nodup ∧
      free.length + (asl.map st.s_key).length = MAXPROC ∧
      ∀ key p fuel, asl.length < fuel → key ∉ asl.map st.s_key →
        ∃ st1 r, insertBlocked fuel key p st = some (st1, r) ∧
          (r = TRUE ↔ (asl.map st.s_key).length = MAXPROC) := by
  obtain ⟨asl, free, hi, hp⟩ := reachable_count h
  have hlen : free.length + asl.length = MAXPROC := by
    have := hp.length_eq
    simp only [List.length_append, List.length_range] at this
    omega
  refine ⟨asl, free, hi, ?_, hi.2.2.1, ?_, ?_, by simpa using hlen, ?_⟩
  · intro j hj hf
    exact (List.nodup_append.1 hi.2.2.1).2.2 hj hf
  · intro j
    rw [← List.mem_range, ← hp.mem_iff, List.mem_append]
  · exact hi.2.2.2.imp (fun hab => Nat.ne_of_lt hab)
  · intro key p fuel hf hk
    obtain ⟨-, hB, hC⟩ := insertBlocked_cases key p fuel hi hf
    cases hfree : free with
    | nil =>
      refine ⟨_, _, hB hk hfree, ?_⟩
      rw [hfree] at hlen
      simp at hlen
      simp [hlen]
    | cons f free1 =>
      obtain ⟨s2, -, hop⟩ := hC hk f free1 hfree
      refine ⟨_, _, hop, ?_⟩
      rw [hfree] at hlen
      simp only [List.length_cons] at hlen
      simp only [insertBlocked_enqueue, TRUE, FALSE, Bool.false_eq_true, List.length_map,
        false_iff]
      omega

theorem descriptors_conserved_witness :
    Reachable 3 blocked30_10_20 ∧
    (∃ asl free, AslInv blocked30_10_20.s blocked30_10_20.s_key asl free ∧
      (∀ j ∈ asl, j ∉ free) ∧ (asl ++ free).Nodup ∧
      (∀ j, j < 3 ↔ (j ∈ asl ∨ j ∈ free)) ∧
      (asl.map blocked30_10_20.s_key).Nodup ∧
      free.length + (asl.map blocked30_10_20.s_key).length = 3 ∧
      ∀ key p fuel, asl.length < fuel → key ∉ asl.map blocked30_10_20.s_key →
        ∃ st1 r, insertBlocked fuel key p blocked30_10_20 = some (st1, r) ∧
          (r = TRUE ↔ (asl.map blocked30_10_20.s_key).length = 3)) ∧
    (insertBlocked 4 40 3 blocked30_10_20).map Prod.snd = some TRUE ∧
    (insertBlocked 4 40 3 blocked30_10).map Prod.snd = some FALSE :=
  have hr : Reachable 3 blocked30_10_20 :=
    Reachable.insertBlocked 4 20 2 false
      (Reachable.insertBlocked 4 10 1 false
        (Reachable.insertBlocked 4 30 0 false (Reachable.init (freshState prio5351)) rfl) rfl) rfl
  ⟨hr, descriptors_conserved 3 blocked30_10_20 hr, by decide, by decide⟩

/-! ## asl.c: blocking and cancelling -/

theorem wf_congr {st : State} {asl free : List Nat} {wq wq1 : Nat → List Nat}
    (h : WF st asl free wq) (he : ∀ j ∈ asl, wq1 j = wq j) : WF st asl free wq1 := by
  refine ⟨h.1, ?_, ?_⟩
  · intro j hj
    rw [he j hj]
    exact h.2.1 j hj
  · intro j hj j' hj' hne x hx
    rw [he j hj] at hx
    rw [he j' hj']
    exact h.2.2 j hj j' hj' hne x hx

theorem specInsertKey_erase (s_key : Nat → Nat) (k f : Nat) (asl : List Nat) (hf : f ∉ asl) :
    (specInsertKey s_key k f asl).erase f = asl := by
  unfold specInsertKey
  have h1 : f ∉ asl.takeWhile (fun j => decide (s_key j ≤ k)) :=
    fun hm => hf (List.takeWhile_subset _ hm)
  rw [List.erase_append_right _ h1, List.erase_cons_head, List.takeWhile_append_dropWhile]

/-- Blocking and cancelling on a well-formed ASL state, for a key `k` (not
`NULL`) and a PCB `p` that is in no waiter queue and has no blocking key: if
`insertBlocked(k, p)` succeeds, then `outBlocked(p)` right after returns `p`,
and the state is again well formed with the same ASL (the same descriptors in
the same order, with the same keys), the same waiter queues, the same free
list in the same order, and the same blocking-key fields (that of `p` is
`NULL` again). -/
theorem block_cancel_wf (st st1 : State) (asl free : List Nat) (wq : Nat → List Nat)
    (k p fuel : Nat) (h : WF st asl free wq) (hf : asl.length < fuel)
    (hp : ∀ i ∈ asl, p ∉ wq i) (h0 : st.p_semAdd p = NULL) (hk : k ≠ NULL)
    (hop : insertBlocked fuel k p st = some (st1, FALSE)) :
    ∃ st2, outBlocked (fuel + 1) p st1 = some (st2, some p) ∧
      WF st2 asl free wq ∧
      (∀ j ∈ asl, st2.s_key j = st.s_key j) ∧
      st2.p_semAdd = st.p_semAdd ∧ st2.p_semAdd p = NULL := by
  have hsem : ∀ s2 : State, s2.p_semAdd = upd (upd st.p_semAdd p k) p NULL →
      s2.p_semAdd = st.p_semAdd := by
    intro s2 e
    rw [e]
    funext x
    by_cases hx : x = p
    · subst hx; simp [upd, h0]
    · simp [upd, hx]
  obtain ⟨hA, hC⟩ := insertBlocked_wf k p fuel h hf hp
  by_cases hkm : k ∈ asl.map st.s_key
  · obtain ⟨j, hj, hkj⟩ := List.mem_map.1 hkm
    obtain ⟨e1, hwf1⟩ := hA j hj hkj
    rw [e1] at hop
    have e : (insertBlocked_enqueue k p j st).1 = st1 := by
      have := Option.some.inj hop
      rw [this]
    rw [e] at hwf1
    have hsa : st1.p_semAdd = upd st.p_semAdd p k := by rw [← e]; rfl
    have hsk : st1.s_key = st.s_key := by rw [← e]; rfl
    have hpm : p ∈ Function.update wq j (wq j ++ [p]) j := by simp
    have hkey : st1.p_semAdd p = st1.s_key j := by simp [hsa, hsk, upd, hkj]
    have hnz : st1.p_semAdd p ≠ NULL := by simpa [hsa, upd] using hk
    obtain ⟨st2, h1, h2, h3, -, h5, -⟩ := outBlocked_wf (fuel + 1) hwf1 (by omega) hj hpm hkey hnz
    have herase : (Function.update wq j (wq j ++ [p]) j).erase p = wq j := by
      simp only [Function.update_same]
      rw [List.erase_append_right _ (hp j hj)]
      simp
    rw [herase] at h5
    obtain ⟨-, hwf2⟩ := h5 (h.2.1 j hj).2
    refine ⟨st2, h1, ?_, ?_, ?_, ?_⟩
    · refine wf_congr hwf2 ?_
      intro i hi
      by_cases ei : i = j
      · subst ei; simp
      · simp [Function.update_noteq ei]
    · intro i _
      rw [h3, hsk]
    · exact hsem st2 (by rw [h2, hsa])
    · simp [h2, upd]
  · cases hfree : free with
    | nil =>
      have := (insertBlocked_cases k p fuel h.1 hf).2.1 hkm hfree
      rw [this] at hop
      simp [TRUE, FALSE] at hop
    | cons f free1 =>
      obtain ⟨st1', e1, hsa, hsk, -, hwf1⟩ := hC hkm f free1 hfree
      rw [e1] at hop
      have e : st1' = st1 := congrArg Prod.fst (Option.some.inj hop)
      subst e
      have hfa : f ∉ asl := by
        intro hm
        have := h.1.2.2.1
        rw [hfree] at this
        exact (List.nodup_append.1 this).2.2 hm (by simp)
      have hfm : f ∈ specInsertKey st.s_key k f asl :=
        (specInsertKey_perm st.s_key k f asl).symm.subset (by simp)
      have hpm : p ∈ Function.update wq f [p] f := by simp
      have hkey : st1'.p_semAdd p = st1'.s_key f := by simp [hsa, hsk, upd]
      have hnz : st1'.p_semAdd p ≠ NULL := by simpa [hsa, upd] using hk
      have hlen : (specInsertKey st.s_key k f asl).length < fuel + 1 := by
        rw [(specInsertKey_perm st.s_key k f asl).length_eq]
        simp only [List.length_cons]; omega
      obtain ⟨st2, h1, h2, h3, -, -, h6⟩ := outBlocked_wf (fuel + 1) hwf1 hlen hfm hpm hkey hnz
      have herase : (Function.update wq f [p] f).erase p = [] := by simp
      have hwf2 := h6 herase
      rw [specInsertKey_erase st.s_key k f asl hfa] at hwf2
      refine ⟨st2, h1, ?_, ?_, ?_, ?_⟩
      · refine wf_congr hwf2 ?_
        intro i hi
        have ei : i ≠ f := fun e' => hfa (e' ▸ hi)
        simp [Function.update_noteq ei]
      · intro i hi
        have ei : i ≠ f := fun e' => hfa (e' ▸ hi)
        rw [h3, hsk]
        simp [upd, ei]
      · exact hsem st2 (by rw [h2, hsa])
      · simp [h2, upd]

/-- A node whose `next` points to itself is in no ring, unless it is the head. -/
theorem self_linked_not_mem {α : Type} [DecidableEq α] {L : Links α} {h y : α} {xs : List α}
    (r : Ring L h xs) (hy : L.next y = y) : y ∉ xs := by
  intro hm
  obtain ⟨pre, post, e⟩ := List.append_of_mem hm
  subst e
  have hn := ring_next_mem r
  rw [hy] at hn
  have hnd := r.2
  cases post with
  | nil =>
    simp only [List.nil_append, List.head?_cons, Option.some.injEq] at hn
    subst hn
    simp at hnd
  | cons b post1 =>
    simp only [List.cons_append, List.head?_cons, Option.some.injEq] at hn
    subst hn
    have h2 := (List.nodup_cons.1 hnd).2
    rw [List.nodup_append] at h2
    simp at h2

/-- A PCB whose `p_list` points to itself is in no waiter queue. -/
theorem self_linked_not_blocked {st : State} {p : Nat}
    (hy : st.q.next (QNode.p_list p) = QNode.p_list p) : ¬ Blocked st p := by
  rintro ⟨asl, j, w, -, -, hq, hpw⟩
  exact self_linked_not_mem hq hy (List.mem_map_of_mem _ hpw)

/-- C20, the claim as stated fails: `twice2` is reached from `initASL()` (two
descriptors) by `insertBlocked(10, pcb 0)` and `insertBlocked(20, pcb 0)`, the
second for a PCB that is still in the waiter queue of key 10.  PCB 1 is in
no queue and has no blocking key.  `insertBlocked(10, pcb 1)` succeeds and
`outBlocked(pcb 1)` right after returns PCB 1, but the waiter queue of key 20
is not restored: before the two calls it is the ring `[pcb 0]` and
`removeBlocked(20)` reclaims its descriptor; after them `pcb 0.next` points to
the queue head of key 10, the ring is broken and `removeBlocked(20)` leaves
the descriptor of key 20 on the ASL.  A second input, right after `initASL()`:
`insertBlocked(NULL, pcb 1)` succeeds, but `NULL` is the value of `p_semAdd`
that means not blocked, so `outBlocked(pcb 1)` returns `NULL`, changes nothing
and PCB 1 stays at the head of the waiter queue of key `NULL`. -/
theorem block_cancel_breaks_queue :
    Reachable 2 twice2 ∧
    ¬ Blocked twice2 1 ∧ twice2.q.prev (QNode.p_list 1) = QNode.p_list 1 ∧
    twice2.p_semAdd 1 = NULL ∧ (10 : Nat) ≠ NULL ∧
    insertBlocked 4 10 1 twice2 = some (twice2_k10, FALSE) ∧
    outBlocked 4 1 twice2_k10 = some (twice2_back, some 1) ∧
    Ring twice2.q (QNode.s_procq 0) [QNode.p_list 0] ∧
    twice2.q.next (QNode.p_list 0) = QNode.s_procq 0 ∧
    twice2_back.q.next (QNode.p_list 0) = QNode.s_procq 1 ∧
    ¬ Ring twice2_back.q (QNode.s_procq 0) [QNode.p_list 0] ∧
    (removeBlocked 4 20 twice2).map (fun r => (r.2, getSemd 4 20 r.1)) =
      some (some 0, some none) ∧
    (removeBlocked 4 20 twice2_back).map (fun r => (r.2, getSemd 4 20 r.1)) =
      some (some 0, some (some 0)) ∧
    ReachableProper 2 (initASL 2 (freshState prio5351)) ∧
    insertBlocked 4 NULL 1 (initASL 2 (freshState prio5351)) = some (blockedNull, FALSE) ∧
    outBlocked 4 1 blockedNull = some (blockedNull, none) ∧
    headBlocked 4 NULL blockedNull = some (some 1) :=
  have hr : Reachable 2 twice2 :=
    Reachable.insertBlocked 4 20 0 false
      (Reachable.insertBlocked 4 10 0 false (Reachable.init (freshState prio5351)) rfl) rfl
  ⟨hr, self_linked_not_blocked (by decide), by decide, by decide, by decide, rfl, rfl,
    by decide, by decide, by decide, by decide, by decide, by decide,
    ReachableProper.init (freshState prio5351) (fun _ => rfl), rfl, rfl, by decide⟩

/-- C20, amended: in every state reachable from `initASL()` (entered with no
PCB recording a blocking key) by calls of `insertBlocked`, `removeBlocked` and
`outBlocked` in which `insertBlocked` is only called on a PCB that is not in
a waiter queue, for a key `k` other than `NULL` and a PCB `p` that is in no
waiter queue and has no blocking key: if `insertBlocked(k, p)` succeeds, then
`outBlocked(p)` right after returns `p` (for every fuel above the bound), and
the state is again well formed with the same ASL (the same descriptors in the
same order, with the same keys), the same waiter queues, the same free list
in the same order, and the same blocking-key fields (that of `p` is `NULL`
again). -/
theorem block_cancel_identity (MAXPROC : Nat) (st st1 : State) (k p fuel : Nat)
    (h : ReachableProper MAXPROC st) (hp : ¬ Blocked st p) (h0 : st.p_semAdd p = NULL)
    (hk : k ≠ NULL) (hop : insertBlocked fuel k p st = some (st1, FALSE)) :
    ∃ (asl free : List Nat) (wq : Nat → List Nat) (st2 : State),
      WF st asl free wq ∧
      (∀ fuel2, max fuel (MAXPROC + 1) < fuel2 →
        outBlocked fuel2 p st1 = some (st2, some p)) ∧
      WF st2 asl free wq ∧
      (∀ j ∈ asl, st2.s_key j = st.s_key j) ∧
      st2.p_semAdd = st.p_semAdd ∧ st2.p_semAdd p = NULL := by
  obtain ⟨asl, free, wq, hfull⟩ := reachable_full h
  have hwf := hfull.1
  have hlen : asl.length ≤ MAXPROC := by
    have := hfull.2.1.length_eq
    simp only [List.length_append, List.length_range] at this
    omega
  have hf : asl.length < max fuel (MAXPROC + 1) :=
    lt_of_lt_of_le (Nat.lt_succ_of_le hlen) (le_max_right _ _)
  have hop1 := insertBlocked_mono (le_max_left fuel (MAXPROC + 1)) hop
  obtain ⟨st2, h1, h2, h3, h4, h5⟩ :=
    block_cancel_wf st st1 asl free wq k p (max fuel (MAXPROC + 1)) hwf hf
      (not_blocked hwf hp) h0 hk hop1
  refine ⟨asl, free, wq, st2, hwf, ?_, h2, h3, h4, h5⟩
  intro fuel2 hf2
  exact outBlocked_mono (Nat.succ_le_of_lt hf2) h1

theorem block_cancel_identity_witness :
    (ReachableProper 3 waiting3 ∧ ¬ Blocked waiting3 0 ∧ waiting3.p_semAdd 0 = NULL ∧
      (20 : Nat) ≠ NULL ∧ insertBlocked 4 20 0 waiting3 = some (waiting3_k20, FALSE) ∧
      WF waiting3 [2] [1, 0] (fun _ => [3]) ∧
      WF waiting3_k20 [2, 1] [0] (fun j => if j = 1 then [0] else [3])) ∧
    (∃ (asl free : List Nat) (wq : Nat → List Nat) (st2 : State),
      WF waiting3 asl free wq ∧
      (∀ fuel2, max 4 (3 + 1) < fuel2 →
        outBlocked fuel2 0 waiting3_k20 = some (st2, some 0)) ∧
      WF st2 asl free wq ∧
      (∀ j ∈ asl, st2.s_key j = waiting3.s_key j) ∧
      st2.p_semAdd = waiting3.p_semAdd ∧ st2.p_semAdd 0 = NULL) :=
  have hr : ReachableProper 3 waiting3 :=
    ReachableProper.insertBlocked 4 10 3 false
      (ReachableProper.init (freshState prio5351) (fun _ => rfl))
      (self_linked_not_blocked (by decide)) rfl
  have hb : ¬ Blocked waiting3 0 := self_linked_not_blocked (by decide)
  ⟨⟨hr, hb, by decide, by decide, rfl, by decide, by decide⟩,
    block_cancel_identity 3 waiting3 waiting3_k20 20 0 4 hr hb (by decide) (by decide) rfl⟩

/-! ## Families of queues -/

theorem fam_nodes {q : Links QNode} {heads : List QNode} {content : QNode → List Nat}
    (h : Fam q heads content) {a b : QNode} (ha : a ∈ heads) (hb : b ∈ heads) (hne : a ≠ b)
    {x : QNode} (hx : x ∈ a :: (content a).map QNode.p_list) :
    x ∉ b :: (content b).map QNode.p_list := by
  intro hx'
  rcases List.mem_cons.1 hx with e | e
  · subst e
    rcases List.mem_cons.1 hx' with e' | e'
    · exact hne e'
    · obtain ⟨p, -, hp⟩ := List.mem_map.1 e'
      exact (h.1 x ha).1 p hp.symm
  · obtain ⟨p, hp, rfl⟩ := List.mem_map.1 e
    rcases List.mem_cons.1 hx' with e' | e'
    · exact (h.1 b hb).1 p e'.symm
    · obtain ⟨p', hp', e''⟩ := List.mem_map.1 e'
      cases p_list_injective e''
      exact h.2 a ha b hb hne p hp hp'

theorem fam_subset {q : Links QNode} {heads heads1 : List QNode} {content : QNode → List Nat}
    (h : Fam q heads content) (hs : ∀ x ∈ heads1, x ∈ heads) : Fam q heads1 content :=
  ⟨fun x hx => h.1 x (hs x hx), fun x hx y hy => h.2 x (hs x hx) y (hs y hy)⟩

theorem fam_congr {q : Links QNode} {heads : List QNode} {content content1 : QNode → List Nat}
    (h : Fam q heads content) (he : ∀ x ∈ heads, content1 x = content x) :
    Fam q heads content1 := by
  constructor
  · intro x hx
    rw [he x hx]
    exact h.1 x hx
  · intro x hx y hy hne p hp
    rw [he x hx] at hp
    rw [he y hy]
    exact h.2 x hx y hy hne p hp

/-- One queue of a family gets a new ring, the others keep theirs. -/
theorem fam_update {q q1 : Links QNode} {heads : List QNode} {content : QNode → List Nat}
    {h0 : QNode} {w : List Nat} (h : Fam q heads content) (h0m : h0 ∈ heads)
    (hr : Ring q1 h0 (w.map QNode.p_list))
    (hothers : ∀ x ∈ heads, x ≠ h0 → Ring q1 x ((content x).map QNode.p_list))
    (hw : ∀ p ∈ w, ∀ x ∈ heads, x ≠ h0 → p ∉ content x) :
    Fam q1 heads (Function.update content h0 w) := by
  constructor
  · intro x hx
    refine ⟨(h.1 x hx).1, ?_⟩
    by_cases e : x = h0
    · subst e; simpa using hr
    · simpa [Function.update_noteq e] using hothers x hx e
  · intro x hx y hy hne p hp
    by_cases e : x = h0
    · subst e
      have e' : y ≠ x := Ne.symm hne
      simp only [Function.update_same, Function.update_noteq e'] at hp ⊢
      exact hw p hp y hy e'
    · simp only [Function.update_noteq e] at hp
      by_cases e' : y = h0
      · subst e'
        simp only [Function.update_same]
        intro hpw
        exact hw p hpw x hx e hp
      · simp only [Function.update_noteq e']
        exact h.2 x hx y hy hne p hp

theorem p_list_not_mem_ring {p : Nat} {x : QNode} {w : List Nat} (hx : ∀ i, x ≠ QNode.p_list i)
    (hp : p ∉ w) : QNode.p_list p ∉ x :: w.map QNode.p_list := by
  simp only [List.mem_cons, List.mem_map, not_or, not_exists, not_and]
  refine ⟨fun e => hx p e.symm, ?_⟩
  intro y hy e
  cases p_list_injective e
  exact hp hy

/-- Linking a PCB that is in no queue of the family into a gap of one queue. -/
theorem fam_insert {q : Links QNode} {heads : List QNode} {content : QNode → List Nat}
    {h0 a b : QNode} {p : Nat} {pre post : List Nat}
    (h : Fam q heads content) (h0m : h0 ∈ heads) (hc : content h0 = pre ++ post)
    (hp : ∀ x ∈ heads, p ∉ content x)
    (ha : (h0 :: pre.map QNode.p_list).getLast? = some a)
    (hb : (post.map QNode.p_list ++ [h0]).head? = some b) :
    Fam (__list_add q (QNode.p_list p) a b) heads
      (Function.update content h0 (pre ++ p :: post)) := by
  have r0 : Ring q h0 (pre.map QNode.p_list ++ post.map QNode.p_list) := by
    have := (h.1 h0 h0m).2
    rw [hc] at this
    simpa using this
  have hn : QNode.p_list p ∉ h0 :: (pre.map QNode.p_list ++ post.map QNode.p_list) := by
    have := p_list_not_mem_ring (h.1 h0 h0m).1 (hp h0 h0m)
    rw [hc] at this
    simpa using this
  have ham : a ∈ h0 :: (content h0).map QNode.p_list := by
    have := List.mem_of_mem_getLast? ha
    rw [hc]
    rcases List.mem_cons.1 this with e | e
    · simp [e]
    · obtain ⟨y, hy, rfl⟩ := List.mem_map.1 e
      simp [hy]
  have hbm : b ∈ h0 :: (content h0).map QNode.p_list := by
    have := List.mem_of_mem_head? hb
    rw [hc]
    rcases List.mem_append.1 this with e | e
    · obtain ⟨y, hy, rfl⟩ := List.mem_map.1 e
      simp [hy]
    · simp at e; simp [e]
  refine fam_update h h0m ?_ ?_ ?_
  · simpa using ring_insert r0 hn ha hb
  · intro x hx e
    exact ring_frame_add (h.1 x hx).2 (p_list_not_mem_ring (h.1 x hx).1 (hp x hx))
      (fam_nodes h h0m hx (Ne.symm e) ham) (fam_nodes h h0m hx (Ne.symm e) hbm)
  · intro y hy x hx e
    rcases List.mem_append.1 hy with e1 | e1
    · exact h.2 h0 h0m x hx (Ne.symm e) y (by rw [hc]; simp [e1])
    · rcases List.mem_cons.1 e1 with e2 | e2
      · subst e2; exact hp x hx
      · exact h.2 h0 h0m x hx (Ne.symm e) y (by rw [hc]; simp [e2])

theorem fam_add_tail {q : Links QNode} {heads : List QNode} {content : QNode → List Nat}
    {h0 : QNode} {p : Nat} (h : Fam q heads content) (h0m : h0 ∈ heads)
    (hp : ∀ x ∈ heads, p ∉ content x) :
    Fam (list_add_tail q (QNode.p_list p) h0) heads
      (Function.update content h0 (content h0 ++ [p])) := by
  have hb : ((([] : List Nat).map QNode.p_list) ++ [h0]).head? = some h0 := rfl
  exact fam_insert h h0m (by simp) hp (ring_prev_head (h.1 h0 h0m).2) hb

/-- Unlinking a PCB from the queue of the family it is in. -/
theorem fam_delete {q : Links QNode} {heads : List QNode} {content : QNode → List Nat}
    {h0 : QNode} {x : Nat} {pre post : List Nat}
    (h : Fam q heads content) (h0m : h0 ∈ heads) (hc : content h0 = pre ++ x :: post) :
    Fam (list_del q (QNode.p_list x)) heads (Function.update content h0 (pre ++ post)) := by
  have r0 : Ring q h0 (pre.map QNode.p_list ++ QNode.p_list x :: post.map QNode.p_list) := by
    have := (h.1 h0 h0m).2
    rw [hc] at this
    simpa using this
  have hxm : QNode.p_list x ∈ h0 :: (content h0).map QNode.p_list := by rw [hc]; simp
  have hnb := ring_nbr_mem (h.1 h0 h0m).2 hxm
  refine fam_update h h0m ?_ ?_ ?_
  · simpa using ring_delete r0
  · intro y hy e
    exact ring_frame_del (h.1 y hy).2 (fam_nodes h h0m hy (Ne.symm e) hnb.1)
      (fam_nodes h h0m hy (Ne.symm e) hnb.2)
  · intro y hy z hz e
    refine h.2 h0 h0m z hz (Ne.symm e) y ?_
    rw [hc]
    rcases List.mem_append.1 hy with e1 | e1
    · simp [e1]
    · simp [e1]

/-- `INIT_LIST_HEAD` on a head that is not a PCB: it joins the family (or
stays in it) with an empty queue. -/
theorem fam_init {q : Links QNode} {heads : List QNode} {content : QNode → List Nat}
    {h0 : QNode} (h : Fam q heads content) (hh : ∀ i, h0 ≠ QNode.p_list i) :
    Fam (INIT_LIST_HEAD q h0) (h0 :: heads) (Function.update content h0 []) := by
  constructor
  · intro x hx
    by_cases e : x = h0
    · subst e
      exact ⟨hh, by simpa using ring_init q x⟩
    · have hxm : x ∈ heads := by
        rcases List.mem_cons.1 hx with e' | e'
        · exact absurd e' e
        · exact e'
      refine ⟨(h.1 x hxm).1, ?_⟩
      simp only [Function.update_noteq e]
      refine ring_frame_init (h.1 x hxm).2 ?_
      simp only [List.mem_cons, List.mem_map, not_or, not_exists, not_and]
      exact ⟨fun e' => e e'.symm, fun y _ e' => hh y e'.symm⟩
  · intro x hx y hy hne p hp
    by_cases e : x = h0
    · subst e
      simp at hp
    · simp only [Function.update_noteq e] at hp
      by_cases e' : y = h0
      · subst e'
        simp
      · simp only [Function.update_noteq e']
        have hxm : x ∈ heads := by
          rcases List.mem_cons.1 hx with e1 | e1
          · exact absurd e1 e
          · exact e1
        have hym : y ∈ heads := by
          rcases List.mem_cons.1 hy with e1 | e1
          · exact absurd e1 e'
          · exact e1
        exact h.2 x hxm y hym hne p hp

/-- `INIT_LIST_HEAD` on the `p_list` of a PCB that is in no queue. -/
theorem fam_init_node {q : Links QNode} {heads : List QNode} {content : QNode → List Nat}
    {p : Nat} (h : Fam q heads content) (hp : ∀ x ∈ heads, p ∉ content x) :
    Fam (INIT_LIST_HEAD q (QNode.p_list p)) heads content := by
  refine ⟨fun x hx => ⟨(h.1 x hx).1, ?_⟩, h.2⟩
  exact ring_frame_init (h.1 x hx).2 (p_list_not_mem_ring (h.1 x hx).1 (hp x hx))

/-! ## The loops of pcb.c: where they link, and more fuel -/

/-- The loop of `insertProcQ` links `p` with `__list_add` between two
neighbours `a`, `b` of the queue. -/
theorem insertProcQ_loop_gap (st : State) (head : QNode) (p : Nat) :
    ∀ (post pre : List Nat) (fuel : Nat) (pos : QNode),
      Ring st.q head ((pre ++ post).map QNode.p_list) →
      post.length < fuel →
      (post.map QNode.p_list ++ [head]).head? = some pos →
      ∃ a b pre1 post1, pre ++ post = pre1 ++ post1 ∧
        (head :: pre1.map QNode.p_list).getLast? = some a ∧
        (post1.map QNode.p_list ++ [head]).head? = some b ∧
        insertProcQ_loop st head p fuel pos =
          some { st with q := __list_add st.q (QNode.p_list p) a b } := by
  intro post
  induction post with
  | nil =>
    intro pre fuel pos r hf hpos
    obtain ⟨f, rfl⟩ : ∃ f, fuel = f + 1 := ⟨fuel - 1, by omega⟩
    simp only [List.map_nil, List.nil_append, List.head?_cons, Option.some.injEq] at hpos
    subst hpos
    have r1 : Ring st.q head (pre.map QNode.p_list) := by simpa using r
    exact ⟨st.q.prev head, head, pre, [], rfl, ring_prev_head r1, rfl,
      by simp [insertProcQ_loop, list_add_tail]⟩
  | cons c rest ih =>
    intro pre fuel pos r hf hpos
    obtain ⟨f, rfl⟩ : ∃ f, fuel = f + 1 := ⟨fuel - 1, by omega⟩
    simp only [List.map_cons, List.cons_append, List.head?_cons, Option.some.injEq] at hpos
    subst hpos
    have r1 : Ring st.q head (pre.map QNode.p_list ++ QNode.p_list c :: rest.map QNode.p_list) := by
      simpa using r
    have hch : QNode.p_list c ≠ head := by
      intro e
      have := (List.nodup_cons.1 r1.2).1
      exact this (by simp [e])
    by_cases hgt : st.p_prio p > st.p_prio c
    · exact ⟨st.q.prev (QNode.p_list c), QNode.p_list c, pre, c :: rest, rfl,
        ring_prev_mem r1, by simp, by simp [insertProcQ_loop, hch, container_of_p_list, hgt]⟩
    · have hnext := ring_next_mem r1
      have r2 : Ring st.q head (((pre ++ [c]) ++ rest).map QNode.p_list) := by simpa using r
      obtain ⟨a, b, pre1, post1, h1, h2, h3, h4⟩ := ih (pre ++ [c]) f
        (st.q.next (QNode.p_list c)) r2 (by simp at hf; omega) hnext
      exact ⟨a, b, pre1, post1, by simpa using h1, h2, h3,
        by simp [insertProcQ_loop, hch, container_of_p_list, hgt, h4]⟩

theorem insertProcQ_loop_mono (st : State) (head : QNode) (p : Nat) :
    ∀ (fuel fuel1 : Nat) (pos : QNode) (r : State), fuel ≤ fuel1 →
    insertProcQ_loop st head p fuel pos = some r →
    insertProcQ_loop st head p fuel1 pos = some r
  | 0, _, _, _, _, h => by simp [insertProcQ_loop] at h
  | f + 1, fuel1, pos, r, hle, h => by
    obtain ⟨f1, rfl⟩ : ∃ f1, fuel1 = f1 + 1 := ⟨fuel1 - 1, by omega⟩
    unfold insertProcQ_loop at h ⊢
    by_cases h0 : pos = head
    · simpa [h0] using h
    · simp only [h0, if_false] at h ⊢
      cases hc : container_of_p_list pos with
      | none => simp [hc] at h
      | some curr =>
        simp only [hc] at h ⊢
        by_cases h2 : st.p_prio p > st.p_prio curr
        · simpa [h2] using h
        · simp only [h2, if_false] at h ⊢
          exact insertProcQ_loop_mono st head p f f1 _ r (by omega) h

theorem outProcQ_loop_mono (st : State) (head : QNode) (p : Nat) :
    ∀ (fuel fuel1 : Nat) (pos : QNode) (r : State × Option Nat), fuel ≤ fuel1 →
    outProcQ_loop st head p fuel pos = some r →
    outProcQ_loop st head p fuel1 pos = some r
  | 0, _, _, _, _, h => by simp [outProcQ_loop] at h
  | f + 1, fuel1, pos, r, hle, h => by
    obtain ⟨f1, rfl⟩ : ∃ f1, fuel1 = f1 + 1 := ⟨fuel1 - 1, by omega⟩
    unfold outProcQ_loop at h ⊢
    by_cases h0 : pos = head
    · simpa [h0] using h
    · simp only [h0, if_false] at h ⊢
      cases hc : container_of_p_list pos with
      | none => simp [hc] at h
      | some curr =>
        simp only [hc] at h ⊢
        by_cases h2 : curr = p
        · simpa [h2] using h
        · simp only [h2, if_false] at h ⊢
          exact outProcQ_loop_mono st head p f f1 _ r (by omega) h

/-! ## The invariant of the whole layer -/

theorem free_mem_heads (A asl : List Nat) : QNode.pcbFree_h ∈ layerHeads A asl := by
  simp [layerHeads]

theorem anchor_mem_heads {A asl : List Nat} {a : Nat} (ha : a ∈ A) :
    QNode.anchor a ∈ layerHeads A asl := by
  simp [layerHeads, ha]

theorem procq_mem_heads {A asl : List Nat} {j : Nat} (hj : j ∈ asl) :
    QNode.s_procq j ∈ layerHeads A asl := by
  simp [layerHeads, hj]

theorem procq_of_mem_heads {A asl : List Nat} {j : Nat}
    (h : QNode.s_procq j ∈ layerHeads A asl) : j ∈ asl := by
  simpa [layerHeads] using h

theorem heads_cases {A asl : List Nat} {x : QNode} (h : x ∈ layerHeads A asl) :
    x = QNode.pcbFree_h ∨ (∃ a ∈ A, x = QNode.anchor a) ∨ (∃ j ∈ asl, x = QNode.s_procq j) := by
  simp only [layerHeads, List.mem_cons, List.mem_append, List.mem_map] at h
  rcases h with e | ⟨a, ha, e⟩ | ⟨j, hj, e⟩
  · exact Or.inl e
  · exact Or.inr (Or.inl ⟨a, ha, e.symm⟩)
  · exact Or.inr (Or.inr ⟨j, hj, e.symm⟩)

/-- A PCB that is in no queue is in none of the rings of the invariant. -/
theorem not_queued {st : State} {A asl free : List Nat} {content : QNode → List Nat} {p : Nat}
    (h : LayerInv st A asl free content) (hq : ¬ Queued st A p) :
    ∀ x ∈ layerHeads A asl, p ∉ content x := by
  intro x hx hp
  apply hq
  have hr := (h.2.1.1 x hx).2
  rcases heads_cases hx with e | ⟨a, ha, e⟩ | ⟨j, hj, e⟩
  · subst e
    exact Or.inl ⟨_, hr, hp⟩
  · subst e
    exact Or.inr (Or.inl ⟨a, ha, _, hr, hp⟩)
  · subst e
    exact Or.inr (Or.inr ⟨asl, j, _, h.1.1, hj, hr, hp⟩)

/-- A call that writes only the `p_list` memory, and there only queues that
are not waiter queues. -/
theorem layer_q_only {st st1 : State} {A A1 asl free : List Nat}
    {content content1 : QNode → List Nat} (h : LayerInv st A asl free content)
    (hs : st1.s = st.s) (hk : st1.s_key = st.s_key) (hsa : st1.p_semAdd = st.p_semAdd)
    (hfam : Fam st1.q (layerHeads A1 asl) content1)
    (hc : ∀ j ∈ asl, content1 (QNode.s_procq j) = content (QNode.s_procq j)) :
    LayerInv st1 A1 asl free content1 := by
  refine ⟨by rw [hs, hk]; exact h.1, hfam, ?_, ?_⟩
  · intro j hj p hp
    rw [hc j hj] at hp
    rw [hsa, hk]
    exact h.2.2.1 j hj p hp
  · intro p hp
    rw [hsa] at hp
    obtain ⟨j, hj, hpj⟩ := h.2.2.2 p hp
    exact ⟨j, hj, by rw [hc j hj]; exact hpj⟩

theorem layer_init (MAXPROC : Nat) (st : State) (h : ∀ p, st.p_semAdd p = NULL) :
    LayerInv (initASL MAXPROC (initPcbs MAXPROC st)) [] [] (List.range MAXPROC).reverse
      (fun x => if x = QNode.pcbFree_h then List.range MAXPROC else []) := by
  refine ⟨initASL_inv MAXPROC (initPcbs MAXPROC st), ?_, ?_, ?_⟩
  · constructor
    · intro x hx
      simp only [layerHeads, List.map_nil, List.append_nil, List.mem_singleton] at hx
      subst hx
      refine ⟨by simp, ?_⟩
      simpa using initPcbs_ring MAXPROC st
    · intro x hx y hy hne
      simp only [layerHeads, List.map_nil, List.append_nil, List.mem_singleton] at hx hy
      exact absurd (hx.trans hy.symm) hne
  · simp
  · intro p hp
    exact absurd (h p) hp

/-- The state that a successful `allocPcb()` leaves, as far as the queues and
the blocking keys go. -/
theorem allocPcb_form {st : State} {f : Nat} {free1 : List Nat}
    (hr : Ring st.q QNode.pcbFree_h ((f :: free1).map QNode.p_list)) :
    ∃ st1, allocPcb st = some (st1, some f) ∧
      st1.q = INIT_LIST_HEAD (list_del st.q (QNode.p_list f)) (QNode.p_list f) ∧
      st1.s = st.s ∧ st1.s_key = st.s_key ∧ st1.p_semAdd = upd st.p_semAdd f NULL := by
  have he : list_empty st.q QNode.pcbFree_h = false := by
    cases he : list_empty st.q QNode.pcbFree_h with
    | false => rfl
    | true => simpa using (ring_list_empty hr).1 he
  have hn := ring_next_head hr
  simp only [List.map_cons, List.cons_append, List.head?_cons, Option.some.injEq] at hn
  have hex : allocPcb st = some ({ st with
      p_parent := upd st.p_parent f none
      t := INIT_LIST_HEAD (INIT_LIST_HEAD st.t (TNode.p_child f)) (TNode.p_sib f)
      p_time := upd st.p_time f 0
      p_semAdd := upd st.p_semAdd f NULL
      p_supportStruct := upd st.p_supportStruct f NULL
      p_prio := upd st.p_prio f 0
      p_pid := upd st.p_pid f st.next_pid
      next_pid := wrap32 (st.next_pid + 1)
      q := INIT_LIST_HEAD (list_del st.q (QNode.p_list f)) (QNode.p_list f) }, some f) := by
    simp only [allocPcb, he, ← hn, container_of_p_list]
    rfl
  exact ⟨_, hex, rfl, rfl, rfl, rfl⟩

theorem layer_alloc {st st1 : State} {A asl free : List Nat} {content : QNode → List Nat}
    {r : Option Nat} (h : LayerInv st A asl free content)
    (hop : allocPcb st = some (st1, r)) :
    ∃ content1, LayerInv st1 A asl free content1 := by
  have hfm := free_mem_heads A asl
  have hr := (h.2.1.1 _ hfm).2
  cases hc : content QNode.pcbFree_h with
  | nil =>
    rw [hc] at hr
    rw [(allocPcb_ring hr).1 rfl] at hop
    have e : st = st1 := congrArg Prod.fst (Option.some.inj hop)
    subst e
    exact ⟨content, h⟩
  | cons f free1 =>
    rw [hc] at hr
    obtain ⟨st1', e1, hq, hs, hk, hsa⟩ := allocPcb_form hr
    rw [e1] at hop
    have e : st1' = st1 := congrArg Prod.fst (Option.some.inj hop)
    subst e
    have hc' : content QNode.pcbFree_h = [] ++ f :: free1 := by simpa using hc
    have hfam1 := fam_delete h.2.1 hfm hc'
    have hf_free : f ∉ free1 := by
      have := (List.nodup_cons.1 hr.2).2
      simp only [List.map_cons, List.nodup_cons] at this
      intro hm
      exact this.1 (List.mem_map.2 ⟨f, hm, rfl⟩)
    have hf_in : f ∈ content QNode.pcbFree_h := by rw [hc]; simp
    have hf_none : ∀ x ∈ layerHeads A asl,
        f ∉ Function.update content QNode.pcbFree_h ([] ++ free1) x := by
      intro x hx
      by_cases e : x = QNode.pcbFree_h
      · subst e; simpa using hf_free
      · simp only [Function.update_noteq e]
        exact h.2.1.2 _ hfm x hx (Ne.symm e) f hf_in
    have hfam2 := fam_init_node hfam1 hf_none
    refine ⟨_, by rw [hs, hk]; exact h.1, by rw [hq]; exact hfam2, ?_, ?_⟩
    · intro j hj p hp
      have ej : QNode.s_procq j ≠ QNode.pcbFree_h := by simp
      simp only [Function.update_noteq ej] at hp
      have hpf : p ≠ f := by
        intro e
        subst e
        exact h.2.1.2 _ hfm _ (procq_mem_heads hj) (Ne.symm ej) p hf_in hp
      rw [hsa, hk]
      simp only [upd, hpf, if_false]
      exact h.2.2.1 j hj p hp
    · intro p hp
      have hpf : p ≠ f := by
        intro e
        subst e
        simp [hsa, upd] at hp
      simp only [hsa, upd, hpf, if_false] at hp
      obtain ⟨j, hj, hpj⟩ := h.2.2.2 p hp
      have ej : QNode.s_procq j ≠ QNode.pcbFree_h := by simp
      exact ⟨j, hj, by simpa [Function.update_noteq ej] using hpj⟩

theorem layer_free {st : State} {A asl free : List Nat} {content : QNode → List Nat}
    {p : Nat} (h : LayerInv st A asl free content) (hq : ¬ Queued st A p) :
    ∃ content1, LayerInv (freePcb p st) A asl free content1 := by
  have hfam := fam_add_tail h.2.1 (free_mem_heads A asl) (not_queued h hq)
  refine ⟨_, layer_q_only h rfl rfl rfl hfam ?_⟩
  intro j hj
  have ej : QNode.s_procq j ≠ QNode.pcbFree_h := by simp
  simp [Function.update_noteq ej]

theorem layer_mkEmpty {st : State} {A asl free : List Nat} {content : QNode → List Nat}
    (a : Nat) (h : LayerInv st A asl free content) :
    ∃ content1, LayerInv (mkEmptyProcQ (QNode.anchor a) st) (a :: A) asl free content1 := by
  have hfam := @fam_init st.q (layerHeads A asl) content (QNode.anchor a) h.2.1 (by simp)
  have hfam1 : Fam (mkEmptyProcQ (QNode.anchor a) st).q (layerHeads (a :: A) asl)
      (Function.update content (QNode.anchor a) []) := by
    refine fam_subset hfam ?_
    intro x hx
    simp only [layerHeads, List.map_cons, List.cons_append, List.mem_cons, List.mem_append,
      List.mem_map] at hx ⊢
    rcases hx with e | e | ⟨b, hb, e⟩ | ⟨j, hj, e⟩
    · exact Or.inr (Or.inl e)
    · exact Or.inl e
    · exact Or.inr (Or.inr (Or.inl ⟨b, hb, e⟩))
    · exact Or.inr (Or.inr (Or.inr ⟨j, hj, e⟩))
  refine ⟨_, layer_q_only h rfl rfl rfl hfam1 ?_⟩
  intro j hj
  have ej : QNode.s_procq j ≠ QNode.anchor a := by simp
  simp [Function.update_noteq ej]

theorem layer_insertProcQ {st st1 : State} {A asl free : List Nat}
    {content : QNode → List Nat} {fuel a p : Nat}
    (h : LayerInv st A asl free content) (ha : a ∈ A) (hq : ¬ Queued st A p)
    (hop : insertProcQ fuel (QNode.anchor a) p st = some st1) :
    ∃ content1, LayerInv st1 A asl free content1 := by
  have hm := @anchor_mem_heads A asl a ha
  have hr := (h.2.1.1 _ hm).2
  have hr0 : Ring st.q (QNode.anchor a)
      (([] ++ content (QNode.anchor a)).map QNode.p_list) := by simpa using hr
  have hop1 := insertProcQ_loop_mono st (QNode.anchor a) p fuel
    (max fuel ((content (QNode.anchor a)).length + 1)) _ st1 (le_max_left _ _) hop
  obtain ⟨x, y, pre1, post1, hc, hx, hy, hl⟩ := insertProcQ_loop_gap st (QNode.anchor a) p
    (content (QNode.anchor a)) [] (max fuel ((content (QNode.anchor a)).length + 1)) _ hr0
    (lt_of_lt_of_le (Nat.lt_succ_self _) (le_max_right _ _)) (ring_next_head hr)
  rw [hl] at hop1
  have e := Option.some.inj hop1
  subst e
  have hfam := fam_insert h.2.1 hm (by simpa using hc) (not_queued h hq) hx hy
  refine ⟨_, layer_q_only h rfl rfl rfl hfam ?_⟩
  intro j hj
  have ej : QNode.s_procq j ≠ QNode.anchor a := by simp
  simp [Function.update_noteq ej]

theorem layer_removeProcQ {st st1 : State} {A asl free : List Nat}
    {content : QNode → List Nat} {a : Nat} {r : Option Nat}
    (h : LayerInv st A asl free content) (ha : a ∈ A)
    (hop : removeProcQ (QNode.anchor a) st = some (st1, r)) :
    ∃ content1, LayerInv st1 A asl free content1 := by
  have hm := @anchor_mem_heads A asl a ha
  have hr := (h.2.1.1 _ hm).2
  cases hc : content (QNode.anchor a) with
  | nil =>
    rw [hc] at hr
    rw [removeProcQ_nil st _ (by simpa using hr)] at hop
    have e : st = st1 := congrArg Prod.fst (Option.some.inj hop)
    subst e
    exact ⟨content, h⟩
  | cons e0 rest =>
    rw [hc] at hr
    rw [(removeProcQ_cons st _ e0 rest hr).1] at hop
    have e := congrArg Prod.fst (Option.some.inj hop)
    simp only at e
    subst e
    have hc' : content (QNode.anchor a) = [] ++ e0 :: rest := by simpa using hc
    have hfam := fam_delete h.2.1 hm hc'
    refine ⟨_, layer_q_only h rfl rfl rfl hfam ?_⟩
    intro j hj
    have ej : QNode.s_procq j ≠ QNode.anchor a := by simp
    simp [Function.update_noteq ej]

theorem layer_outProcQ {st st1 : State} {A asl free : List Nat}
    {content : QNode → List Nat} {fuel a p : Nat} {r : Option Nat}
    (h : LayerInv st A asl free content) (ha : a ∈ A)
    (hop : outProcQ fuel (QNode.anchor a) p st = some (st1, r)) :
    ∃ content1, LayerInv st1 A asl free content1 := by
  have hm := @anchor_mem_heads A asl a ha
  have hr := (h.2.1.1 _ hm).2
  have hr0 : Ring st.q (QNode.anchor a)
      (([] ++ content (QNode.anchor a)).map QNode.p_list) := by simpa using hr
  have hop1 := outProcQ_loop_mono st (QNode.anchor a) p fuel
    (max fuel ((content (QNode.anchor a)).length + 1)) _ (st1, r) (le_max_left _ _) hop
  obtain ⟨h1, h2⟩ := outProcQ_loop_spec st (QNode.anchor a) p
    (content (QNode.anchor a)) [] (max fuel ((content (QNode.anchor a)).length + 1)) _ hr0
    (lt_of_lt_of_le (Nat.lt_succ_self _) (le_max_right _ _)) (ring_next_head hr)
  by_cases hp : p ∈ content (QNode.anchor a)
  · rw [h1 hp] at hop1
    have e := congrArg Prod.fst (Option.some.inj hop1)
    simp only at e
    subst e
    obtain ⟨pre, post, hc⟩ := List.append_of_mem hp
    have hfam := fam_delete h.2.1 hm hc
    refine ⟨_, layer_q_only h rfl rfl rfl hfam ?_⟩
    intro j hj
    have ej : QNode.s_procq j ≠ QNode.anchor a := by simp
    simp [Function.update_noteq ej]
  · rw [h2 hp] at hop1
    have e : st = st1 := congrArg Prod.fst (Option.some.inj hop1)
    subst e
    exact ⟨content, h⟩

theorem layer_insertChild {st : State} {A asl free : List Nat} {content : QNode → List Nat}
    (prnt p : Option Nat) (h : LayerInv st A asl free content) :
    LayerInv (insertChild prnt p st) A asl free content := by
  cases prnt with
  | none => exact h
  | some a =>
    cases p with
    | none => exact h
    | some b => exact layer_q_only h rfl rfl rfl h.2.1 (fun _ _ => rfl)

theorem layer_removeChild {st st1 : State} {A asl free : List Nat}
    {content : QNode → List Nat} {p : Nat} {r : Option Nat}
    (h : LayerInv st A asl free content) (hop : removeChild p st = some (st1, r)) :
    LayerInv st1 A asl free content := by
  unfold removeChild at hop
  cases he : list_empty st.t (TNode.p_child p) with
  | true =>
    simp only [he, if_true, Option.some.injEq, Prod.mk.injEq] at hop
    obtain ⟨rfl, -⟩ := hop
    exact h
  | false =>
    simp only [he, Bool.false_eq_true, if_false] at hop
    cases hc : container_of_p_sib (st.t.next (TNode.p_child p)) with
    | none => simp [hc] at hop
    | some tmp =>
      simp only [hc, Option.some.injEq, Prod.mk.injEq] at hop
      obtain ⟨rfl, -⟩ := hop
      exact layer_q_only h rfl rfl rfl h.2.1 (fun _ _ => rfl)

theorem layer_outChild {st : State} {A asl free : List Nat} {content : QNode → List Nat}
    (p : Nat) (h : LayerInv st A asl free content) :
    LayerInv (outChild p st).1 A asl free content := by
  unfold outChild
  by_cases hp : st.p_parent p = none
  · simpa [hp] using h
  · simp only [hp, if_false]
    exact layer_q_only h rfl rfl rfl h.2.1 (fun _ _ => rfl)

/-- The end of `removeBlocked` and `outBlocked` in the whole layer: PCB `x` is
unlinked from the waiter queue of descriptor `j`, its blocking key is
cleared, and the descriptor is reclaimed if the queue is empty now. -/
theorem layer_unlink {st : State} {A asl free : List Nat} {content : QNode → List Nat}
    {j x : Nat} {pre post : List Nat} (h : LayerInv st A asl free content) (hj : j ∈ asl)
    (hc : content (QNode.s_procq j) = pre ++ x :: post) :
    ∃ asl1 free1 content1,
      LayerInv (reclaim j { st with q := list_del st.q (QNode.p_list x),
                                    p_semAdd := upd st.p_semAdd x NULL })
        A asl1 free1 content1 := by
  obtain ⟨hasl, hfam, hkey, hbl⟩ := h
  have hm := @procq_mem_heads A asl j hj
  have hfam1 := fam_delete hfam hm hc
  have hr1 := (hfam1.1 _ hm).2
  simp only [Function.update_same] at hr1
  have hnda : asl.Nodup := (List.nodup_append.1 hasl.2.2.1).1
  have hndw : (content (QNode.s_procq j)).Nodup :=
    List.Nodup.of_map _ (List.nodup_cons.1 (hfam.1 _ hm).2.2).2
  have hxj : x ∈ content (QNode.s_procq j) := by rw [hc]; simp
  have hx_not : x ∉ pre ++ post := by
    rw [hc] at hndw
    have hp := (List.perm_middle : (pre ++ x :: post).Perm (x :: (pre ++ post)))
    exact (List.nodup_cons.1 (hp.nodup_iff.1 hndw)).1
  have hxi : ∀ i ∈ asl, i ≠ j → x ∉ content (QNode.s_procq i) := by
    intro i hi e
    have hne : QNode.s_procq j ≠ QNode.s_procq i := by
      intro e'; cases e'; exact e rfl
    exact hfam.2 _ hm _ (procq_mem_heads hi) hne x hxj
  have hupd : ∀ i, i ≠ j →
      Function.update content (QNode.s_procq j) (pre ++ post) (QNode.s_procq i) =
        content (QNode.s_procq i) := by
    intro i e
    have hne : QNode.s_procq i ≠ QNode.s_procq j := by
      intro e'; cases e'; exact e rfl
    simp [Function.update_noteq hne]
  by_cases hne : pre ++ post = []
  · have he : list_empty (list_del st.q (QNode.p_list x)) (QNode.s_procq j) = true := by
      refine (ring_list_empty hr1).2 ?_
      simp [hne]
    have hA := (@reclaim_asl { st with q := list_del st.q (QNode.p_list x),
                                       p_semAdd := upd st.p_semAdd x NULL } asl free j hasl hj).1 he
    have hmem : ∀ i ∈ asl.erase j, i ∈ asl ∧ i ≠ j := by
      intro i hi
      exact ⟨List.mem_of_mem_erase hi, fun e => by
        subst e; exact (List.Nodup.not_mem_erase hnda) hi⟩
    refine ⟨asl.erase j, j :: free, Function.update content (QNode.s_procq j) (pre ++ post),
      hA, ?_, ?_, ?_⟩
    · simp only [reclaim_q]
      refine fam_subset hfam1 ?_
      intro y hy
      simp only [layerHeads, List.mem_cons, List.mem_append, List.mem_map] at hy ⊢
      rcases hy with e | ⟨b, hb, e⟩ | ⟨i, hi, e⟩
      · exact Or.inl e
      · exact Or.inr (Or.inl ⟨b, hb, e⟩)
      · exact Or.inr (Or.inr ⟨i, (hmem i hi).1, e⟩)
    · intro i hi y hy
      obtain ⟨hia, hij⟩ := hmem i hi
      rw [hupd i hij] at hy
      have hyx : y ≠ x := fun e => hxi i hia hij (e ▸ hy)
      simp only [reclaim_p_semAdd, reclaim_s_key, upd, hyx, if_false]
      exact hkey i hia y hy
    · intro y hy
      simp only [reclaim_p_semAdd] at hy
      have hyx : y ≠ x := by
        intro e; subst e; simp [upd] at hy
      simp only [upd, hyx, if_false] at hy
      obtain ⟨i, hi, hyi⟩ := hbl y hy
      have hij : i ≠ j := by
        intro e
        subst e
        rw [hc] at hyi
        have e1 : pre = [] := (List.append_eq_nil.1 hne).1
        have e2 : post = [] := (List.append_eq_nil.1 hne).2
        subst e1; subst e2
        simp at hyi
        exact hyx hyi
      exact ⟨i, (List.mem_erase_of_ne hij).2 hi, by rw [hupd i hij]; exact hyi⟩
  · have he : list_empty (list_del st.q (QNode.p_list x)) (QNode.s_procq j) = false := by
      cases he : list_empty (list_del st.q (QNode.p_list x)) (QNode.s_procq j) with
      | false => rfl
      | true =>
        have := (ring_list_empty hr1).1 he
        simp only [List.map_eq_nil_iff] at this
        exact absurd this hne
    have hrec := (@reclaim_asl { st with q := list_del st.q (QNode.p_list x),
                                         p_semAdd := upd st.p_semAdd x NULL } asl free j hasl hj).2 he
    rw [hrec]
    refine ⟨asl, free, Function.update content (QNode.s_procq j) (pre ++ post),
      hasl, hfam1, ?_, ?_⟩
    · intro i hi y hy
      by_cases e : i = j
      · subst e
        simp only [Function.update_same] at hy
        have hyx : y ≠ x := fun e => hx_not (e ▸ hy)
        have hyw : y ∈ content (QNode.s_procq i) := by
          rw [hc]
          rcases List.mem_append.1 hy with e | e
          · simp [e]
          · simp [e]
        simp only [upd, hyx, if_false]
        exact hkey i hi y hyw
      · rw [hupd i e] at hy
        have hyx : y ≠ x := fun e' => hxi i hi e (e' ▸ hy)
        simp only [upd, hyx, if_false]
        exact hkey i hi y hy
    · intro y hy
      have hyx : y ≠ x := by
        intro e; subst e; simp [upd] at hy
      simp only [upd, hyx, if_false] at hy
      obtain ⟨i, hi, hyi⟩ := hbl y hy
      refine ⟨i, hi, ?_⟩
      by_cases e : i = j
      · subst e
        simp only [Function.update_same]
        rw [hc] at hyi
        rcases List.mem_append.1 hyi with e | e
        · simp [e]
        · rcases List.mem_cons.1 e with e | e
          · exact absurd e hyx
          · simp [e]
      · rw [hupd i e]; exact hyi

theorem layer_insertBlocked {st st1 : State} {A asl free : List Nat}
    {content : QNode → List Nat} {fuel k p : Nat} {r : Bool}
    (h : LayerInv st A asl free content) (hq : ¬ Queued st A p)
    (hop : insertBlocked fuel k p st = some (st1, r)) :
    ∃ asl1 free1 content1, LayerInv st1 A asl1 free1 content1 := by
  have hp := not_queued h hq
  obtain ⟨hasl, hfam, hkey, hbl⟩ := h
  have hf : asl.length < max fuel (asl.length + 1) :=
    lt_of_lt_of_le (Nat.lt_succ_self _) (le_max_right _ _)
  have hop' := insertBlocked_mono (le_max_left fuel (asl.length + 1)) hop
  obtain ⟨cA, cB, cC⟩ := insertBlocked_cases k p (max fuel (asl.length + 1)) hasl hf
  have hpj : ∀ i ∈ asl, p ∉ content (QNode.s_procq i) := fun i hi => hp _ (procq_mem_heads hi)
  by_cases hk : k ∈ asl.map st.s_key
  · obtain ⟨j, hj, hkj⟩ := List.mem_map.1 hk
    rw [cA j hj hkj] at hop'
    have e : (insertBlocked_enqueue k p j st).1 = st1 := by
      have := Option.some.inj hop'
      rw [this]
    subst e
    have hupd : ∀ i, i ≠ j →
        Function.update content (QNode.s_procq j) (content (QNode.s_procq j) ++ [p])
          (QNode.s_procq i) = content (QNode.s_procq i) := by
      intro i e
      have hne : QNode.s_procq i ≠ QNode.s_procq j := by
        intro e'; cases e'; exact e rfl
      simp [Function.update_noteq hne]
    refine ⟨asl, free, _, hasl, fam_add_tail hfam (procq_mem_heads hj) hp, ?_, ?_⟩
    · intro i hi y hy
      by_cases ei : i = j
      · subst ei
        simp only [Function.update_same, List.mem_append, List.mem_singleton] at hy
        rcases hy with hy | hy
        · have hyp : y ≠ p := fun e' => hpj i hi (e' ▸ hy)
          simp only [insertBlocked_enqueue, upd, hyp, if_false]
          exact hkey i hi y hy
        · subst hy
          simp [insertBlocked_enqueue, upd, hkj]
      · rw [hupd i ei] at hy
        have hyp : y ≠ p := fun e' => hpj i hi (e' ▸ hy)
        simp only [insertBlocked_enqueue, upd, hyp, if_false]
        exact hkey i hi y hy
    · intro y hy
      by_cases hyp : y = p
      · subst hyp
        exact ⟨j, hj, by simp⟩
      · simp only [insertBlocked_enqueue, upd, hyp, if_false] at hy
        obtain ⟨i, hi, hyi⟩ := hbl y hy
        refine ⟨i, hi, ?_⟩
        by_cases ei : i = j
        · subst ei; simp [hyi]
        · rw [hupd i ei]; exact hyi
  · cases hfree : free with
    | nil =>
      rw [cB hk hfree] at hop'
      have e : st = st1 := congrArg Prod.fst (Option.some.inj hop')
      subst e
      exact ⟨asl, free, content, hasl, hfam, hkey, hbl⟩
    | cons f free1 =>
      obtain ⟨s2, hasl1, e1⟩ := cC hk f free1 hfree
      rw [e1] at hop'
      have e := congrArg Prod.fst (Option.some.inj hop')
      simp only at e
      subst e
      have hfa : f ∉ asl := by
        intro hm
        have := hasl.2.2.1
        rw [hfree] at this
        exact (List.nodup_append.1 this).2.2 hm (by simp)
      have hmem : ∀ i ∈ specInsertKey st.s_key k f asl, i = f ∨ i ∈ asl := by
        intro i hi
        simpa using (specInsertKey_perm st.s_key k f asl).subset hi
      have hupd : ∀ i, i ≠ f →
          Function.update (Function.update content (QNode.s_procq f) []) (QNode.s_procq f)
            (Function.update content (QNode.s_procq f) [] (QNode.s_procq f) ++ [p])
            (QNode.s_procq i) = content (QNode.s_procq i) := by
        intro i e
        have hne : QNode.s_procq i ≠ QNode.s_procq f := by
          intro e'; cases e'; exact e rfl
        simp [Function.update_noteq hne]
      have hf1 := @fam_init st.q (layerHeads A asl) content (QNode.s_procq f) hfam
        (by intro i e; cases e)
      have hp1 : ∀ x ∈ QNode.s_procq f :: layerHeads A asl,
          p ∉ Function.update content (QNode.s_procq f) [] x := by
        intro x hx
        by_cases e : x = QNode.s_procq f
        · subst e; simp
        · rw [Function.update_noteq e]
          rcases List.mem_cons.1 hx with e' | e'
          · exact absurd e' e
          · exact hp x e'
      have hf2 := fam_add_tail hf1 (List.mem_cons_self _ _) hp1
      have hf3 := @fam_subset _ _ (layerHeads A (specInsertKey st.s_key k f asl)) _ hf2 (by
        intro y hy
        simp only [layerHeads, List.mem_cons, List.mem_append, List.mem_map] at hy ⊢
        rcases hy with e | ⟨b, hb, e⟩ | ⟨i, hi, e⟩
        · exact Or.inr (Or.inl e)
        · exact Or.inr (Or.inr (Or.inl ⟨b, hb, e⟩))
        · rcases hmem i hi with ei | hia
          · subst ei; exact Or.inl e.symm
          · exact Or.inr (Or.inr (Or.inr ⟨i, hia, e⟩)))
      refine ⟨_, free1, _, hasl1, hf3, ?_, ?_⟩
      · intro i hi y hy
        rcases hmem i hi with ei | hia
        · subst ei
          simp only [Function.update_same, List.nil_append, List.mem_singleton] at hy
          subst hy
          simp [insertBlocked_enqueue, upd]
        · have ei : i ≠ f := fun e' => hfa (e' ▸ hia)
          rw [hupd i ei] at hy
          have hyp : y ≠ p := fun e' => hpj i hia (e' ▸ hy)
          simp only [insertBlocked_enqueue, upd, hyp, ei, if_false]
          exact hkey i hia y hy
      · intro y hy
        by_cases hyp : y = p
        · subst hyp
          exact ⟨f, (specInsertKey_perm st.s_key k f asl).symm.subset (by simp), by simp⟩
        · simp only [insertBlocked_enqueue, upd, hyp, if_false] at hy
          obtain ⟨i, hi, hyi⟩ := hbl y hy
          have ei : i ≠ f := fun e' => hfa (e' ▸ hi)
          exact ⟨i, (specInsertKey_perm st.s_key k f asl).symm.subset (by simp [hi]),
            by rw [hupd i ei]; exact hyi⟩

theorem layer_removeBlocked {st st1 : State} {A asl free : List Nat}
    {content : QNode → List Nat} {fuel k : Nat} {r : Option Nat}
    (h : LayerInv st A asl free content)
    (hop : removeBlocked fuel k st = some (st1, r)) :
    ∃ asl1 free1 content1, LayerInv st1 A asl1 free1 content1 := by
  have hf : asl.length < max fuel (asl.length + 1) :=
    lt_of_lt_of_le (Nat.lt_succ_self _) (le_max_right _ _)
  have hop' := removeBlocked_mono (le_max_left fuel (asl.length + 1)) hop
  by_cases hk : k ∈ asl.map st.s_key
  · obtain ⟨j, hj, hkj⟩ := List.mem_map.1 hk
    subst hkj
    have rj := (h.2.1.1 _ (@procq_mem_heads A asl j hj)).2
    cases hw : content (QNode.s_procq j) with
    | nil =>
      rw [hw] at rj
      have he := (ring_list_empty rj).2 rfl
      simp only [removeBlocked, getSemd_found h.1 hj hf, he, if_true, Option.some.injEq,
        Prod.mk.injEq] at hop'
      obtain ⟨e, -⟩ := hop'
      subst e
      exact ⟨asl, free, content, h⟩
    | cons h0 rest =>
      rw [hw] at rj
      have he : list_empty st.q (QNode.s_procq j) = false := by
        cases he : list_empty st.q (QNode.s_procq j) with
        | false => rfl
        | true => simpa using (ring_list_empty rj).1 he
      have hn := ring_next_head rj
      simp only [List.map_cons, List.cons_append, List.head?_cons, Option.some.injEq] at hn
      have hw' : content (QNode.s_procq j) = [] ++ h0 :: rest := by simpa using hw
      simp only [removeBlocked, getSemd_found h.1 hj hf, he, ← hn, container_of_p_list,
        Option.some.injEq, Prod.mk.injEq] at hop'
      obtain ⟨e, -⟩ := hop'
      exact layer_unlink h hj hw'
  · simp only [removeBlocked, getSemd_absent h.1.1 hk hf, Option.some.injEq,
      Prod.mk.injEq] at hop'
    obtain ⟨e, -⟩ := hop'
    subst e
    exact ⟨asl, free, content, h⟩

theorem layer_outBlocked {st st1 : State} {A asl free : List Nat}
    {content : QNode → List Nat} {fuel p : Nat} {r : Option Nat}
    (h : LayerInv st A asl free content)
    (hop : outBlocked fuel p st = some (st1, r)) :
    ∃ asl1 free1 content1, LayerInv st1 A asl1 free1 content1 := by
  have hf : asl.length < max fuel (asl.length + 1) :=
    lt_of_lt_of_le (Nat.lt_succ_self _) (le_max_right _ _)
  have hop' := outBlocked_mono (le_max_left fuel (asl.length + 1)) hop
  by_cases hnz : st.p_semAdd p = NULL
  · simp only [outBlocked, hnz, if_true, Option.some.injEq, Prod.mk.injEq] at hop'
    obtain ⟨e, -⟩ := hop'
    subst e
    exact ⟨asl, free, content, h⟩
  · obtain ⟨j, hj, hpj⟩ := h.2.2.2 p hnz
    have hkey := h.2.2.1 j hj p hpj
    obtain ⟨pre, post, hw⟩ := List.append_of_mem hpj
    have hg := getSemd_found h.1 hj hf
    rw [← hkey] at hg
    simp only [outBlocked, hnz, if_false, hg, Option.some.injEq, Prod.mk.injEq] at hop'
    obtain ⟨e, -⟩ := hop'
    rw [← e]
    exact layer_unlink h hj hw

/-- Every state the layer reaches when `freePcb`, `insertProcQ` and
`insertBlocked` are only called on a PCB that is in no queue satisfies the
invariant of the layer. -/
theorem layerRun_inv {MAXPROC : Nat} {st : State} {A : List Nat}
    (h : LayerRun MAXPROC st A) : ∃ asl free content, LayerInv st A asl free content := by
  induction h with
  | init st h0 => exact ⟨_, _, _, layer_init MAXPROC st h0⟩
  | allocPcb r _ hop ih =>
    obtain ⟨asl, free, content, hi⟩ := ih
    obtain ⟨c1, h1⟩ := layer_alloc hi hop
    exact ⟨asl, free, c1, h1⟩
  | freePcb p _ hq ih =>
    obtain ⟨asl, free, content, hi⟩ := ih
    obtain ⟨c1, h1⟩ := layer_free hi hq
    exact ⟨asl, free, c1, h1⟩
  | mkEmptyProcQ a _ ih =>
    obtain ⟨asl, free, content, hi⟩ := ih
    obtain ⟨c1, h1⟩ := layer_mkEmpty a hi
    exact ⟨asl, free, c1, h1⟩
  | insertProcQ fuel a p _ ha hq hop ih =>
    obtain ⟨asl, free, content, hi⟩ := ih
    obtain ⟨c1, h1⟩ := layer_insertProcQ hi ha hq hop
    exact ⟨asl, free, c1, h1⟩
  | removeProcQ a r _ ha hop ih =>
    obtain ⟨asl, free, content, hi⟩ := ih
    obtain ⟨c1, h1⟩ := layer_removeProcQ hi ha hop
    exact ⟨asl, free, c1, h1⟩
  | outProcQ fuel a p r _ ha hop ih =>
    obtain ⟨asl, free, content, hi⟩ := ih
    obtain ⟨c1, h1⟩ := layer_outProcQ hi ha hop
    exact ⟨asl, free, c1, h1⟩
  | insertChild prnt p _ ih =>
    obtain ⟨asl, free, content, hi⟩ := ih
    exact ⟨asl, free, content, layer_insertChild prnt p hi⟩
  | removeChild p r _ hop ih =>
    obtain ⟨asl, free, content, hi⟩ := ih
    exact ⟨asl, free, content, layer_removeChild hi hop⟩
  | outChild p _ ih =>
    obtain ⟨asl, free, content, hi⟩ := ih
    exact ⟨asl, free, content, layer_outChild p hi⟩
  | insertBlocked fuel semAdd p r _ hq hop ih =>
    obtain ⟨asl, free, content, hi⟩ := ih
    exact layer_insertBlocked hi hq hop
  | removeBlocked fuel semAdd r _ hop ih =>
    obtain ⟨asl, free, content, hi⟩ := ih
    exact layer_removeBlocked hi hop
  | outBlocked fuel p r _ hop ih =>
    obtain ⟨asl, free, content, hi⟩ := ih
    exact layer_outBlocked hi hop

/-- A PCB that is in none of the rings of the queues of the layer is in no
queue. -/
theorem not_queued_of_rings {st : State} {A : List Nat} {p : Nat} (asl : List Nat)
    (c : QNode → List Nat) (hs : Ring st.s SNode.semd_h (asl.map SNode.s_link))
    (hr : ∀ h ∈ layerHeads A asl, Ring st.q h ((c h).map QNode.p_list))
    (hp : ∀ h ∈ layerHeads A asl, p ∉ c h) : ¬ Queued st A p := by
  have key : ∀ h ∈ layerHeads A asl, ∀ w, Ring st.q h (List.map QNode.p_list w) → p ∉ w := by
    intro h hh w hw hm
    have e : w = c h :=
      List.map_injective_iff.2 p_list_injective (ring_unique hw (hr h hh))
    subst e
    exact hp h hh hm
  rintro (⟨w, hw, hm⟩ | ⟨a, ha, w, hw, hm⟩ | ⟨asl1, j, w, hr1, hj, hw, hm⟩)
  · exact key _ (free_mem_heads A asl) w hw hm
  · exact key _ (anchor_mem_heads ha) w hw hm
  · have e1 : asl1 = asl :=
      List.map_injective_iff.2 s_link_injective (ring_unique hr1 hs)
    subst e1
    exact key _ (procq_mem_heads hj) w hw hm

/-- C17: no operation that links a PCB into a queue unlinks it first.  After
`initPcbs()`, `initASL()`, `allocPcb()` (PCB 0), `mkEmptyProcQ(anchor 0)` and
`insertProcQ(anchor 0, pcb 0)`, the call `insertBlocked(10, pcb 0)` succeeds
and leaves PCB 0 at the head of the process queue and at the head of the
waiter queue of key 10: the head of the process queue still points to it.
`freePcb(pcb 0)` right after puts it in the free pool as well, and the next
two calls of `allocPcb()` hand out PCB 1 and then PCB 0. -/
theorem pcb_in_two_queues :
    allocPcb (initASL 2 (initPcbs 2 (freshState prio5351))) = some (run_alloc, some 0) ∧
    insertProcQ 3 (QNode.anchor 0) 0 (mkEmptyProcQ (QNode.anchor 0) run_alloc) =
      some run_ready ∧
    Ring run_ready.q (QNode.anchor 0) [QNode.p_list 0] ∧
    insertBlocked 4 10 0 run_ready = some (run_both, FALSE) ∧
    headProcQ (QNode.anchor 0) run_both = some (some 0) ∧
    headBlocked 4 10 run_both = some (some 0) ∧
    run_both.q.next (QNode.anchor 0) = QNode.p_list 0 ∧
    run_both.q.next (QNode.p_list 0) ≠ QNode.anchor 0 ∧
    Ring (freePcb 0 run_both).q QNode.pcbFree_h [QNode.p_list 1, QNode.p_list 0] ∧
    headProcQ (QNode.anchor 0) (freePcb 0 run_both) = some (some 0) ∧
    headBlocked 4 10 (freePcb 0 run_both) = some (some 0) ∧
    (allocMany 2 (freePcb 0 run_both)).map Prod.fst = some [some 1, some 0] := by
  refine ⟨rfl, rfl, by decide, rfl, by decide, by decide, by decide, by decide, by decide,
    by decide, by decide, by decide⟩

/-- C17, amended: in every state reachable from `initPcbs()` and `initASL()`
(entered with no PCB recording a blocking key) by any sequence of the
operations of the layer in which `freePcb`, `insertProcQ` and `insertBlocked`
are only called on a PCB that is in no queue at that moment, the free pool,
every process queue made with `mkEmptyProcQ` and the waiter queue of every
descriptor on the ASL is a well-formed ring of PCBs, no PCB occurs twice in
one of them, and no PCB is in two of them.  The linking operations do not
unlink: the precondition is the caller's. -/
theorem one_queue_per_pcb (MAXPROC : Nat) (st : State) (A : List Nat)
    (h : LayerRun MAXPROC st A) :
    ∃ (asl free : List Nat) (content : QNode → List Nat),
      AslInv st.s st.s_key asl free ∧
      (∀ x ∈ layerHeads A asl, Ring st.q x ((content x).map QNode.p_list)) ∧
      (∀ x ∈ layerHeads A asl, (content x).Nodup) ∧
      (∀ p, ∀ x ∈ layerHeads A asl, ∀ y ∈ layerHeads A asl,
        p ∈ content x → p ∈ content y → x = y) ∧
      (∀ p, Queued st A p ↔ ∃ x ∈ layerHeads A asl, p ∈ content x) := by
  obtain ⟨asl, free, content, hi⟩ := layerRun_inv h
  refine ⟨asl, free, content, hi.1, fun x hx => (hi.2.1.1 x hx).2, ?_, ?_, ?_⟩
  · intro x hx
    exact List.Nodup.of_map _ (List.nodup_cons.1 (hi.2.1.1 x hx).2.2).2
  · intro p x hx y hy hpx hpy
    by_contra hne
    exact hi.2.1.2 x hx y hy hne p hpx hpy
  · intro p
    constructor
    · intro hq
      by_contra hn
      refine not_queued_of_rings asl content hi.1.1 (fun x hx => (hi.2.1.1 x hx).2) ?_ hq
      intro x hx hp
      exact hn ⟨x, hx, hp⟩
    · rintro ⟨x, hx, hp⟩
      by_contra hn
      exact not_queued hi hn x hx hp

theorem one_queue_per_pcb_witness :
    LayerRun 2 run_moved [0] ∧
    Ring run_moved.q QNode.pcbFree_h [QNode.p_list 1] ∧
    Ring run_moved.q (QNode.anchor 0) [] ∧
    headBlocked 4 10 run_moved = some (some 0) ∧
    (∃ (asl free : List Nat) (content : QNode → List Nat),
      AslInv run_moved.s run_moved.s_key asl free ∧
      (∀ x ∈ layerHeads [0] asl, Ring run_moved.q x ((content x).map QNode.p_list)) ∧
      (∀ x ∈ layerHeads [0] asl, (content x).Nodup) ∧
      (∀ p, ∀ x ∈ layerHeads [0] asl, ∀ y ∈ layerHeads [0] asl,
        p ∈ content x → p ∈ content y → x = y) ∧
      (∀ p, Queued run_moved [0] p ↔ ∃ x ∈ layerHeads [0] asl, p ∈ content x)) :=
  have h0 : LayerRun 2 (initASL 2 (initPcbs 2 (freshState prio5351))) [] :=
    LayerRun.init (freshState prio5351) (fun _ => rfl)
  have h1 : LayerRun 2 run_alloc [] := LayerRun.allocPcb (some 0) h0 rfl
  have h2 : LayerRun 2 (mkEmptyProcQ (QNode.anchor 0) run_alloc) [0] :=
    LayerRun.mkEmptyProcQ 0 h1
  have q2 : ¬ Queued (mkEmptyProcQ (QNode.anchor 0) run_alloc) [0] 0 :=
    not_queued_of_rings [] (fun x => if x = QNode.pcbFree_h then [1] else [])
      (by decide) (by decide) (by decide)
  have h3 : LayerRun 2 run_ready [0] := LayerRun.insertProcQ 3 0 0 h2 (by decide) q2 rfl
  have h4 : LayerRun 2 run_taken [0] := LayerRun.removeProcQ 0 (some 0) h3 (by decide) rfl
  have q4 : ¬ Queued run_taken [0] 0 :=
    not_queued_of_rings [] (fun x => if x = QNode.pcbFree_h then [1] else [])
      (by decide) (by decide) (by decide)
  have h5 : LayerRun 2 run_moved [0] := LayerRun.insertBlocked 4 10 0 false h4 q4 rfl
  ⟨h5, by decide, by decide, by decide, one_queue_per_pcb 2 run_moved [0] h5⟩

end Pandos
